import Mathlib

/-!
# OpenGE: external merge sort and mate fixing

A shallow embedding of `src/algorithms/read_sorter.cpp` (the `ReadSorter` stage) and of
`src/util/gatk/ConstrainedMateFixingManager.cpp` (`computeInsertSize`, `setMateInfo`),
together with the properties proved about them.

Conventions of the embedding:
* a `std::vector<T>` is a `List T`; an iterator range `[first, last)` of a vector is a pair of
  offsets into the list;
* C++ `int` values are modelled as `Int`, `size_t` values as `Nat` (genomic coordinates and
  buffer sizes stay far away from the machine limits);
* input that comes from outside of the modelled files (the number of cores, whether a file can
  be opened) is a parameter of the definitions.
-/

namespace OpenGE

/-! ## Alignment records handled by the sorter -/

/-- The fields of a `BamTools::BamAlignment` that the sort comparators read. -/
structure BamAlignment where
  Name : String
  RefID : Int
  Position : Int
  AlignmentFlag : Nat
  deriving DecidableEq, Repr

/-- Flag bit 0x10: the read is on the reverse strand. -/
def BamAlignment.IsReverseStrand (al : BamAlignment) : Bool := al.AlignmentFlag.testBit 4

/-- Flag bit 0x40: the read is the first of its pair. -/
def BamAlignment.IsFirstMate (al : BamAlignment) : Bool := al.AlignmentFlag.testBit 6

/-- The sort orders of `ReadSorter` (`sort_order == SORT_NAME` selects the name comparator,
every other value the position comparator). -/
inductive SortOrder where
  | SORT_NAME
  | SORT_POSITION
  deriving DecidableEq, Repr

open SortOrder

/-- Modelled from the spec: `Sort::ByPosition` (declared in `Sort.h`, which is not part of the
sources at hand).  "by-coordinate uses (ref-id with −1 sorting last, position), ties broken by
reverse-strand flag".  The value is `true` when `lhs` must be placed before `rhs`. -/
def ByPosition (lhs rhs : BamAlignment) : Bool :=
  if lhs.RefID ≠ rhs.RefID then
    if lhs.RefID = -1 then false
    else if rhs.RefID = -1 then true
    else decide (lhs.RefID < rhs.RefID)
  else if lhs.Position ≠ rhs.Position then decide (lhs.Position < rhs.Position)
  else !lhs.IsReverseStrand && rhs.IsReverseStrand

/-- Modelled from the spec: `Sort::ByName` (declared in `Sort.h`, which is not part of the
sources at hand).  "by-name uses lexicographic read-name, ties broken by flag ordering then by
first-of-pair bit". -/
def ByName (lhs rhs : BamAlignment) : Bool :=
  if lhs.Name ≠ rhs.Name then decide (lhs.Name < rhs.Name)
  else if lhs.AlignmentFlag ≠ rhs.AlignmentFlag then
    decide (lhs.AlignmentFlag < rhs.AlignmentFlag)
  else lhs.IsFirstMate && !rhs.IsFirstMate

/-! ## The standard algorithms used by `SortBuffer` -/

/-- Stable insertion of `a` in front of a sorted list: `a` goes before the first element that
is not strictly smaller than it. -/
def insert_sorted {α : Type} (comp : α → α → Bool) (a : α) : List α → List α
  | [] => [a]
  | b :: l => if comp b a then b :: insert_sorted comp a l else a :: b :: l

/-- The contract of `std::stable_sort(first, last, comp)` on a whole sequence: the elements in
non-descending order of `comp`, equivalent elements in their original order. -/
def stable_sort {α : Type} (comp : α → α → Bool) : List α → List α
  | [] => []
  | a :: l => insert_sorted comp a (stable_sort comp l)

/-- The contract of `std::inplace_merge(first, middle, last, comp)` on the two consecutive
ranges `l = [first, middle)` and `r = [middle, last)`: the stable merge, which takes from the
second range only an element that is strictly smaller than the head of the first. -/
def inplace_merge {α : Type} (comp : α → α → Bool) : List α → List α → List α
  | [], r => r
  | l, [] => l
  | a :: l, b :: r =>
    if comp b a then b :: inplace_merge comp (a :: l) r
    else a :: inplace_merge comp l (b :: r)
termination_by l r => l.length + r.length

/-- The call of `std::stable_sort` on the range `[first, last)` of `buffer`. -/
def stable_sort_range {α : Type} (comp : α → α → Bool) (buffer : List α)
    (first last : Nat) : List α :=
  buffer.take first ++ stable_sort comp ((buffer.take last).drop first) ++ buffer.drop last

/-- The call of `std::inplace_merge` on the ranges `[first, middle)` and `[middle, last)` of
`buffer`. -/
def inplace_merge_range {α : Type} (comp : α → α → Bool) (buffer : List α)
    (first middle last : Nat) : List α :=
  buffer.take first
    ++ inplace_merge comp ((buffer.take middle).drop first) ((buffer.take last).drop middle)
    ++ buffer.drop last

/-! ## `ReadSorter::SortBuffer` -/

/-- Sort jobs smaller than this many alignments are not parallelised. -/
def MERGESORT_MIN_SORT_SIZE : Nat := 30000

/-- The number of sort jobs of the threaded `SortBuffer`:
`divisions = size / MERGESORT_MIN_SORT_SIZE`, lowered to the number of available cores and
raised to 1. -/
def sortDivisions (size : Nat) (availableCores : Int) : Nat :=
  let divisions : Int := (size / MERGESORT_MIN_SORT_SIZE : Nat)
  let divisions := if divisions > availableCores then availableCores else divisions
  let divisions := if divisions < 1 then 1 else divisions
  divisions.toNat

/-- The `end` iterator of section `ctr`:
`(ctr == divisions - 1) ? buffer.end() : buffer.begin() + (1+ctr) * section_length`. -/
def sectionEnd (size divisions section_length ctr : Nat) : Nat :=
  if ctr = divisions - 1 then size else (1 + ctr) * section_length

/-- The comparator that `SortBuffer` and `SortJob::runJob` select. -/
def selectComparator {α : Type} (byName byPosition : α → α → Bool) (sort_order : SortOrder) :
    α → α → Bool :=
  if sort_order = SORT_NAME then byName else byPosition

/-- The effect of `SortJob::runJob` for the job started with counter `ctr`: a stable sort of
its own section of the buffer. -/
def SortJob_runJob {α : Type} (comp : α → α → Bool) (divisions section_length : Nat)
    (buffer : List α) (ctr : Nat) : List α :=
  stable_sort_range comp buffer (ctr * section_length)
    (sectionEnd buffer.length divisions section_length ctr)

/-- One round of the rejoin loop of `SortBuffer`:
`std::inplace_merge(buffer.begin(), midpoint, end, comp)`. -/
def rejoinStep {α : Type} (comp : α → α → Bool) (divisions section_length : Nat)
    (buffer : List α) (ctr : Nat) : List α :=
  inplace_merge_range comp buffer 0 (ctr * section_length)
    (sectionEnd buffer.length divisions section_length ctr)

/-- The threaded branch of `SortBuffer`: one sort job per section (the jobs work on disjoint
ranges, so their joint effect is that of running them one after the other), then the rejoin
loop `for (ctr = 1; ctr < divisions; ctr++)`. -/
def SortBuffer_threaded {α : Type} (comp : α → α → Bool) (availableCores : Int)
    (buffer : List α) : List α :=
  let divisions := sortDivisions buffer.length availableCores
  let section_length := buffer.length / divisions
  let sorted := (List.range' 0 divisions).foldl (SortJob_runJob comp divisions section_length)
    buffer
  (List.range' 1 (divisions - 1)).foldl (rejoinStep comp divisions section_length) sorted

/-- The method `ReadSorter::SortBuffer`, for either element type `T` of the template. -/
def SortBuffer {α : Type} (byName byPosition : α → α → Bool) (nothreads : Bool)
    (sort_order : SortOrder) (availableCores : Int) (buffer : List α) : List α :=
  if nothreads then
    if sort_order = SORT_NAME then stable_sort byName buffer
    else stable_sort byPosition buffer
  else
    SortBuffer_threaded (selectComparator byName byPosition sort_order) availableCores buffer

/-- The ranges `[begin, end)` of the buffer with which the threaded `SortBuffer` creates its
sort jobs, in the order of the loop `for (ctr = 0; ctr < divisions; ctr++)`. -/
def sortSections (size : Nat) (availableCores : Int) : List (Nat × Nat) :=
  let divisions := sortDivisions size availableCores
  let section_length := size / divisions
  (List.range' 0 divisions).map
    (fun ctr => (ctr * section_length, sectionEnd size divisions section_length ctr))

/-! ## `ReadSorter`: generation of the sorted runs -/

/-- What the sorter sees of its surroundings. -/
structure SorterEnv where
  /-- The value of `ThreadPool::availableCores()`. -/
  availableCores : Int
  /-- Whether `BamWriter::Open` succeeds on the temp file of the given name. -/
  writerOpens : String → Bool
  /-- Whether `BamMultiReader::Open` succeeds on the given temp files. -/
  multiReaderOpens : List String → Bool

/-- The state of a `ReadSorter`, and of the files and streams it acts on. -/
structure ReadSorter where
  nothreads : Bool
  sort_order : SortOrder
  alignments_per_tempfile : Nat
  m_tempFilenameStub : String
  m_numberOfRuns : Nat
  m_tempFilenames : List String
  /-- The members that `Run` returns; no statement of `read_sorter.cpp` assigns them. -/
  sort_retval : Bool
  merge_retval : Bool
  /-- The sort-order tag of `m_header`. -/
  m_header_SortOrder : SortOrder
  /-- The temp files on disk: name and content. -/
  tempFiles : List (String × List BamAlignment)
  /-- The alignments passed to `putOutputAlignment`, in order. -/
  output : List BamAlignment
  /-- The messages written to `cerr` about temp files that could not be written. -/
  problems : List String
  /-- The buffers passed to `CreateSortedTempFile`, in order (a history, not a member). -/
  handedOff : List (List BamAlignment)

/-- The method `ReadSorter::WriteTempFile` (both overloads): `false` when the writer cannot
open the file, otherwise the buffer is saved under that name. -/
def WriteTempFile (env : SorterEnv) (s : ReadSorter) (buffer : List BamAlignment)
    (tempFilename : String) : Bool × ReadSorter :=
  if !env.writerOpens tempFilename then (false, s)
  else (true, { s with tempFiles := s.tempFiles ++ [(tempFilename, buffer)] })

/-- The method `ReadSorter::TempFileWriteJob::runJob`: sort, write, and report a failed write
on `cerr` only. -/
def TempFileWriteJob_runJob (env : SorterEnv) (s : ReadSorter) (buffer : List BamAlignment)
    (filename : String) : ReadSorter :=
  let buffer := SortBuffer ByName ByPosition s.nothreads s.sort_order env.availableCores buffer
  let (success, s) := WriteTempFile env s buffer filename
  if !success then
    { s with problems := s.problems ++ ["Problem writing out temporary file " ++ filename] }
  else s

/-- The method `ReadSorter::CreateSortedTempFile`.  In threaded mode the job is handed to the
thread pool; its effect is applied here, since every job writes a file of its own and
`GenerateSortedRuns` waits for all of them before it returns. -/
def CreateSortedTempFile (env : SorterEnv) (s : ReadSorter) (buffer : List BamAlignment) :
    Bool × ReadSorter :=
  let s := { s with handedOff := s.handedOff ++ [buffer] }
  let tempStr := s.m_tempFilenameStub ++ toString s.m_numberOfRuns
  let s := { s with m_tempFilenames := s.m_tempFilenames ++ [tempStr] }
  let s := { s with m_numberOfRuns := s.m_numberOfRuns + 1 }
  let success := true
  if s.nothreads then
    let sort_buffer :=
      SortBuffer ByName ByPosition s.nothreads s.sort_order env.availableCores buffer
    WriteTempFile env s sort_buffer tempStr
  else
    (success, TempFileWriteJob_runJob env s buffer tempStr)

/-- The `while (true)` loop of `GenerateSortedRuns` (the same in both branches of the test on
`sort_order`), run on the alignments that `getInputAlignment` still has to deliver; the
result of `CreateSortedTempFile` is dropped, as in the source. -/
def fillBuffers (env : SorterEnv) :
    ReadSorter → List BamAlignment → List BamAlignment → ReadSorter × List BamAlignment
  | s, buffer, [] => (s, buffer)
  | s, buffer, al :: input =>
    let bufferFull := decide (buffer.length ≥ s.alignments_per_tempfile)
    if !bufferFull then fillBuffers env s (buffer ++ [al]) input
    else fillBuffers env (CreateSortedTempFile env s buffer).2 [al] input

/-- The method `ReadSorter::GenerateSortedRuns` on the input stream `input`. -/
def GenerateSortedRuns (env : SorterEnv) (s : ReadSorter) (input : List BamAlignment) :
    Bool × ReadSorter :=
  let s := { s with m_header_SortOrder :=
    if s.sort_order = SORT_NAME then SORT_NAME else SORT_POSITION }
  let (s, buffer) :=
    if s.sort_order = SORT_NAME then fillBuffers env s [] input
    else fillBuffers env s [] input
  let s := if !buffer.isEmpty then (CreateSortedTempFile env s buffer).2 else s
  (true, s)

/-- The method `ReadSorter::MergeSortedRuns`: the multi reader delivers the temp files as one
ordered stream (a merge of the runs under the sort comparator), then the temp files are
removed. -/
def MergeSortedRuns (env : SorterEnv) (s : ReadSorter) : Bool × ReadSorter :=
  if !env.multiReaderOpens s.m_tempFilenames then (false, s)
  else
    let comp := selectComparator ByName ByPosition s.sort_order
    let merged := (s.tempFiles.map Prod.snd).foldl (inplace_merge comp) []
    (true, { s with
      output := s.output ++ merged
      tempFiles := s.tempFiles.filter (fun f => !s.m_tempFilenames.contains f.1) })

/-- The method `ReadSorter::RunSort`. -/
def RunSort (env : SorterEnv) (s : ReadSorter) (input : List BamAlignment) :
    Bool × ReadSorter :=
  let (ok, s) := GenerateSortedRuns env s input
  if ok then MergeSortedRuns env s else (false, s)

/-- The method `ReadSorter::Run`: the result of `RunSort` is not used. -/
def Run (env : SorterEnv) (s : ReadSorter) (input : List BamAlignment) : Bool × ReadSorter :=
  let s := { s with m_header_SortOrder :=
    if s.sort_order = SORT_NAME then SORT_NAME else SORT_POSITION }
  let s := (RunSort env s input).2
  (s.sort_retval && s.merge_retval, s)

/-- The method `ReadSorter::runInternal`: the `bool` of `Run` as the `int` status of the
stage. -/
def runInternal (env : SorterEnv) (s : ReadSorter) (input : List BamAlignment) : Int :=
  if (Run env s input).1 then 1 else 0

/-! ## Reads handled by the mate-fixing manager -/

/-- One CIGAR operation. -/
structure CigarOp where
  type : Char
  length : Nat
  deriving DecidableEq, Repr

/-- The fields of an `OGERead` that `computeInsertSize`, `setMateInfo` and the mate-fixing
manager read or write.  The flag bits are kept as separate booleans; of the tags only `MQ` is
kept. -/
structure OGERead where
  Name : String
  RefID : Int
  Position : Int
  MapQuality : Nat
  CigarData : List CigarOp
  /-- The length of the query sequence, the value of `getLength()`. -/
  Length : Int
  paired : Bool
  mapped : Bool
  reverseStrand : Bool
  mateMapped : Bool
  mateReverseStrand : Bool
  MateRefID : Int
  MatePosition : Int
  InsertSize : Int
  tagMQ : Option Nat
  deriving DecidableEq, Repr

namespace OGERead

@[simp]
def getRefID (r : OGERead) : Int := r.RefID
@[simp]
def getPosition (r : OGERead) : Int := r.Position
@[simp]
def getMateRefID (r : OGERead) : Int := r.MateRefID
@[simp]
def getMatePosition (r : OGERead) : Int := r.MatePosition
@[simp]
def getMapQuality (r : OGERead) : Nat := r.MapQuality
@[simp]
def getCigarData (r : OGERead) : List CigarOp := r.CigarData
@[simp]
def getLength (r : OGERead) : Int := r.Length
@[simp]
def getName (r : OGERead) : String := r.Name
@[simp]
def IsMapped (r : OGERead) : Bool := r.mapped
@[simp]
def IsPaired (r : OGERead) : Bool := r.paired
@[simp]
def IsReverseStrand (r : OGERead) : Bool := r.reverseStrand
@[simp]
def IsMateMapped (r : OGERead) : Bool := r.mateMapped
@[simp]
def setRefID (r : OGERead) (v : Int) : OGERead := { r with RefID := v }
@[simp]
def setPosition (r : OGERead) (v : Int) : OGERead := { r with Position := v }
@[simp]
def setMateRefID (r : OGERead) (v : Int) : OGERead := { r with MateRefID := v }
@[simp]
def setMatePosition (r : OGERead) (v : Int) : OGERead := { r with MatePosition := v }
@[simp]
def setInsertSize (r : OGERead) (v : Int) : OGERead := { r with InsertSize := v }
@[simp]
def SetIsMateMapped (r : OGERead) (ok : Bool) : OGERead := { r with mateMapped := ok }
@[simp]
def SetIsMateReverseStrand (r : OGERead) (ok : Bool) : OGERead :=
  { r with mateReverseStrand := ok }

/-- Modelled from the spec: `OGERead::AddTag("MQ", "S", value)` (the class is not part of the
sources at hand).  "set tag `MQ` to the partner's mapping quality". -/
@[simp]
def AddTagMQ (r : OGERead) (value : Nat) : OGERead := { r with tagMQ := some value }

/-- The call `RemoveTag("MQ")`. -/
@[simp]
def RemoveTagMQ (r : OGERead) : OGERead := { r with tagMQ := none }

end OGERead

/-! ## `computeInsertSize` and `setMateInfo` -/

/-- The function `getReferenceLength`: the summed lengths of the operations `M`, `D`, `N`, `=`
and `X`. -/
def getReferenceLength (read : OGERead) : Nat :=
  read.getCigarData.foldl
    (fun length i =>
      if i.type = 'M' ∨ i.type = 'D' ∨ i.type = 'N' ∨ i.type = '=' ∨ i.type = 'X' then
        length + i.length
      else length)
    0

/-- The value of a result as an `int`: the representative of the value modulo `2^32` in the
range of a 32-bit `int`.  This is the conversion of a wider unsigned value to `int`, and the
result of an `int` operation that overflows on the two's complement targets. -/
def toInt32 (x : Int) : Int := (x + 2147483648) % 4294967296 - 2147483648

/-- The function `getEndPosition`: the sum `read.getPosition() + getReferenceLength(read) - 1`
is formed in `size_t` and truncated to the `int` that is returned, so the value returned is
the sum modulo `2^32`, whatever the width of `size_t`. -/
def getEndPosition (read : OGERead) : Int :=
  toInt32 (read.getPosition + getReferenceLength read - 1)

/-- The value of the C++ expression `!x` for an `int` `x`, converted back to `int` for the
comparison that follows it. -/
def logicalNot (x : Int) : Int := if x = 0 then 1 else 0

/-- The function `computeInsertSize`.  The second test is the source's
`!firstEnd.getRefID() == secondEnd.getRefID()`, in which `!` applies to the first reference
id alone.  The subtraction and the addition of the `return` statement are `int`
operations. -/
def computeInsertSize (firstEnd secondEnd : OGERead) : Int :=
  if !firstEnd.IsMapped || !secondEnd.IsMapped then 0
  else if logicalNot firstEnd.getRefID = secondEnd.getRefID then 0
  else
    let firstEnd5PrimePosition :=
      if firstEnd.IsReverseStrand then getEndPosition firstEnd else firstEnd.getPosition
    let secondEnd5PrimePosition :=
      if secondEnd.IsReverseStrand then getEndPosition secondEnd else secondEnd.getPosition
    let adjustment : Int := if secondEnd5PrimePosition ≥ firstEnd5PrimePosition then 1 else -1
    toInt32 (toInt32 (secondEnd5PrimePosition - firstEnd5PrimePosition) + adjustment)

def NO_ALIGNMENT_REFERENCE_INDEX : Int := -1
def NO_ALIGNMENT_START : Int := -1

/-- The last branch of `setMateInfo`, on the references `mapped` and `unmapped`; the result is
the new value of `(mapped, unmapped)`. -/
def setMateInfo_oneMapped (mapped unmapped : OGERead) : OGERead × OGERead :=
  let unmapped := unmapped.setRefID mapped.getRefID
  let unmapped := unmapped.setPosition mapped.getPosition
  let mapped := mapped.setMateRefID unmapped.getRefID
  let mapped := mapped.setMatePosition unmapped.getPosition
  let mapped := mapped.SetIsMateReverseStrand unmapped.IsReverseStrand
  let mapped := mapped.SetIsMateMapped false
  let unmapped := unmapped.setMateRefID mapped.getRefID
  let unmapped := unmapped.setMatePosition mapped.getPosition
  let unmapped := unmapped.SetIsMateReverseStrand mapped.IsReverseStrand
  let unmapped := unmapped.SetIsMateMapped true
  (mapped, unmapped)

/-- The three branches of `setMateInfo` that precede the computation of the insert size, on two
distinct records; the result is the new value of `(rec1, rec2)`. -/
def setMateInfo_flags (rec1 rec2 : OGERead) : OGERead × OGERead :=
  if rec1.IsMapped && rec2.IsMapped then
    let rec1 := rec1.setMateRefID rec2.getMateRefID
    let rec1 := rec1.setMatePosition rec2.getPosition
    let rec1 := rec1.SetIsMateReverseStrand rec2.IsReverseStrand
    let rec1 := rec1.SetIsMateMapped true
    let rec1 := rec1.AddTagMQ rec2.getMapQuality
    let rec2 := rec2.setMateRefID rec1.getRefID
    let rec2 := rec2.setMatePosition rec1.getPosition
    let rec2 := rec2.SetIsMateReverseStrand rec1.IsReverseStrand
    let rec2 := rec2.SetIsMateMapped true
    let rec2 := rec2.AddTagMQ rec1.getMapQuality
    (rec1, rec2)
  else if !rec1.IsMapped && !rec2.IsMapped then
    let rec1 := rec1.setRefID NO_ALIGNMENT_REFERENCE_INDEX
    let rec1 := rec1.setPosition NO_ALIGNMENT_START
    let rec1 := rec1.setMateRefID NO_ALIGNMENT_REFERENCE_INDEX
    let rec1 := rec1.setMatePosition NO_ALIGNMENT_START
    let rec1 := rec1.SetIsMateReverseStrand rec2.IsReverseStrand
    let rec1 := rec1.SetIsMateMapped false
    let rec2 := rec2.RemoveTagMQ
    let rec2 := rec2.setRefID NO_ALIGNMENT_REFERENCE_INDEX
    let rec2 := rec2.setPosition NO_ALIGNMENT_START
    let rec2 := rec2.setMateRefID NO_ALIGNMENT_REFERENCE_INDEX
    let rec2 := rec2.setMatePosition NO_ALIGNMENT_START
    let rec2 := rec2.SetIsMateReverseStrand rec1.IsReverseStrand
    let rec2 := rec2.SetIsMateMapped true
    let rec2 := rec2.RemoveTagMQ
    (rec1, rec2)
  else if rec1.IsMapped then
    setMateInfo_oneMapped rec1 rec2
  else
    let (mapped, unmapped) := setMateInfo_oneMapped rec2 rec1
    (unmapped, mapped)

/-- The function `setMateInfo(rec1, rec2)` on two distinct records; the result is the new value of
`(rec1, rec2)`. -/
def setMateInfo (rec1 rec2 : OGERead) : OGERead × OGERead :=
  let (rec1, rec2) := setMateInfo_flags rec1 rec2
  let insertSize := computeInsertSize rec1 rec2
  let insertSize := if insertSize > 0 then insertSize - 1 else insertSize
  let insertSize := if insertSize < 0 then insertSize + 1 else insertSize
  let rec1 := rec1.setInsertSize insertSize
  let rec2 := rec2.setInsertSize (-insertSize)
  (rec1, rec2)

/-! ## `ReadSorter::getHeader` -/

/-- The fields of a `BamTools::SamHeader`. -/
structure SamHeader where
  Version : String
  SortOrder : String
  GroupOrder : String
  Sequences : List (String × Nat)
  ReadGroups : List String
  Programs : List String
  Comments : List String
  deriving DecidableEq, Repr

/-- Modelled from the spec: the constant `Constants::SAM_HD_SORTORDER_QUERYNAME` (declared in
`SamConstants.h`, which is not part of the sources at hand), the tag value of `SO:queryname`. -/
def SAM_HD_SORTORDER_QUERYNAME : String := "queryname"

/-- Modelled from the spec: the constant `Constants::SAM_HD_SORTORDER_COORDINATE` (declared in
`SamConstants.h`, which is not part of the sources at hand), the tag value of
`SO:coordinate`. -/
def SAM_HD_SORTORDER_COORDINATE : String := "coordinate"

/-- The method `ReadSorter::getHeader`; `sourceHeader` is the value of
`source->getHeader()`. -/
def ReadSorter.getHeader (s : ReadSorter) (sourceHeader : SamHeader) : SamHeader :=
  let header := sourceHeader
  let header := { header with SortOrder :=
    if s.sort_order = SORT_NAME then SAM_HD_SORTORDER_QUERYNAME
    else SAM_HD_SORTORDER_COORDINATE }
  header

/-! ## The movability test of the mate-fixing manager -/

/-- The static method `ConstrainedMateFixingManager::iSizeTooBigToMove(read, max)`; the second
operand of `||` reads `getLength()`. -/
def iSizeTooBigToMove (read : OGERead) (maxInsertSizeForMovingReadPairs : Int) : Bool :=
  (read.IsPaired && read.IsMapped && decide (read.getRefID ≠ read.getMateRefID))
    || decide (|read.getLength| > maxInsertSizeForMovingReadPairs)

/-- The method `ConstrainedMateFixingManager::pairedReadIsMovable`, for a manager built with
the given `maxInsertSizeForMovingReadPairs`. -/
def pairedReadIsMovable (maxInsertSizeForMovingReadPairs : Int) (read : OGERead) : Bool :=
  read.IsPaired
    && (read.IsMapped || read.IsMateMapped)
    && !iSizeTooBigToMove read maxInsertSizeForMovingReadPairs

/-! ## `ConstrainedMateFixingManager` -/

/-- A locus: contig index, start and stop. -/
structure GenomeLoc where
  contig : Int
  start : Int
  stop : Int
  deriving DecidableEq, Repr

/-- An entry of `forMateMatching`: the pointer to the record and its `wasModified` flag. -/
structure SAMRecordHashObject where
  record : Nat
  wasModified : Bool
  deriving DecidableEq, Repr

/-- The state of a `ConstrainedMateFixingManager`, together with the reads that its pointers
refer to and the reads it has written.  Reads are named by their addresses.  The comparator
of `waitingReads_t`, the constant `EMIT_FREQUENCY` and `GenomeLocParser::createGenomeLoc` are
declared in files that are not part of the sources at hand; they are parameters. -/
structure ConstrainedMateFixingManager where
  maxInsertSizeForMovingReadPairs : Int
  MAX_POS_MOVE_ALLOWED : Int
  MAX_RECORDS_IN_MEMORY : Nat
  EMIT_FREQUENCY : Nat
  /-- The comparator of the set `waitingReads`, on pointers and the reads they point to. -/
  less : Nat × OGERead → Nat × OGERead → Bool
  createGenomeLoc : OGERead → GenomeLoc
  /-- The read at an address. -/
  reads : Nat → OGERead
  /-- The elements of the set `waitingReads` in the order of its iteration. -/
  waitingReads : List Nat
  /-- The entries of the map `forMateMatching`, no two of them with the same name. -/
  forMateMatching : List (String × SAMRecordHashObject)
  /-- The locus `lastLocFlushed`, `none` for `NULL`. -/
  lastLocFlushed : Option GenomeLoc
  counter : Nat
  /-- The calls of `writeRead`, in order: the pointer and the read as it was written. -/
  written : List (Nat × OGERead)

/-- The call `std::set::insert(x)` on a set with comparator `lt`: no insertion when the set
holds an element equivalent to `x`. -/
def setInsert (lt : Nat → Nat → Bool) (x : Nat) : List Nat → List Nat
  | [] => [x]
  | y :: ys =>
    if lt x y then x :: y :: ys
    else if lt y x then y :: setInsert lt x ys
    else y :: ys

/-- The call `std::set::count(x)`: the number of elements equivalent to `x`. -/
def setCount (lt : Nat → Nat → Bool) (x : Nat) (set : List Nat) : Nat :=
  (set.filter (fun y => !lt x y && !lt y x)).length

/-- The set after the call `std::set::erase(x)`, which removes the elements equivalent to `x`
and returns their number, `setCount lt x set`. -/
def setErase (lt : Nat → Nat → Bool) (x : Nat) (set : List Nat) : List Nat :=
  set.filter (fun y => lt x y || lt y x)

namespace ConstrainedMateFixingManager

/-- The comparator of `waitingReads` on two pointers, with the reads as they are now. -/
def lessPtr (m : ConstrainedMateFixingManager) (a b : Nat) : Bool :=
  m.less (a, m.reads a) (b, m.reads b)

/-- The method `writeRead`: the read goes to the output as it is now. -/
def writeRead (m : ConstrainedMateFixingManager) (read : Nat) : ConstrainedMateFixingManager :=
  { m with written := m.written ++ [(read, m.reads read)] }

/-- The method `remove(waitingReads)`: the first element, taken out of the set; `none` when
the set is empty, where the source dereferences `begin()` and its assertion fails. -/
def remove (m : ConstrainedMateFixingManager) : Option (Nat × ConstrainedMateFixingManager) :=
  match m.waitingReads with
  | [] => none
  | first :: rest => some (first, { m with waitingReads := rest })

/-- The method `noReadCanMoveBefore`. -/
def noReadCanMoveBefore (m : ConstrainedMateFixingManager) (pos : Int) (addedRead : OGERead) :
    Bool :=
  decide (pos + 2 * m.MAX_POS_MOVE_ALLOWED < addedRead.getPosition)

/-- The method `purgeUnmodifiedMates`. -/
def purgeUnmodifiedMates (m : ConstrainedMateFixingManager) : ConstrainedMateFixingManager :=
  { m with forMateMatching := m.forMateMatching.filter (fun entry => entry.2.wasModified) }

/-- The loop `while (waitingReads.size() > 1) writeRead(remove(waitingReads))`, on a manager
whose set holds `waiting`. -/
def writeAllButLast (m : ConstrainedMateFixingManager) :
    List Nat → ConstrainedMateFixingManager
  | first :: second :: rest =>
    writeAllButLast ({ m with waitingReads := second :: rest }.writeRead first) (second :: rest)
  | _ => m

/-- The loop `while (!waitingReads.empty()) writeRead(remove(waitingReads))` of `close`, on a
manager whose set holds `waiting`. -/
def writeAll (m : ConstrainedMateFixingManager) : List Nat → ConstrainedMateFixingManager
  | [] => m
  | first :: rest => writeAll ({ m with waitingReads := rest }.writeRead first) rest

/-- The value of `tooManyReads` in `addReadInternal`. -/
def tooManyReads (m : ConstrainedMateFixingManager) : Bool :=
  decide (m.waitingReads.length ≥ m.MAX_RECORDS_IN_MEMORY)

/-- The condition of the first `if` of `addReadInternal`. -/
def flushCondition (m : ConstrainedMateFixingManager) (newRead : Nat) (canFlush : Bool) :
    Bool :=
  (canFlush && m.tooManyReads)
    || (match m.waitingReads with
        | [] => false
        | first :: _ => decide ((m.reads first).getRefID ≠ (m.reads newRead).getRefID))

/-- The body of the first `if` of `addReadInternal`: the queue is flushed. -/
def flushQueue (m : ConstrainedMateFixingManager) : Option ConstrainedMateFixingManager :=
  let tooManyReads := m.tooManyReads
  let m := m.writeAllButLast m.waitingReads
  match m.remove with
  | none => none
  | some (lastRead, m) =>
    let loc :=
      if (m.reads lastRead).getRefID = -1 then none
      else some (m.createGenomeLoc (m.reads lastRead))
    let m := { m with lastLocFlushed := loc }
    let m := m.writeRead lastRead
    if !tooManyReads then some { m with forMateMatching := [] }
    else some m.purgeUnmodifiedMates

/-- The first `if` of `addReadInternal`. -/
def flushIfNeeded (m : ConstrainedMateFixingManager) (newRead : Nat) (canFlush : Bool) :
    Option ConstrainedMateFixingManager :=
  if m.flushCondition newRead canFlush then m.flushQueue else some m

/-- The statement `if (newRead->IsPaired()) …` of `addReadInternal`, for a new read that is
not the record of its entry in `forMateMatching`. -/
def fixMates (m : ConstrainedMateFixingManager) (newRead : Nat) (readWasModified : Bool) :
    ConstrainedMateFixingManager :=
  if (m.reads newRead).IsPaired then
    match m.forMateMatching.lookup (m.reads newRead).getName with
    | some mate =>
      let doNotFixMates := !(m.reads newRead).IsMapped
        && (!(m.reads mate.record).IsMapped
            || decide (setCount m.lessPtr mate.record m.waitingReads = 0))
      let m :=
        if !doNotFixMates then
          let reQueueMate := !(m.reads mate.record).IsMapped && (m.reads newRead).IsMapped
          let erased := if reQueueMate then setCount m.lessPtr mate.record m.waitingReads else 0
          let m :=
            if reQueueMate then
              { m with waitingReads := setErase m.lessPtr mate.record m.waitingReads }
            else m
          let reQueueMate := reQueueMate && decide (erased ≠ 0)
          let fixed := setMateInfo (m.reads mate.record) (m.reads newRead)
          let reads :=
            Function.update (Function.update m.reads mate.record fixed.1) newRead fixed.2
          let m := { m with reads := reads }
          if reQueueMate then
            { m with waitingReads := setInsert m.lessPtr mate.record m.waitingReads }
          else m
        else m
      { m with forMateMatching :=
          m.forMateMatching.filter (fun entry => entry.1 ≠ (m.reads newRead).getName) }
    | none =>
      if pairedReadIsMovable m.maxInsertSizeForMovingReadPairs (m.reads newRead) then
        { m with forMateMatching :=
            m.forMateMatching ++ [((m.reads newRead).getName, ⟨newRead, readWasModified⟩)] }
      else m
  else m

/-- The loop of the emission sweep of `addReadInternal`, on a manager whose set holds
`waiting`. -/
def emitLoop (m : ConstrainedMateFixingManager) (newRead : Nat) :
    List Nat → ConstrainedMateFixingManager
  | [] => m
  | read :: rest =>
    if m.noReadCanMoveBefore (m.reads read).getPosition (m.reads newRead)
        && (!pairedReadIsMovable m.maxInsertSizeForMovingReadPairs (m.reads read)
            || m.noReadCanMoveBefore (m.reads read).getMatePosition (m.reads newRead)) then
      let m := { m with forMateMatching :=
        m.forMateMatching.filter (fun entry => entry.1 ≠ (m.reads read).getName) }
      emitLoop ({ m with waitingReads := rest }.writeRead read) newRead rest
    else m

/-- The method `addReadInternal`; `none` when the assertion of `remove` fails. -/
def addReadInternal (m : ConstrainedMateFixingManager) (newRead : Nat)
    (readWasModified canFlush : Bool) : Option ConstrainedMateFixingManager :=
  match m.flushIfNeeded newRead canFlush with
  | none => none
  | some m =>
    let m := m.fixMates newRead readWasModified
    let m := { m with waitingReads := setInsert m.lessPtr newRead m.waitingReads }
    let m := { m with counter := m.counter + 1 }
    if m.counter % m.EMIT_FREQUENCY = 0 then some (m.emitLoop newRead m.waitingReads)
    else some m

/-- The method `addRead` in single-threaded mode. -/
def addRead (m : ConstrainedMateFixingManager) (newRead : Nat)
    (readWasModified canFlush : Bool) : Option ConstrainedMateFixingManager :=
  m.addReadInternal newRead readWasModified canFlush

/-- The method `addReads` in single-threaded mode. -/
def addReads (m : ConstrainedMateFixingManager) :
    List Nat → List Nat → Option ConstrainedMateFixingManager
  | [], _ => some m
  | newRead :: newReads, modifiedReads =>
    match m.addReadInternal newRead (decide (modifiedReads.count newRead > 0)) false with
    | none => none
    | some m => addReads m newReads modifiedReads

/-- The method `close` in single-threaded mode. -/
def close (m : ConstrainedMateFixingManager) : ConstrainedMateFixingManager :=
  m.writeAll m.waitingReads

end ConstrainedMateFixingManager

/-- A call of the client of a mate-fixing manager. -/
inductive ManagerCall where
  | addRead (newRead : Nat) (readWasModified canFlush : Bool)
  | addReads (newReads modifiedReads : List Nat)
  deriving DecidableEq, Repr

/-- The reads that a call hands to the manager. -/
def ManagerCall.pointers : ManagerCall → List Nat
  | ManagerCall.addRead newRead _ _ => [newRead]
  | ManagerCall.addReads newReads _ => newReads

/-- A sequence of calls of `addRead` and `addReads`; `none` when an assertion fails. -/
def ConstrainedMateFixingManager.runCalls (m : ConstrainedMateFixingManager) :
    List ManagerCall → Option ConstrainedMateFixingManager
  | [] => some m
  | ManagerCall.addRead newRead readWasModified canFlush :: calls =>
    match m.addRead newRead readWasModified canFlush with
    | none => none
    | some m => runCalls m calls
  | ManagerCall.addReads newReads modifiedReads :: calls =>
    match m.addReads newReads modifiedReads with
    | none => none
    | some m => runCalls m calls

/-- Modelled from the spec: the comparator of `waitingReads_t`, which is declared in a header
that is not part of the sources at hand.  "`waiting_reads`: ordered set keyed by
coordinate-sort order", and by-coordinate is "(ref-id with −1 sorting last, position), ties
broken by reverse-strand flag".  The addresses of the records are not looked at. -/
def coordinateLess (a b : Nat × OGERead) : Bool :=
  if a.2.RefID ≠ b.2.RefID then
    if a.2.RefID = -1 then false
    else if b.2.RefID = -1 then true
    else decide (a.2.RefID < b.2.RefID)
  else if a.2.Position ≠ b.2.Position then decide (a.2.Position < b.2.Position)
  else !a.2.IsReverseStrand && b.2.IsReverseStrand

/-! ## `FileReader` -/

/-- The formats that `FileReader` tells apart. -/
inductive file_format_t where
  | FORMAT_BAM
  | FORMAT_SAM
  | FORMAT_UNKNOWN
  deriving DecidableEq, Repr

open file_format_t

/-- How a call ends: it returns a value, or it ends the process through `exit(status)`. -/
inductive Outcome (α : Type) where
  | returned (value : α)
  | exited (status : Int)
  deriving DecidableEq, Repr

/-- What the file reader sees of its surroundings. -/
structure ReaderEnv where
  /-- The bytes of the file of the given name, `none` when `fopen` fails. -/
  fopen : String → Option (List Nat)
  /-- The header and the alignments that a `BamMultiReader` opened on the given files
  delivers, `none` when `Open` fails. -/
  bamMultiReaderOpen : List String → Option (SamHeader × List BamAlignment)
  /-- The header and the alignments that a `SamReader` opened on the given file delivers,
  `none` when `Open` fails. -/
  samReaderOpen : String → Option (SamHeader × List BamAlignment)

/-- The tests of `deduceFileFormat` on the two bytes read: `'@'` is 64, the gzip magic is
31, 139. -/
def formatOfBytes (data0 data1 : Nat) : file_format_t :=
  if data0 = 64 then FORMAT_SAM
  else if data0 = 31 ∧ data1 = 139 then FORMAT_BAM
  else FORMAT_UNKNOWN

/-- The loop of `FileReader::deduceFileFormat` from index `i` on, with the bytes that `stdin`
still holds as state.  A file is closed after the two bytes are read; the two bytes read from
`stdin` are pushed back with `ungetc`, which succeeds for bytes just read, so that the stream
is as before. -/
def deduceFileFormat_loop (env : ReaderEnv) :
    Nat → file_format_t → List Nat → List String → Outcome file_format_t × List Nat
  | _, ret_format, stdin, [] => (Outcome.returned ret_format, stdin)
  | i, ret_format, stdin, filename :: filenames =>
    match (if filename = "stdin" then some stdin else env.fopen filename) with
    | none => (Outcome.returned FORMAT_UNKNOWN, stdin)
    | some (data0 :: data1 :: _) =>
      let this_file_format := formatOfBytes data0 data1
      let ret_format := if i = 0 then this_file_format else ret_format
      if i ≠ 0 ∧ ret_format ≠ this_file_format then (Outcome.exited (-1), stdin)
      else deduceFileFormat_loop env (i + 1) ret_format stdin filenames
    | some _ => (Outcome.returned FORMAT_UNKNOWN, if filename = "stdin" then [] else stdin)

/-- The method `FileReader::deduceFileFormat`. -/
def deduceFileFormat (env : ReaderEnv) (stdin : List Nat) (filenames : List String) :
    Outcome file_format_t × List Nat :=
  deduceFileFormat_loop env 0 FORMAT_UNKNOWN stdin filenames

/-- The state of a `FileReader`. -/
structure FileReader where
  filenames : List String
  format_specified : Bool
  format : file_format_t
  header : Option SamHeader
  isOpen : Bool
  /-- The alignments passed to `putOutputAlignment`, in order. -/
  output : List BamAlignment
  deriving Repr

/-- The first loop over the readers of the SAM branch of `runInternal`: every file is opened;
the result is `none` when an `Open` fails, otherwise what the readers deliver. -/
def openSamReaders (env : ReaderEnv) :
    List String → Option (List (SamHeader × List BamAlignment))
  | [] => some []
  | filename :: filenames =>
    match env.samReaderOpen filename with
    | none => none
    | some reader =>
      match openSamReaders env filenames with
      | none => none
      | some readers => some (reader :: readers)

/-- The method `FileReader::runInternal`. -/
def FileReader.runInternal (env : ReaderEnv) (stdin : List Nat) (r : FileReader) :
    Outcome Int × FileReader :=
  let deduced :=
    if !r.format_specified then (deduceFileFormat env stdin r.filenames).1
    else Outcome.returned r.format
  match deduced with
  | Outcome.exited status => (Outcome.exited status, r)
  | Outcome.returned format =>
    let r := { r with format := format }
    if r.format = FORMAT_BAM then
      match env.bamMultiReaderOpen r.filenames with
      | none => (Outcome.returned (-1), r)
      | some (header, alignments) =>
        (Outcome.returned 0,
          { r with header := some header, isOpen := true, output := r.output ++ alignments })
    else if r.format = FORMAT_SAM then
      match openSamReaders env r.filenames with
      | none => (Outcome.returned (-1), r)
      | some readers =>
        (Outcome.returned 0,
          { r with header := (readers.head?).map Prod.fst, isOpen := !readers.isEmpty,
                   output := r.output ++ (readers.map Prod.snd).flatten })
    else (Outcome.exited (-1), r)

/-- The status with which a run ends, returned or passed to `exit`. -/
def Outcome.status : Outcome Int → Int
  | Outcome.returned value => value
  | Outcome.exited status => status

/-! ## `AlgorithmModule`: the queues between the stages -/

/-- The alignments on the heap and the input queues of the modules.  Alignments and modules
are named by their addresses. -/
structure Pipeline where
  /-- The alignment at an address, `none` when nothing is allocated there. -/
  alignments : Nat → Option BamAlignment
  /-- The address that the next `new BamAlignment` returns; nothing is allocated at it or
  above it. -/
  nextFree : Nat
  /-- The pointers in the `input_queue` of the module at the given address, oldest first. -/
  input_queue : Nat → List Nat

/-- The method `AlgorithmModule::putInputAlignment` of the module at address `module`. -/
def putInputAlignment (p : Pipeline) (module : Nat) (read : Nat) : Pipeline :=
  { p with input_queue := Function.update p.input_queue module (p.input_queue module ++ [read]) }

/-- The statement `delete read`. -/
def deleteAlignment (p : Pipeline) (read : Nat) : Pipeline :=
  { p with alignments := Function.update p.alignments read none }

/-- The expression `new BamAlignment(*read)`: the new address and the pipeline with the copy
in it. -/
def newBamAlignment (p : Pipeline) (read : Nat) : Nat × Pipeline :=
  (p.nextFree,
    { p with alignments := Function.update p.alignments p.nextFree (p.alignments read),
             nextFree := p.nextFree + 1 })

/-- The `for` loop of `putOutputAlignment` over the sinks that are left; `atBegin` tells
whether the iterator is still `sinks.begin()`. -/
def putOutputAlignment_loop (read : Nat) : Pipeline → Bool → List Nat → Pipeline
  | p, _, [] => p
  | p, atBegin, i :: sinks =>
    if atBegin then putOutputAlignment_loop read (putInputAlignment p i read) false sinks
    else
      let (copy, p) := newBamAlignment p read
      putOutputAlignment_loop read (putInputAlignment p i copy) false sinks

/-- The method `AlgorithmModule::putOutputAlignment`, for a call during which no other
thread acts on the alignments and the queues; `sinks` is the set of the sinks in the order
of its iteration. -/
def putOutputAlignment (p : Pipeline) (sinks : List Nat) (read : Nat) : Pipeline :=
  let p := if sinks.length = 0 then deleteAlignment p read else p
  putOutputAlignment_loop read p true sinks

/-- One passage of the `for` loop of `putOutputAlignment`, for the sink `i`. -/
def putOutputAlignment_passage (read : Nat) (p : Pipeline) (atBegin : Bool) (i : Nat) :
    Pipeline :=
  if atBegin then putInputAlignment p i read
  else
    let (copy, p) := newBamAlignment p read
    putInputAlignment p i copy

/-- The threads at work during a call of `putOutputAlignment`: the caller, and the sinks,
each of which runs on its own thread. -/
inductive FanOutThread where
  /-- The caller makes the next passage of the `for` loop. -/
  | caller
  /-- The sink at the given address, a module without sinks of its own, takes the oldest
  alignment of its queue with `getInputAlignment` and puts it out: its `putOutputAlignment`
  deletes the alignment. -/
  | sink (module : Nat)
  deriving DecidableEq, Repr

/-- A call of `putOutputAlignment(read)` under way, after its first statement. -/
structure FanOut where
  pipeline : Pipeline
  read : Nat
  /-- Whether the iterator of the loop is `sinks.begin()`. -/
  atBegin : Bool
  /-- The sinks that the loop has not served yet. -/
  sinksLeft : List Nat

/-- One action of a thread during the call.  An alignment that was deleted has no content:
what a copy of it holds is not defined, and it is `none` here. -/
def FanOut.step (f : FanOut) : FanOutThread → FanOut
  | FanOutThread.caller =>
    match f.sinksLeft with
    | [] => f
    | i :: rest =>
      { f with pipeline := putOutputAlignment_passage f.read f.pipeline f.atBegin i,
               atBegin := false, sinksLeft := rest }
  | FanOutThread.sink module =>
    match f.pipeline.input_queue module with
    | [] => f
    | front :: rest =>
      let popped :=
        { f.pipeline with input_queue := Function.update f.pipeline.input_queue module rest }
      { f with pipeline := putOutputAlignment popped [] front }

/-- The execution in which the threads act in the order of `schedule`. -/
def FanOut.run (f : FanOut) (schedule : List FanOutThread) : FanOut :=
  schedule.foldl FanOut.step f

/-- The call `putOutputAlignment(read)` after its first statement,
`if(sinks.size() == 0) delete read;`. -/
def FanOut.start (p : Pipeline) (sinks : List Nat) (read : Nat) : FanOut :=
  { pipeline := if sinks.length = 0 then deleteAlignment p read else p, read := read,
    atBegin := true, sinksLeft := sinks }

/-- Where the downstream thread stands in `getInputAlignment`. -/
inductive ConsumerAt where
  /-- About to evaluate `input_queue.size() == 0`. -/
  | queueTest
  /-- In the loop body, about to evaluate `source->finished_execution`. -/
  | finishedTest
  /-- After the loop, about to evaluate `input_queue.pop()`. -/
  | pop
  deriving DecidableEq, Repr

/-- The threads that act on one input queue. -/
inductive Thread where
  /-- The source: it runs `runInternal`, which puts out its records, and then
  `algorithm_module_run` sets `finished_execution`. -/
  | upstream
  /-- The module that owns the queue: it calls `getInputAlignment` again and again. -/
  | downstream
  deriving DecidableEq, Repr

/-- One input queue, the flag of its source, and the two threads at work on them. -/
structure Handoff where
  input_queue : List Nat
  finished_execution : Bool
  /-- The records that the source still has to put out. -/
  toEnqueue : List Nat
  consumer : ConsumerAt
  /-- The results of the calls of `getInputAlignment` that have returned; `none` is
  `NULL`. -/
  results : List (Option Nat)
  deriving DecidableEq, Repr

/-- One atomic action of a thread.  The source pushes its next record, or sets
`finished_execution` when it has none left.  The downstream module evaluates one test of
`getInputAlignment`, or pops; after a `return` its next call starts. -/
def Handoff.step (h : Handoff) : Thread → Handoff
  | Thread.upstream =>
    match h.toEnqueue with
    | read :: rest => { h with input_queue := h.input_queue ++ [read], toEnqueue := rest }
    | [] => { h with finished_execution := true }
  | Thread.downstream =>
    match h.consumer with
    | ConsumerAt.queueTest =>
      if h.input_queue.length = 0 then { h with consumer := ConsumerAt.finishedTest }
      else { h with consumer := ConsumerAt.pop }
    | ConsumerAt.finishedTest =>
      if h.finished_execution then
        { h with results := h.results ++ [none], consumer := ConsumerAt.queueTest }
      else { h with consumer := ConsumerAt.queueTest }
    | ConsumerAt.pop =>
      match h.input_queue with
      | read :: rest =>
        { h with input_queue := rest, results := h.results ++ [some read],
                 consumer := ConsumerAt.queueTest }
      | [] => h

/-- The execution in which the threads act in the order of `schedule`. -/
def Handoff.run (h : Handoff) (schedule : List Thread) : Handoff :=
  schedule.foldl Handoff.step h

/-- The start of an execution in which the source is to put out `records`. -/
def Handoff.start (records : List Nat) : Handoff :=
  { input_queue := [], finished_execution := false, toEnqueue := records,
    consumer := ConsumerAt.queueTest, results := [] }

/-! ## `LocalRealignment`: the emit queue -/

/-- The emit queue of `LocalRealignment`, whose entries are named by their addresses,
together with the calls of `emit_queue.push` and of `emit()` so far, in order. -/
structure EmitState where
  emit_queue : List Nat
  pushed : List Nat
  emitted : List Nat
  deriving DecidableEq, Repr

/-- The loop `while (!emit_queue.empty() && emit_queue.front()->canEmit())` of
`flushEmitQueue`, on a state whose queue holds `queue`.  The function `canEmit` gives the
answer of an entry to this loop, which asks every entry at most once. -/
def flushEmitQueue_loop (canEmit : Nat → Bool) (s : EmitState) : List Nat → EmitState
  | [] => s
  | front :: rest =>
    if canEmit front then
      flushEmitQueue_loop canEmit
        { s with emit_queue := rest, emitted := s.emitted ++ [front] } rest
    else s

/-- The method `flushEmitQueue`; `try_lock` is the result of `emit_mutex.try_lock()`. -/
def flushEmitQueue (try_lock : Bool) (canEmit : Nat → Bool) (s : EmitState) : EmitState :=
  if !try_lock then s
  else flushEmitQueue_loop canEmit s s.emit_queue

/-- The part of the loop of `pushToEmitQueue` that holds `emit_mutex`: the value of
`emit_queue_full` and the state. -/
def pushToEmitQueue_locked (s : EmitState) (e : Nat) : Bool × EmitState :=
  let emit_queue_full := decide (s.emit_queue.length > 1000)
  if !emit_queue_full then
    (emit_queue_full, { s with emit_queue := s.emit_queue ++ [e], pushed := s.pushed ++ [e] })
  else (emit_queue_full, s)

/-- The method `pushToEmitQueue` when no other thread uses the queue.  After a passage that
finds the queue full comes a call of `flushEmitQueue`, to which the entries give the first
of `answers`; `none` when the answers are used up and the entry has not been pushed. -/
def pushToEmitQueue (e : Nat) : EmitState → List (Nat → Bool) → Option EmitState
  | s, [] =>
    if (pushToEmitQueue_locked s e).1 then none else some (pushToEmitQueue_locked s e).2
  | s, canEmit :: answers =>
    if (pushToEmitQueue_locked s e).1 then
      pushToEmitQueue e (flushEmitQueue true canEmit (pushToEmitQueue_locked s e).2) answers
    else some (pushToEmitQueue_locked s e).2

/-- A step of some thread on the emit queue that is atomic under `emit_mutex`: the locked
part of one passage of the loop of `pushToEmitQueue`, or a call of `flushEmitQueue`. -/
inductive EmitStep where
  | push (e : Nat)
  | flush (try_lock : Bool) (canEmit : Nat → Bool)

/-- The effect of a step on the emit queue. -/
def EmitState.step (s : EmitState) : EmitStep → EmitState
  | EmitStep.push e => (pushToEmitQueue_locked s e).2
  | EmitStep.flush try_lock canEmit => flushEmitQueue try_lock canEmit s

/-- An interleaving of the threads: the steps in the order in which they hold the mutex. -/
def EmitState.run (s : EmitState) (steps : List EmitStep) : EmitState :=
  steps.foldl EmitState.step s

/-- The empty emit queue. -/
def EmitState.start : EmitState := { emit_queue := [], pushed := [], emitted := [] }

/-! ## Sample inputs -/

/-- An environment with four cores in which every file can be opened. -/
def sampleEnv : SorterEnv :=
  { availableCores := 4, writerOpens := fun _ => true, multiReaderOpens := fun _ => true }

/-- An environment with four cores in which no temp file can be opened. -/
def failingEnv : SorterEnv :=
  { availableCores := 4, writerOpens := fun _ => false, multiReaderOpens := fun _ => false }

/-- A fresh coordinate sorter, whose `sort_retval` and `merge_retval` are `true`. -/
def sampleSorter (nothreads : Bool) (alignments_per_tempfile : Nat) : ReadSorter :=
  { nothreads := nothreads, sort_order := SORT_POSITION,
    alignments_per_tempfile := alignments_per_tempfile, m_tempFilenameStub := "tmp",
    m_numberOfRuns := 0, m_tempFilenames := [], sort_retval := true, merge_retval := true,
    m_header_SortOrder := SORT_POSITION, tempFiles := [], output := [], problems := [],
    handedOff := [] }

/-- Five reads on reference 0. -/
def sampleReads : List BamAlignment :=
  [⟨"r0", 0, 400, 0⟩, ⟨"r1", 0, 100, 16⟩, ⟨"r2", 0, 300, 0⟩, ⟨"r3", 0, 100, 0⟩,
    ⟨"r4", 0, 200, 0⟩]

/-- A forward read mapped at position 1000 of reference 0, 50 bases long. -/
def sampleMapped : OGERead :=
  { Name := "pair", RefID := 0, Position := 1000, MapQuality := 30,
    CigarData := [⟨'M', 50⟩], Length := 50, paired := true, mapped := true,
    reverseStrand := false,
    mateMapped := true, mateReverseStrand := false, MateRefID := -1, MatePosition := -1,
    InsertSize := 0, tagMQ := none }

/-- The unmapped mate of `sampleMapped`. -/
def sampleUnmapped : OGERead :=
  { Name := "pair", RefID := -1, Position := -1, MapQuality := 0,
    CigarData := [], Length := 50, paired := true, mapped := false, reverseStrand := false,
    mateMapped := true, mateReverseStrand := false, MateRefID := 0, MatePosition := 1000,
    InsertSize := 0, tagMQ := none }

/-- A read mapped on reference 0 whose mate `chimericSecond` is mapped on reference 1; the
mate fields of both records are those of a well-formed file. -/
def chimericFirst : OGERead :=
  { Name := "chimera", RefID := 0, Position := 100, MapQuality := 40,
    CigarData := [⟨'M', 50⟩], Length := 50, paired := true, mapped := true,
    reverseStrand := false,
    mateMapped := true, mateReverseStrand := true, MateRefID := 1, MatePosition := 200,
    InsertSize := 0, tagMQ := none }

/-- The mate of `chimericFirst`. -/
def chimericSecond : OGERead :=
  { Name := "chimera", RefID := 1, Position := 200, MapQuality := 35,
    CigarData := [⟨'M', 50⟩], Length := 50, paired := true, mapped := true,
    reverseStrand := true,
    mateMapped := true, mateReverseStrand := false, MateRefID := 0, MatePosition := 100,
    InsertSize := 0, tagMQ := none }

/-- A comparator for `waitingReads`: by reference id, then by position, then by address. -/
def sampleLess (a b : Nat × OGERead) : Bool :=
  if a.2.RefID ≠ b.2.RefID then decide (a.2.RefID < b.2.RefID)
  else if a.2.Position ≠ b.2.Position then decide (a.2.Position < b.2.Position)
  else decide (a.1 < b.1)

/-- A fresh manager with `maxInsertSizeForMovingReadPairs = 3000` and
`MAX_POS_MOVE_ALLOWED = 200`, for the given `MAX_RECORDS_IN_MEMORY` and `EMIT_FREQUENCY`; the
read at address `i` is the `i`-th element of `reads`. -/
def sampleManager (maxRecordsInMemory emitFrequency : Nat) (reads : List OGERead) :
    ConstrainedMateFixingManager :=
  { maxInsertSizeForMovingReadPairs := 3000, MAX_POS_MOVE_ALLOWED := 200,
    MAX_RECORDS_IN_MEMORY := maxRecordsInMemory, EMIT_FREQUENCY := emitFrequency,
    less := sampleLess,
    createGenomeLoc := fun read => ⟨read.RefID, read.Position + 1, getEndPosition read + 1⟩,
    reads := fun address => reads.getD address sampleUnmapped,
    waitingReads := [], forMateMatching := [], lastLocFlushed := none, counter := 0,
    written := [] }

/-- The manager `sampleManager` with the comparator of the specification. -/
def coordinateManager (maxRecordsInMemory emitFrequency : Nat) (reads : List OGERead) :
    ConstrainedMateFixingManager :=
  { sampleManager maxRecordsInMemory emitFrequency reads with less := coordinateLess }

/-- A read mapped at position 1000 of reference 0 whose mate is expected on the same
reference. -/
def pairFirst : OGERead :=
  { sampleMapped with MateRefID := 0, MatePosition := 50000, mateMapped := false }

/-- The mate of `pairFirst`: its unmapped flag is set, and it carries the coordinates 50000
on reference 0. -/
def pairSecond : OGERead :=
  { sampleUnmapped with RefID := 0, Position := 50000 }

/-- An unpaired read mapped at position 300 of reference 1. -/
def singleOnNextContig : OGERead :=
  { sampleMapped with Name := "single", RefID := 1, Position := 300, paired := false }

/-- A mapped read of 100 bases whose mate is mapped on the same reference, with insert size
5000. -/
def longInsert : OGERead :=
  { sampleMapped with Length := 100, MateRefID := 0, MatePosition := 5900, InsertSize := 5000 }

/-- A mapped read of 4000 bases whose mate is mapped on the same reference, with insert size
200. -/
def longRead : OGERead :=
  { sampleMapped with Length := 4000, MateRefID := 0, MatePosition := 1100, InsertSize := 200 }

/-- A file system with the SAM file `a.sam`, the BAM file `c.bam`, the text file `x.txt`, and
no other file. -/
def sampleFiles : ReaderEnv :=
  { fopen := fun filename =>
      if filename = "a.sam" then some [64, 72, 68, 9]
      else if filename = "c.bam" then some [31, 139, 8, 4]
      else if filename = "x.txt" then some [120, 121, 122]
      else none,
    bamMultiReaderOpen := fun _ => none,
    samReaderOpen := fun _ => none }

/-- A file reader that is to deduce the format of the given files. -/
def sampleFileReader (filenames : List String) : FileReader :=
  { filenames := filenames, format_specified := false, format := FORMAT_UNKNOWN,
    header := none, isOpen := false, output := [] }

/-- A pipeline with one alignment, at address 0, and empty queues. -/
def samplePipeline : Pipeline :=
  { alignments := fun address => if address = 0 then some ⟨"r0", 0, 400, 0⟩ else none,
    nextFree := 1, input_queue := fun _ => [] }

/-- The manager with `MAX_RECORDS_IN_MEMORY = 1` after `addRead(pairFirst, true, false)`:
`pairFirst`, on reference 0, waits at address 0 and has an entry in the mate map, with its
`wasModified` flag set; the read at address 1 is `singleOnNextContig`, on reference 1. -/
def oneWaiting : ConstrainedMateFixingManager :=
  { sampleManager 1 100 [pairFirst, singleOnNextContig] with
    waitingReads := [0], forMateMatching := [("pair", ⟨0, true⟩)], counter := 1 }

/-- A read mapped at position 100 of reference 1 whose mate `acrossSecond` is mapped on
reference 2. -/
def acrossFirst : OGERead :=
  { chimericFirst with RefID := 1, MateRefID := 2, MatePosition := 500 }

/-- The mate of `acrossFirst`, a forward read mapped at position 500 of reference 2. -/
def acrossSecond : OGERead :=
  { chimericSecond with RefID := 2, Position := 500, reverseStrand := false, MateRefID := 1 }

/-- The mapped mate of `pairFirst`, at position 1200 of reference 0. -/
def pairMapped : OGERead :=
  { sampleMapped with Position := 1200, MateRefID := 0, MatePosition := 1000 }

/-- The read `pairSecond`, its mapped mate `pairFirst`, and an unpaired read at position
1200 of reference 0. -/
def requeueReads : List OGERead :=
  [pairSecond, pairFirst, { singleOnNextContig with RefID := 0, Position := 1200 }]

/-- The manager after `addRead` of the read at position 1200 and of `pairSecond`, which
carries the position 50000: both wait, and `pairSecond` has an entry in the mate map. -/
def pairSecondWaiting : ConstrainedMateFixingManager :=
  { sampleManager 100 100 requeueReads with
    waitingReads := [2, 0], forMateMatching := [("pair", ⟨0, false⟩)], counter := 2 }

/-! ## Vocabulary of the statements -/

/-- The requirement of the standard library on a comparator: a strict weak ordering
(irreflexive, transitive, and with a transitive incomparability relation). -/
structure StrictWeakOrdering {α : Type} (comp : α → α → Bool) : Prop where
  irrefl : ∀ a, comp a a = false
  trans : ∀ a b c, comp a b = true → comp b c = true → comp a c = true
  incomp_trans : ∀ a b c, comp a b = false → comp b c = false → comp a c = false

/-- The order of the claim read literally: `(a.ref, a.pos) ≤ (b.ref, b.pos)` in the
lexicographic order of pairs of integers. -/
def lexLE (a b : BamAlignment) : Prop :=
  a.RefID < b.RefID ∨ (a.RefID = b.RefID ∧ a.Position ≤ b.Position)

instance (a b : BamAlignment) : Decidable (lexLE a b) :=
  inferInstanceAs
    (Decidable (a.RefID < b.RefID ∨ (a.RefID = b.RefID ∧ a.Position ≤ b.Position)))

/-- Coordinate order: `(a.ref, a.pos) ≤ (b.ref, b.pos)` lexicographically, with the reference
id −1 of the unmapped reads ranked after every other reference id. -/
def coordinateLE (a b : BamAlignment) : Prop :=
  if a.RefID = b.RefID then a.Position ≤ b.Position
  else b.RefID = -1 ∨ (a.RefID ≠ -1 ∧ a.RefID < b.RefID)

instance (a b : BamAlignment) : Decidable (coordinateLE a b) :=
  inferInstanceAs (Decidable (if a.RefID = b.RefID then a.Position ≤ b.Position
    else b.RefID = -1 ∨ (a.RefID ≠ -1 ∧ a.RefID < b.RefID)))

/-- The elements `x` with the same sort key as `e`: neither is placed before the other. -/
def sameKey {α : Type} (comp : α → α → Bool) (e x : α) : Bool :=
  !comp e x && !comp x e

/-- The operations that advance on the reference: `M`, `D`, `N`, `=` and `X`. -/
def consumesReference (op : CigarOp) : Bool :=
  op.type = 'M' || op.type = 'D' || op.type = 'N' || op.type = '=' || op.type = 'X'

/-- The value lies in the range of a 32-bit `int`. -/
@[reducible]
def fitsInt32 (x : Int) : Prop := -2147483648 ≤ x ∧ x < 2147483648

/-- The 5' position of a read in the words of the specification: the end position
`pos + sum(M,D,N,=,X lengths) − 1` for a reverse-strand read, the start position otherwise. -/
def fivePrimePosition (read : OGERead) : Int :=
  if read.reverseStrand then
    read.Position + (((read.CigarData.filter consumesReference).map CigarOp.length).sum : Nat)
      - 1
  else read.Position

/-- The first two bytes that `deduceFileFormat` reads from an input, `none` when the input
cannot be opened or holds fewer than two bytes. -/
def firstTwoBytes (env : ReaderEnv) (stdin : List Nat) (filename : String) :
    Option (Nat × Nat) :=
  match (if filename = "stdin" then some stdin else env.fopen filename) with
  | some (b0 :: b1 :: _) => some (b0, b1)
  | _ => none

/-- The detected format of an input: SAM when its first byte is `'@'`, BAM when its first two
bytes are `0x1F 0x8B`, and unknown otherwise, also when the two bytes cannot be read. -/
def detectedFormat (env : ReaderEnv) (stdin : List Nat) (filename : String) : file_format_t :=
  match firstTwoBytes env stdin filename with
  | some (b0, b1) =>
    if b0 = 0x40 then FORMAT_SAM
    else if b0 = 0x1F ∧ b1 = 0x8B then FORMAT_BAM
    else FORMAT_UNKNOWN
  | none => FORMAT_UNKNOWN

/-- The reads of a manager with respect to the heap `origin`, the reads as the client
built them: every record has the mapped flag it has in `origin`, every record whose mapped
flag is set has the position it has in `origin`, and every such record was written, if it
was, with that position. -/
def positionsKept (origin : Nat → OGERead) (m : ConstrainedMateFixingManager) : Prop :=
  (∀ read, (m.reads read).mapped = (origin read).mapped ∧
    ((origin read).mapped = true → (m.reads read).Position = (origin read).Position)) ∧
  (∀ entry ∈ m.written, (origin entry.1).mapped = true →
    entry.2.Position = (origin entry.1).Position)

/-- The comparator of `waitingReads` orders any two distinct records one way or the other,
whatever their fields: no two distinct records are equivalent, and the set holds every
record that is inserted. -/
def comparesDistinctRecords (less : Nat × OGERead → Nat × OGERead → Bool) : Prop :=
  ∀ (a b : Nat) (readA readB : OGERead), a ≠ b →
    less (a, readA) (b, readB) = true ∨ less (b, readB) (a, readA) = true

/-- The records that the manager holds or has written are the records `added`, each of them
once: the pointers written so far followed by the pointers in `waitingReads` are a
permutation of `added`. -/
def holdsOrHasWritten (added : List Nat) (m : ConstrainedMateFixingManager) : Prop :=
  (m.written.map Prod.fst ++ m.waitingReads).Perm added

/-- The word "movable" of the specification: "paired, at least one end mapped, insert size
≤ X". -/
def movableBySpec (maxInsertSize : Int) (read : OGERead) : Bool :=
  read.paired && (read.mapped || read.mateMapped) && decide (|read.InsertSize| ≤ maxInsertSize)

/-- The condition of the emission sweep in the words of the specification, on a waiting
read `H` and for the new read `R`: `H.pos + 2Y < R.pos`, and `H` is not movable or
`H.mate_pos + 2Y < R.pos`. -/
def canBeEmittedBySpec (m : ConstrainedMateFixingManager) (newRead read : Nat) : Bool :=
  decide ((m.reads read).Position + 2 * m.MAX_POS_MOVE_ALLOWED < (m.reads newRead).Position)
    && (!movableBySpec m.maxInsertSizeForMovingReadPairs (m.reads read)
        || decide ((m.reads read).MatePosition + 2 * m.MAX_POS_MOVE_ALLOWED
            < (m.reads newRead).Position))

/-- The condition of the emission sweep as the code evaluates it, on a waiting read `H` and
for the new read `R`: `H.pos + 2Y < R.pos`, and `pairedReadIsMovable(H)` does not hold or
`H.mate_pos + 2Y < R.pos`. -/
def canBeEmitted (m : ConstrainedMateFixingManager) (newRead read : Nat) : Bool :=
  decide ((m.reads read).Position + 2 * m.MAX_POS_MOVE_ALLOWED < (m.reads newRead).Position)
    && (!pairedReadIsMovable m.maxInsertSizeForMovingReadPairs (m.reads read)
        || decide ((m.reads read).MatePosition + 2 * m.MAX_POS_MOVE_ALLOWED
            < (m.reads newRead).Position))

/-- The records that the comparator of `waitingReads` does not order, one way or the other,
lie on one reference. -/
def unorderedOnOneReference (less : Nat × OGERead → Nat × OGERead → Bool) : Prop :=
  ∀ (a b : Nat) (readA readB : OGERead),
    less (a, readA) (b, readB) = false → less (b, readB) (a, readA) = false →
    readA.RefID = readB.RefID

/-- All records in `waitingReads` have the same reference id. -/
def onOneReference (m : ConstrainedMateFixingManager) : Prop :=
  ∀ first ∈ m.waitingReads, ∀ second ∈ m.waitingReads,
    (m.reads first).RefID = (m.reads second).RefID

/-- Two records agree in their own fields, that is, in all fields but the fields of the
mate, the tag `MQ` and the insert size. -/
def sameOwnFields (a b : OGERead) : Prop :=
  a.Name = b.Name ∧ a.RefID = b.RefID ∧ a.Position = b.Position ∧
  a.MapQuality = b.MapQuality ∧ a.CigarData = b.CigarData ∧ a.Length = b.Length ∧
  a.paired = b.paired ∧ a.mapped = b.mapped ∧ a.reverseStrand = b.reverseStrand

/-- The comparator of `waitingReads` is keyed by coordinate: it is irreflexive and
transitive; it orders any two records of different references; of two records of one
reference it never puts the one with the larger position first; and it looks at the
addresses and the own fields of the records only, so a tie of reference and position may
be broken by the strand, the name or the address. -/
structure KeyedByCoordinate (less : Nat × OGERead → Nat × OGERead → Bool) : Prop where
  irrefl : ∀ x, less x x = false
  trans : ∀ x y z, less x y = true → less y z = true → less x z = true
  references : ∀ (a b : Nat) (readA readB : OGERead),
    less (a, readA) (b, readB) = false → less (b, readB) (a, readA) = false →
    readA.RefID = readB.RefID
  positions : ∀ (a b : Nat) (readA readB : OGERead),
    less (a, readA) (b, readB) = true → readA.RefID = readB.RefID →
    readA.Position ≤ readB.Position
  ownFields : ∀ (a b : Nat) (readA readA2 readB readB2 : OGERead),
    sameOwnFields readA readA2 → sameOwnFields readB readB2 →
    less (a, readA) (b, readB) = less (a, readA2) (b, readB2)

/-- The set `waitingReads` is in the order of its comparator, with the records as they are
now. -/
def inSetOrder (m : ConstrainedMateFixingManager) : Prop :=
  m.waitingReads.Pairwise (fun a b => m.lessPtr a b = true)

/-- The records in `waitingReads` and the records of the mate map are among `added`. -/
def knowsOnly (added : List Nat) (m : ConstrainedMateFixingManager) : Prop :=
  (∀ read ∈ m.waitingReads, read ∈ added) ∧
  (∀ entry ∈ m.forMateMatching, entry.2.record ∈ added)

/-! # Properties -/

/-! ## The standard algorithms -/

theorem inplace_merge_nil_left {α : Type} (comp : α → α → Bool) (r : List α) :
    inplace_merge comp [] r = r := by
  rw [inplace_merge]

theorem inplace_merge_nil_right {α : Type} (comp : α → α → Bool) (l : List α) :
    inplace_merge comp l [] = l := by
  cases l with
  | nil => rw [inplace_merge]
  | cons a l => rw [inplace_merge]; simp

theorem inplace_merge_cons_cons {α : Type} (comp : α → α → Bool) (a b : α) (l r : List α) :
    inplace_merge comp (a :: l) (b :: r) =
      if comp b a then b :: inplace_merge comp (a :: l) r
      else a :: inplace_merge comp l (b :: r) := by
  rw [inplace_merge]

theorem length_insert_sorted {α : Type} (comp : α → α → Bool) (a : α) (l : List α) :
    (insert_sorted comp a l).length = l.length + 1 := by
  induction l with
  | nil => rfl
  | cons b l ih =>
    simp only [insert_sorted]
    split <;> simp [ih]

theorem length_stable_sort {α : Type} (comp : α → α → Bool) (l : List α) :
    (stable_sort comp l).length = l.length := by
  induction l with
  | nil => rfl
  | cons a l ih => simp [stable_sort, length_insert_sorted, ih]

theorem perm_insert_sorted {α : Type} (comp : α → α → Bool) (a : α) (l : List α) :
    (insert_sorted comp a l).Perm (a :: l) := by
  induction l with
  | nil => exact List.Perm.refl _
  | cons b l ih =>
    simp only [insert_sorted]
    split
    · exact ((List.Perm.cons b ih).trans (List.Perm.swap a b l))
    · exact List.Perm.refl _

theorem perm_stable_sort {α : Type} (comp : α → α → Bool) (l : List α) :
    (stable_sort comp l).Perm l := by
  induction l with
  | nil => exact List.Perm.refl _
  | cons a l ih =>
    exact (perm_insert_sorted comp a _).trans (List.Perm.cons a ih)

/-- Inserting into a list in which no element is strictly smaller than an earlier one keeps
that property. -/
theorem pairwise_insert_sorted {α : Type} {comp : α → α → Bool} (h : StrictWeakOrdering comp)
    (a : α) (l : List α) (hl : l.Pairwise (fun x y => comp y x = false)) :
    (insert_sorted comp a l).Pairwise (fun x y => comp y x = false) := by
  induction l with
  | nil => simp [insert_sorted]
  | cons b l ih =>
    rw [List.pairwise_cons] at hl
    simp only [insert_sorted]
    split
    next hba =>
      rw [List.pairwise_cons]
      refine ⟨?_, ih hl.2⟩
      intro y hy
      rcases List.mem_cons.mp ((perm_insert_sorted comp a l).mem_iff.mp hy) with hya | hyl
      · subst hya
        cases hab : comp y b with
        | false => rfl
        | true =>
          have hbb := h.trans b y b hba hab
          rw [h.irrefl] at hbb
          exact absurd hbb (by simp)
      · exact hl.1 y hyl
    next hba =>
      rw [List.pairwise_cons]
      refine ⟨?_, List.pairwise_cons.mpr hl⟩
      intro y hy
      have hba' : comp b a = false := by simpa using hba
      rcases List.mem_cons.mp hy with hyb | hyl
      · subst hyb
        exact hba'
      · exact h.incomp_trans y b a (hl.1 y hyl) hba'

theorem pairwise_stable_sort {α : Type} {comp : α → α → Bool} (h : StrictWeakOrdering comp)
    (l : List α) : (stable_sort comp l).Pairwise (fun x y => comp y x = false) := by
  induction l with
  | nil => simp [stable_sort]
  | cons a l ih => exact pairwise_insert_sorted h a _ ih

/-- Stability of an insertion: the elements of a class of mutually equivalent elements keep
their order. -/
theorem filter_insert_sorted {α : Type} (comp : α → α → Bool) (p : α → Bool)
    (hp : ∀ x y, p x = true → p y = true → comp x y = false) (a : α) (l : List α) :
    (insert_sorted comp a l).filter p = (a :: l).filter p := by
  induction l with
  | nil => rfl
  | cons b l ih =>
    simp only [insert_sorted]
    split
    next hba =>
      cases hpa : p a with
      | false =>
        have := ih
        simp only [List.filter_cons, hpa] at this ⊢
        simp [this]
      | true =>
        have hpb : p b = false := by
          cases hpb : p b with
          | false => rfl
          | true => rw [hp b a hpb hpa] at hba; exact absurd hba (by simp)
        have := ih
        simp only [List.filter_cons, hpa, hpb] at this ⊢
        simpa using this
    next hba => rfl

/-- Stability of `stable_sort`: the elements of a class of mutually equivalent elements appear
in the order they had in the input. -/
theorem filter_stable_sort {α : Type} (comp : α → α → Bool) (p : α → Bool)
    (hp : ∀ x y, p x = true → p y = true → comp x y = false) (l : List α) :
    (stable_sort comp l).filter p = l.filter p := by
  induction l with
  | nil => rfl
  | cons a l ih =>
    simp only [stable_sort]
    rw [filter_insert_sorted comp p hp, List.filter_cons, List.filter_cons, ih]

/-- An insertion commutes with a merge. -/
theorem insert_sorted_inplace_merge {α : Type} {comp : α → α → Bool}
    (h : StrictWeakOrdering comp) (a : α) (y z : List α) :
    insert_sorted comp a (inplace_merge comp y z) =
      inplace_merge comp (insert_sorted comp a y) z := by
  induction y generalizing z with
  | nil =>
    rw [inplace_merge_nil_left]
    induction z with
    | nil => simp [insert_sorted, inplace_merge_nil_right]
    | cons c z ihz =>
      simp only [insert_sorted, inplace_merge_cons_cons]
      split
      · rw [ihz]; simp [insert_sorted]
      · rw [inplace_merge_nil_left]
  | cons b y ihy =>
    induction z with
    | nil => simp [inplace_merge_nil_right]
    | cons c z ihz =>
      have e1 : insert_sorted comp a (b :: y) =
          if comp b a then b :: insert_sorted comp a y else a :: b :: y := rfl
      rw [e1] at ihz ⊢
      rw [inplace_merge_cons_cons]
      cases hcb : comp c b with
      | true =>
        cases hba : comp b a with
        | true =>
          have hca : comp c a = true := h.trans c b a hcb hba
          simp only [hba, if_true] at ihz
          simp only [insert_sorted, hca, hba, if_true, inplace_merge_cons_cons, hcb]
          rw [ihz]
        | false =>
          simp only [hba] at ihz
          cases hca : comp c a with
          | true =>
            simp only [insert_sorted, hca, if_true, inplace_merge_cons_cons, hcb]
            rw [ihz]
            simp [inplace_merge_cons_cons, hca]
          | false =>
            simp [insert_sorted, hca, inplace_merge_cons_cons, hcb]
      | false =>
        cases hba : comp b a with
        | true =>
          simp only [insert_sorted, hba, if_true, inplace_merge_cons_cons, hcb]
          rw [ihy]
          simp
        | false =>
          have hca : comp c a = false := h.incomp_trans c b a hcb hba
          simp [insert_sorted, hba, hca, inplace_merge_cons_cons, hcb]

/-- Sorting two consecutive ranges and merging them is sorting their concatenation. -/
theorem stable_sort_append {α : Type} {comp : α → α → Bool} (h : StrictWeakOrdering comp)
    (l₁ l₂ : List α) :
    stable_sort comp (l₁ ++ l₂) =
      inplace_merge comp (stable_sort comp l₁) (stable_sort comp l₂) := by
  induction l₁ with
  | nil => simp [stable_sort, inplace_merge_nil_left]
  | cons a l₁ ih =>
    show insert_sorted comp a (stable_sort comp (l₁ ++ l₂)) =
      inplace_merge comp (insert_sorted comp a (stable_sort comp l₁)) (stable_sort comp l₂)
    rw [ih, insert_sorted_inplace_merge h]

/-! ## The threaded branch of `SortBuffer` -/

theorem stable_sort_range_append {α : Type} (comp : α → α → Bool) (P c R : List α)
    (first last : Nat) (hf : P.length = first) (hl : P.length + c.length = last) :
    stable_sort_range comp (P ++ c ++ R) first last = P ++ stable_sort comp c ++ R := by
  have h1 : (P ++ c ++ R).take first = P := by
    rw [List.append_assoc]; exact List.take_left' hf
  have h2 : (P ++ c ++ R).take last = P ++ c :=
    List.take_left' (by simpa using hl)
  have h3 : (P ++ c ++ R).drop last = R :=
    List.drop_left' (by simpa using hl)
  unfold stable_sort_range
  rw [h1, h2, h3, List.drop_left' hf]

theorem inplace_merge_range_append {α : Type} (comp : α → α → Bool) (M c R : List α)
    (middle last : Nat) (hm : M.length = middle) (hl : M.length + c.length = last) :
    inplace_merge_range comp (M ++ c ++ R) 0 middle last = inplace_merge comp M c ++ R := by
  have h1 : (P : List α) → P.take 0 = [] := fun _ => rfl
  have h2 : (M ++ c ++ R).take middle = M := by
    rw [List.append_assoc]; exact List.take_left' hm
  have h3 : (M ++ c ++ R).take last = M ++ c :=
    List.take_left' (by simpa using hl)
  have h4 : (M ++ c ++ R).drop last = R :=
    List.drop_left' (by simpa using hl)
  unfold inplace_merge_range
  rw [h2, h3, h4, List.drop_left' hm]
  simp

/-- A range `[b, e)` followed by the rest of the buffer is the buffer from `b` on. -/
theorem drop_eq_slice_append {α : Type} (buffer : List α) (b e : Nat) (hbe : b ≤ e)
    (hen : e ≤ buffer.length) :
    buffer.drop b = (buffer.take e).drop b ++ buffer.drop e := by
  have hlen : b ≤ (buffer.take e).length := by
    rw [List.length_take]; omega
  conv_lhs => rw [← List.take_append_drop e buffer]
  exact List.drop_append_of_le_length hlen

/-- The buffer up to `b` followed by the range `[b, e)` is the buffer up to `e`. -/
theorem take_append_slice {α : Type} (buffer : List α) (b e : Nat) (hbe : b ≤ e) :
    buffer.take b ++ (buffer.take e).drop b = buffer.take e := by
  have : buffer.take b = (buffer.take e).take b := by
    rw [List.take_take, Nat.min_eq_left hbe]
  rw [this, List.take_append_drop]

theorem sectionEnd_bounds (n d L k : Nat) (hk : k < d) (hd : d * L ≤ n) :
    k * L ≤ sectionEnd n d L k ∧ sectionEnd n d L k ≤ n := by
  unfold sectionEnd
  split
  · exact ⟨(Nat.mul_le_mul_right L (Nat.le_of_lt hk)).trans hd, Nat.le_refl n⟩
  · have h1 : k * L ≤ (1 + k) * L := Nat.mul_le_mul_right L (by omega)
    have h2 : (1 + k) * L ≤ d * L := Nat.mul_le_mul_right L (by omega)
    exact ⟨h1, h2.trans hd⟩

/-- One sort job, on a buffer whose first `k` sections have been sorted already. -/
theorem SortJob_runJob_step {α : Type} (comp : α → α → Bool) (buffer P : List α)
    (d L k : Nat) (hk : k < d) (hd : d * L ≤ buffer.length) (hP : P.length = k * L) :
    SortJob_runJob comp d L (P ++ buffer.drop (k * L)) k =
      (P ++ stable_sort comp
          ((buffer.take (sectionEnd buffer.length d L k)).drop (k * L)))
        ++ buffer.drop (sectionEnd buffer.length d L k) := by
  obtain ⟨hb, he⟩ := sectionEnd_bounds buffer.length d L k hk hd
  have hlen : (P ++ buffer.drop (k * L)).length = buffer.length := by
    rw [List.length_append, List.length_drop, hP]; omega
  unfold SortJob_runJob
  rw [hlen, drop_eq_slice_append buffer (k * L) _ hb he, ← List.append_assoc]
  apply stable_sort_range_append comp _ _ _ _ _ hP
  rw [List.length_drop, List.length_take, hP]
  omega

theorem sectionEnd_last (n d L : Nat) : sectionEnd n d L (d - 1) = n := by
  simp [sectionEnd]

theorem sectionEnd_of_ne (n d L k : Nat) (hk : k ≠ d - 1) :
    sectionEnd n d L k = (k + 1) * L := by
  simp [sectionEnd, hk, Nat.add_comm]

/-- The joint effect of the sort jobs `k, …, d - 1`: every remaining section is sorted. -/
theorem sort_jobs_fold {α : Type} (comp : α → α → Bool) (buffer : List α) (d L : Nat)
    (hd : d * L ≤ buffer.length) :
    ∀ (m k : Nat) (P : List α), k + (m + 1) = d → P.length = k * L →
      (List.range' k (m + 1)).foldl (SortJob_runJob comp d L) (P ++ buffer.drop (k * L)) =
        P ++ ((List.range' k (m + 1)).map (fun ctr => stable_sort comp
          ((buffer.take (sectionEnd buffer.length d L ctr)).drop (ctr * L)))).flatten := by
  intro m
  induction m with
  | zero =>
    intro k P hk hP
    have hkd : k = d - 1 := by omega
    rw [List.range'_succ, List.range'_zero]
    simp only [List.foldl_cons, List.foldl_nil, List.map_cons, List.map_nil,
      List.flatten_cons, List.flatten_nil, List.append_nil]
    rw [SortJob_runJob_step comp buffer P d L k (by omega) hd hP]
    rw [hkd, sectionEnd_last, List.drop_length, List.append_nil]
  | succ m ih =>
    intro k P hk hP
    have hkd : k ≠ d - 1 := by omega
    rw [List.range'_succ, List.foldl_cons, List.map_cons, List.flatten_cons,
      SortJob_runJob_step comp buffer P d L k (by omega) hd hP]
    obtain ⟨hb, he⟩ := sectionEnd_bounds buffer.length d L k (by omega) hd
    rw [sectionEnd_of_ne _ _ _ _ hkd] at hb he ⊢
    rw [ih (k + 1) _ (by omega), List.append_assoc]
    rw [List.length_append, length_stable_sort, List.length_drop, List.length_take, hP]
    omega

/-- One round of the rejoin loop, on a buffer whose sections before `k` have been merged. -/
theorem rejoinStep_step {α : Type} {comp : α → α → Bool} (h : StrictWeakOrdering comp)
    (buffer R : List α) (d L k : Nat) (hk : k < d) (hd : d * L ≤ buffer.length)
    (hR : k = d - 1 → R = []) :
    rejoinStep comp d L
        (stable_sort comp (buffer.take (k * L))
          ++ stable_sort comp ((buffer.take (sectionEnd buffer.length d L k)).drop (k * L))
          ++ R) k =
      stable_sort comp (buffer.take (sectionEnd buffer.length d L k)) ++ R := by
  obtain ⟨hb, he⟩ := sectionEnd_bounds buffer.length d L k hk hd
  have hkn : k * L ≤ buffer.length := hb.trans he
  have hM : (stable_sort comp (buffer.take (k * L))).length = k * L := by
    rw [length_stable_sort, List.length_take]; omega
  have hc : (stable_sort comp
      ((buffer.take (sectionEnd buffer.length d L k)).drop (k * L))).length =
        sectionEnd buffer.length d L k - k * L := by
    rw [length_stable_sort, List.length_drop, List.length_take]; omega
  have hend : sectionEnd (stable_sort comp (buffer.take (k * L))
          ++ stable_sort comp ((buffer.take (sectionEnd buffer.length d L k)).drop (k * L))
          ++ R).length d L k = sectionEnd buffer.length d L k := by
    by_cases hkd : k = d - 1
    · have hen : sectionEnd buffer.length d L k = buffer.length := by
        rw [hkd, sectionEnd_last]
      rw [hR hkd, List.append_nil, List.length_append, hM, hc, hen]
      rw [hkd, sectionEnd_last]
      rw [hkd] at hkn
      omega
    · rw [sectionEnd_of_ne _ _ _ _ hkd, sectionEnd_of_ne _ _ _ _ hkd]
  unfold rejoinStep
  rw [hend, inplace_merge_range_append comp _ _ _ _ _ hM (by rw [hM, hc]; omega),
    ← stable_sort_append h, take_append_slice buffer _ _ hb]

/-- The rejoin loop from round `k` on, started on a buffer whose sections before `k` have been
merged and whose other sections are sorted, ends with the sorted buffer. -/
theorem rejoin_fold {α : Type} {comp : α → α → Bool} (h : StrictWeakOrdering comp)
    (buffer : List α) (d L : Nat) (hd : d * L ≤ buffer.length) :
    ∀ (m k : Nat), 1 ≤ k → k + m = d →
      (List.range' k m).foldl (rejoinStep comp d L)
          (stable_sort comp (buffer.take (sectionEnd buffer.length d L (k - 1)))
            ++ ((List.range' k m).map (fun ctr => stable_sort comp
              ((buffer.take (sectionEnd buffer.length d L ctr)).drop (ctr * L)))).flatten) =
        stable_sort comp buffer := by
  intro m
  induction m with
  | zero =>
    intro k hk1 hkd
    have hk : k = d := by omega
    rw [hk, sectionEnd_last]
    simp
  | succ m ih =>
    intro k hk1 hkd
    have hprev : sectionEnd buffer.length d L (k - 1) = k * L := by
      rw [sectionEnd_of_ne _ _ _ _ (by omega)]
      congr 1
      omega
    rw [List.range'_succ, List.foldl_cons, List.map_cons, List.flatten_cons, hprev,
      ← List.append_assoc,
      rejoinStep_step h buffer _ d L k (by omega) hd]
    · have := ih (k + 1) (by omega) (by omega)
      simpa using this
    · intro hlast
      have hm : m = 0 := by omega
      subst hm
      simp

/-- The number of sort jobs is at least one. -/
theorem sortDivisions_pos (size : Nat) (availableCores : Int) :
    1 ≤ sortDivisions size availableCores := by
  unfold sortDivisions
  simp only
  split <;> split <;> omega

/-- With a comparator that is a strict weak ordering, the threaded branch of `SortBuffer`
yields the stable sort of the whole buffer. -/
theorem SortBuffer_threaded_eq {α : Type} {comp : α → α → Bool} (h : StrictWeakOrdering comp)
    (availableCores : Int) (buffer : List α) :
    SortBuffer_threaded comp availableCores buffer = stable_sort comp buffer := by
  unfold SortBuffer_threaded
  simp only
  generalize hdef : sortDivisions buffer.length availableCores = d
  have hpos : 1 ≤ d := hdef ▸ sortDivisions_pos buffer.length availableCores
  have hd : d * (buffer.length / d) ≤ buffer.length := Nat.mul_div_le _ _
  obtain ⟨m, rfl⟩ : ∃ m, d = m + 1 := ⟨d - 1, by omega⟩
  have h1 := sort_jobs_fold comp buffer (m + 1) (buffer.length / (m + 1)) hd m 0 []
    (by omega) (by simp)
  simp only [Nat.zero_mul, List.drop_zero, List.nil_append] at h1
  rw [h1, List.range'_succ, List.map_cons, List.flatten_cons]
  have h2 := rejoin_fold h buffer (m + 1) (buffer.length / (m + 1)) hd m 1 (by omega)
    (by omega)
  simpa using h2

/-! ## The comparators -/

theorem not_and_eq_decide_lt (x y : Bool) : (!x && y) = decide (x.toNat < y.toNat) := by
  cases x <;> cases y <;> rfl

theorem and_not_eq_decide_lt (x y : Bool) : (x && !y) = decide (y.toNat < x.toNat) := by
  cases x <;> cases y <;> rfl

theorem ByPosition_swo : StrictWeakOrdering ByPosition where
  irrefl a := by simp [ByPosition]
  trans a b c := by
    unfold ByPosition
    simp only [not_and_eq_decide_lt]
    generalize a.IsReverseStrand.toNat = ra, b.IsReverseStrand.toNat = rb,
      c.IsReverseStrand.toNat = rc
    intro h1 h2
    split_ifs at h1 h2 ⊢ <;>
      simp only [decide_eq_true_eq, Bool.false_eq_true] at h1 h2 ⊢ <;> omega
  incomp_trans a b c := by
    unfold ByPosition
    simp only [not_and_eq_decide_lt]
    generalize a.IsReverseStrand.toNat = ra, b.IsReverseStrand.toNat = rb,
      c.IsReverseStrand.toNat = rc
    intro h1 h2
    split_ifs at h1 h2 ⊢ <;>
      simp only [decide_eq_false_iff_not, Bool.true_eq_false] at h1 h2 ⊢ <;> omega

/-- A comparator that orders by a key of a linear order, then by a number, then puts the
elements with a set bit first, is a strict weak ordering. -/
theorem lexicographic_swo {α K : Type} [LinearOrder K] (key : α → K) (num : α → Nat)
    (bit : α → Bool) :
    StrictWeakOrdering (fun lhs rhs : α =>
      if key lhs ≠ key rhs then decide (key lhs < key rhs)
      else if num lhs ≠ num rhs then decide (num lhs < num rhs)
      else bit lhs && !bit rhs) where
  irrefl a := by simp
  trans a b c := by
    intro h1 h2
    rcases lt_trichotomy (key a) (key b) with hab | hab | hab <;>
    rcases lt_trichotomy (key b) (key c) with hbc | hbc | hbc
    · simp [ne_of_lt (lt_trans hab hbc), lt_trans hab hbc]
    · simp [← hbc, ne_of_lt hab, hab]
    · simp [ne_of_gt hbc, not_lt_of_gt hbc] at h2
    · simp [hab, ne_of_lt hbc, hbc]
    · simp only [hab, hbc, ne_eq, not_true_eq_false, if_false, and_not_eq_decide_lt]
        at h1 h2 ⊢
      generalize (bit a).toNat = ra, (bit b).toNat = rb, (bit c).toNat = rc at h1 h2 ⊢
      split_ifs at h1 h2 ⊢ <;>
        simp only [decide_eq_true_eq, Bool.false_eq_true] at h1 h2 ⊢ <;> omega
    · simp [ne_of_gt hbc, not_lt_of_gt hbc] at h2
    · simp [ne_of_gt hab, not_lt_of_gt hab] at h1
    · simp [ne_of_gt hab, not_lt_of_gt hab] at h1
    · simp [ne_of_gt hab, not_lt_of_gt hab] at h1
  incomp_trans a b c := by
    intro h1 h2
    rcases lt_trichotomy (key a) (key b) with hab | hab | hab <;>
    rcases lt_trichotomy (key b) (key c) with hbc | hbc | hbc
    · simp [ne_of_lt hab, hab] at h1
    · simp [ne_of_lt hab, hab] at h1
    · simp [ne_of_lt hab, hab] at h1
    · simp [ne_of_lt hbc, hbc] at h2
    · simp only [hab, hbc, ne_eq, not_true_eq_false, if_false, and_not_eq_decide_lt]
        at h1 h2 ⊢
      generalize (bit a).toNat = ra, (bit b).toNat = rb, (bit c).toNat = rc at h1 h2 ⊢
      split_ifs at h1 h2 ⊢ <;>
        simp only [decide_eq_false_iff_not, Bool.true_eq_false] at h1 h2 ⊢ <;> omega
    · simp [hab, ne_of_gt hbc, not_lt_of_gt hbc]
    · simp [ne_of_lt hbc, hbc] at h2
    · simp [← hbc, ne_of_gt hab, not_lt_of_gt hab]
    · simp [ne_of_gt (lt_trans hbc hab), not_lt_of_gt (lt_trans hbc hab)]

theorem ByName_swo : StrictWeakOrdering ByName := by
  have h := lexicographic_swo (fun al : BamAlignment => al.Name) (fun al => al.AlignmentFlag)
    (fun al => al.IsFirstMate)
  unfold ByName
  convert h

/-- The comparator selected by `SortBuffer` is a strict weak ordering. -/
theorem selectComparator_swo (sort_order : SortOrder) :
    StrictWeakOrdering (selectComparator ByName ByPosition sort_order) := by
  unfold selectComparator
  split
  · exact ByName_swo
  · exact ByPosition_swo

/-! ## Properties of `SortBuffer` -/

/-- In both modes `SortBuffer` yields the stable sort of the buffer under the selected
comparator, provided the comparators are strict weak orderings. -/
theorem SortBuffer_eq_stable_sort {α : Type} {byName byPosition : α → α → Bool}
    (hN : StrictWeakOrdering byName) (hP : StrictWeakOrdering byPosition) (nothreads : Bool)
    (sort_order : SortOrder) (availableCores : Int) (buffer : List α) :
    SortBuffer byName byPosition nothreads sort_order availableCores buffer =
      stable_sort (selectComparator byName byPosition sort_order) buffer := by
  have hsel : StrictWeakOrdering (selectComparator byName byPosition sort_order) := by
    unfold selectComparator
    split
    · exact hN
    · exact hP
  unfold SortBuffer
  cases nothreads with
  | true =>
    simp only [if_true]
    unfold selectComparator
    split <;> rfl
  | false =>
    simp only [Bool.false_eq_true, if_false]
    exact SortBuffer_threaded_eq hsel availableCores buffer

/-- The elements with the sort key of `e` are mutually equivalent. -/
theorem sameKey_class {α : Type} {comp : α → α → Bool} (h : StrictWeakOrdering comp)
    (e : α) :
    ∀ x y, sameKey comp e x = true → sameKey comp e y = true → comp x y = false := by
  intro x y hx hy
  simp only [sameKey, Bool.and_eq_true, Bool.not_eq_true'] at hx hy
  exact h.incomp_trans x e y hx.2 hy.1

theorem ByName_false_le (a b : BamAlignment) (h : ByName b a = false) : a.Name ≤ b.Name := by
  unfold ByName at h
  by_cases h1 : b.Name ≠ a.Name
  · rw [if_pos h1] at h
    exact not_lt.mp (of_decide_eq_false h)
  · exact le_of_eq (not_not.mp h1).symm

theorem ByPosition_false_le (a b : BamAlignment) (h : ByPosition b a = false) :
    coordinateLE a b := by
  unfold ByPosition at h
  unfold coordinateLE
  split_ifs at h ⊢ <;>
    (try simp only [decide_eq_false_iff_not, Bool.true_eq_false] at h) <;> omega

/-- C1 (as amended): in both modes and for both sort orders, `SortBuffer` leaves the buffer as
a permutation of its input in which no adjacent pair `(a, b)` is out of order under the
selected comparator: `a.name ≤ b.name` for the name sort, and
`(a.ref, a.pos) ≤ (b.ref, b.pos)` with reference id −1 ranked last for the coordinate sort. -/
theorem C1_SortBuffer_sorted_permutation (nothreads : Bool) (sort_order : SortOrder)
    (availableCores : Int) (buffer : List BamAlignment) :
    (SortBuffer ByName ByPosition nothreads sort_order availableCores buffer).Perm buffer ∧
    (SortBuffer ByName ByPosition nothreads sort_order availableCores buffer).Chain'
      (fun a b => selectComparator ByName ByPosition sort_order b a = false) ∧
    (SortBuffer ByName ByPosition nothreads sort_order availableCores buffer).Chain'
      (fun a b =>
        match sort_order with
        | SORT_NAME => a.Name ≤ b.Name
        | SORT_POSITION => coordinateLE a b) := by
  rw [SortBuffer_eq_stable_sort ByName_swo ByPosition_swo]
  have hsorted := pairwise_stable_sort (selectComparator_swo sort_order) buffer
  refine ⟨perm_stable_sort _ _, hsorted.chain', ?_⟩
  refine (hsorted.imp ?_).chain'
  intro a b hab
  cases sort_order with
  | SORT_NAME => exact ByName_false_le a b hab
  | SORT_POSITION => exact ByPosition_false_le a b hab

/-- C1 as stated fails: with an unmapped read (reference id −1) in the buffer, the coordinate
sort places the mapped read `(0, 5)` before the unmapped read `(−1, −1)`, and
`(0, 5) ≤ (−1, −1)` does not hold in the lexicographic order of the integers. -/
theorem C1_counterexample_unmapped_read :
    SortBuffer ByName ByPosition true SORT_POSITION 1
        [⟨"u", -1, -1, 4⟩, ⟨"m", 0, 5, 0⟩] = [⟨"m", 0, 5, 0⟩, ⟨"u", -1, -1, 4⟩] ∧
    ¬ (SortBuffer ByName ByPosition true SORT_POSITION 1
        [⟨"u", -1, -1, 4⟩, ⟨"m", 0, 5, 0⟩]).Chain' lexLE := by
  have hrun : SortBuffer ByName ByPosition true SORT_POSITION 1
      [⟨"u", -1, -1, 4⟩, ⟨"m", 0, 5, 0⟩] = [⟨"m", 0, 5, 0⟩, ⟨"u", -1, -1, 4⟩] := by
    decide
  rw [hrun]
  refine ⟨rfl, ?_⟩
  intro hchain
  have hpair : lexLE ⟨"m", 0, 5, 0⟩ ⟨"u", -1, -1, 4⟩ := (List.chain'_cons.mp hchain).1
  exact absurd hpair (by decide)

/-- The scenario of the specification: two reads on reference 0 at positions 100 and 50 leave
the coordinate sort in the order (50, 100), in both modes. -/
theorem SortBuffer_two_reads (nothreads : Bool) :
    (SortBuffer ByName ByPosition nothreads SORT_POSITION 4
        [⟨"a", 0, 100, 0⟩, ⟨"b", 0, 50, 0⟩]).map (fun al => al.Position) = [50, 100] := by
  cases nothreads <;> decide

/-- C2: for all comparators that meet the requirement of the standard library, every sort
order, every core count and every buffer, the threaded path of `SortBuffer` (a stable sort of
each section, then the in-place merges from front to back) produces the sequence of the
single-threaded path, the stable sort of the whole buffer; the alignments with the sort key of
any one alignment `e` keep their source order. -/
theorem C2_threaded_equals_stable_sort {α : Type} (byName byPosition : α → α → Bool)
    (hN : StrictWeakOrdering byName) (hP : StrictWeakOrdering byPosition)
    (sort_order : SortOrder) (availableCores : Int) (buffer : List α) :
    SortBuffer byName byPosition false sort_order availableCores buffer =
      SortBuffer byName byPosition true sort_order availableCores buffer ∧
    SortBuffer byName byPosition true sort_order availableCores buffer =
      stable_sort (selectComparator byName byPosition sort_order) buffer ∧
    ∀ e : α,
      (SortBuffer byName byPosition false sort_order availableCores buffer).filter
          (sameKey (selectComparator byName byPosition sort_order) e) =
        buffer.filter (sameKey (selectComparator byName byPosition sort_order) e) := by
  have hsel : StrictWeakOrdering (selectComparator byName byPosition sort_order) := by
    unfold selectComparator
    split
    · exact hN
    · exact hP
  refine ⟨?_, SortBuffer_eq_stable_sort hN hP _ _ _ _, ?_⟩
  · rw [SortBuffer_eq_stable_sort hN hP, SortBuffer_eq_stable_sort hN hP]
  · intro e
    rw [SortBuffer_eq_stable_sort hN hP]
    exact filter_stable_sort _ _ (sameKey_class hsel e) buffer

/-- C2 at the comparators of the sorter and a buffer of three reads. -/
theorem C2_threaded_equals_stable_sort_witness :
    StrictWeakOrdering ByName ∧ StrictWeakOrdering ByPosition ∧
    SortBuffer ByName ByPosition false SORT_POSITION 4
        [⟨"a", 0, 100, 0⟩, ⟨"b", 0, 50, 16⟩, ⟨"c", 0, 50, 0⟩] =
      SortBuffer ByName ByPosition true SORT_POSITION 4
        [⟨"a", 0, 100, 0⟩, ⟨"b", 0, 50, 16⟩, ⟨"c", 0, 50, 0⟩] :=
  ⟨ByName_swo, ByPosition_swo,
    (C2_threaded_equals_stable_sort ByName ByPosition ByName_swo ByPosition_swo SORT_POSITION 4
      [⟨"a", 0, 100, 0⟩, ⟨"b", 0, 50, 16⟩, ⟨"c", 0, 50, 0⟩]).1⟩

/-! ## Properties of `GenerateSortedRuns` and `Run` -/

/-- What one call of `CreateSortedTempFile` changes. -/
theorem CreateSortedTempFile_effect (env : SorterEnv) (s : ReadSorter)
    (buffer : List BamAlignment) :
    (CreateSortedTempFile env s buffer).2.handedOff = s.handedOff ++ [buffer] ∧
    (CreateSortedTempFile env s buffer).2.m_numberOfRuns = s.m_numberOfRuns + 1 ∧
    (CreateSortedTempFile env s buffer).2.m_tempFilenames =
      s.m_tempFilenames ++ [s.m_tempFilenameStub ++ toString s.m_numberOfRuns] ∧
    (CreateSortedTempFile env s buffer).2.alignments_per_tempfile = s.alignments_per_tempfile ∧
    (CreateSortedTempFile env s buffer).2.sort_retval = s.sort_retval ∧
    (CreateSortedTempFile env s buffer).2.merge_retval = s.merge_retval ∧
    ((∀ name, env.writerOpens name = true) →
      (CreateSortedTempFile env s buffer).2.tempFiles.length = s.tempFiles.length + 1) := by
  unfold CreateSortedTempFile TempFileWriteJob_runJob WriteTempFile
  simp only
  refine ⟨?_, ?_, ?_, ?_, ?_, ?_, ?_⟩
  iterate 6 (split_ifs <;> rfl)
  intro hw
  simp only [hw, Bool.not_true, Bool.false_eq_true, if_false]
  split_ifs <;> simp

/-- The loop of `GenerateSortedRuns`: the buffers it hands off are full, and together with the
buffer that is left they hold the alignments read, in order. -/
theorem fillBuffers_spec (env : SorterEnv) :
    ∀ (input : List BamAlignment) (s : ReadSorter) (buffer : List BamAlignment),
      1 ≤ s.alignments_per_tempfile → buffer.length ≤ s.alignments_per_tempfile →
      ∃ news : List (List BamAlignment),
        (fillBuffers env s buffer input).1.handedOff = s.handedOff ++ news ∧
        (fillBuffers env s buffer input).1.m_numberOfRuns = s.m_numberOfRuns + news.length ∧
        (fillBuffers env s buffer input).1.m_tempFilenames.length =
          s.m_tempFilenames.length + news.length ∧
        (fillBuffers env s buffer input).1.alignments_per_tempfile =
          s.alignments_per_tempfile ∧
        ((∀ name, env.writerOpens name = true) →
          (fillBuffers env s buffer input).1.tempFiles.length =
            s.tempFiles.length + news.length) ∧
        (∀ b ∈ news, b.length = s.alignments_per_tempfile) ∧
        news.flatten ++ (fillBuffers env s buffer input).2 = buffer ++ input ∧
        (fillBuffers env s buffer input).2.length ≤ s.alignments_per_tempfile ∧
        news.length * s.alignments_per_tempfile + (fillBuffers env s buffer input).2.length =
          buffer.length + input.length ∧
        (0 < buffer.length + input.length → 0 < (fillBuffers env s buffer input).2.length) := by
  intro input
  induction input with
  | nil =>
    intro s buffer _ hb
    exact ⟨[], by simp [fillBuffers, hb]⟩
  | cons al input ih =>
    intro s buffer hN hb
    by_cases hfull : buffer.length ≥ s.alignments_per_tempfile
    · have hstep : fillBuffers env s buffer (al :: input) =
          fillBuffers env (CreateSortedTempFile env s buffer).2 [al] input := by
        simp [fillBuffers, hfull]
      obtain ⟨e1, e2, e3, e4, -, -, e7⟩ := CreateSortedTempFile_effect env s buffer
      obtain ⟨news, h1, h2, h3, h4, h5, h6, h7, h8, h9, h10⟩ :=
        ih (CreateSortedTempFile env s buffer).2 [al] (by rw [e4]; exact hN)
          (by rw [e4]; simpa using hN)
      rw [e4] at h4 h6 h8 h9
      refine ⟨buffer :: news, ?_, ?_, ?_, ?_, ?_, ?_, ?_, ?_, ?_, ?_⟩
      · rw [hstep, h1, e1]; simp
      · rw [hstep, h2, e2, List.length_cons]; omega
      · rw [hstep, h3, e3, List.length_append, List.length_singleton, List.length_cons]; omega
      · rw [hstep, h4]
      · intro hw; rw [hstep, h5 hw, e7 hw, List.length_cons]; omega
      · intro b hbm
        rcases List.mem_cons.mp hbm with rfl | hbm
        · omega
        · exact h6 b hbm
      · rw [hstep, List.flatten_cons, List.append_assoc, h7]; simp
      · rw [hstep]; exact h8
      · rw [hstep, List.length_cons, Nat.add_mul]
        simp only [List.length_singleton, List.length_cons, List.length_nil] at h9 ⊢
        omega
      · intro _; rw [hstep]; exact h10 (by simp)
    · have hstep : fillBuffers env s buffer (al :: input) =
          fillBuffers env s (buffer ++ [al]) input := by
        simp [fillBuffers, hfull]
      obtain ⟨news, h1, h2, h3, h4, h5, h6, h7, h8, h9, h10⟩ :=
        ih s (buffer ++ [al]) hN (by simp; omega)
      refine ⟨news, ?_, ?_, ?_, ?_, ?_, h6, ?_, ?_, ?_, ?_⟩
      · rw [hstep, h1]
      · rw [hstep, h2]
      · rw [hstep, h3]
      · rw [hstep, h4]
      · intro hw; rw [hstep, h5 hw]
      · rw [hstep, h7]; simp
      · rw [hstep]; exact h8
      · rw [hstep, h9]; simp; omega
      · intro _; rw [hstep]; exact h10 (by simp)

/-- The two shapes of the result of `GenerateSortedRuns`, after its loop has left `buffer`. -/
theorem GenerateSortedRuns_eq (env : SorterEnv) (s : ReadSorter) (input : List BamAlignment) :
    GenerateSortedRuns env s input =
      (true,
        if !(fillBuffers env { s with m_header_SortOrder :=
              if s.sort_order = SORT_NAME then SORT_NAME else SORT_POSITION } [] input).2.isEmpty
        then (CreateSortedTempFile env
            (fillBuffers env { s with m_header_SortOrder :=
              if s.sort_order = SORT_NAME then SORT_NAME else SORT_POSITION } [] input).1
            (fillBuffers env { s with m_header_SortOrder :=
              if s.sort_order = SORT_NAME then SORT_NAME else SORT_POSITION } [] input).2).2
        else (fillBuffers env { s with m_header_SortOrder :=
              if s.sort_order = SORT_NAME then SORT_NAME else SORT_POSITION } [] input).1) := by
  unfold GenerateSortedRuns
  simp only [ite_self]

/-- The method `GenerateSortedRuns` always reports success. -/
theorem GenerateSortedRuns_fst (env : SorterEnv) (s : ReadSorter) (input : List BamAlignment) :
    (GenerateSortedRuns env s input).1 = true := by
  rw [GenerateSortedRuns_eq]

/-- Rounding up: `k` full buffers and one more of `1 ≤ r ≤ N` alignments hold `n` alignments
exactly when `k + 1 = ⌈n / N⌉`. -/
theorem ceil_div_eq (n N k r : Nat) (hr1 : 1 ≤ r) (hrN : r ≤ N) (hn : k * N + r = n) :
    (n + N - 1) / N = k + 1 := by
  apply Nat.div_eq_of_lt_le
  · rw [Nat.add_mul]; omega
  · rw [Nat.succ_mul, Nat.add_mul]; omega

theorem GenerateSortedRuns_spec (env : SorterEnv) (s : ReadSorter) (input : List BamAlignment)
    (hN : 1 ≤ s.alignments_per_tempfile) :
    ∃ news : List (List BamAlignment),
      (GenerateSortedRuns env s input).2.handedOff = s.handedOff ++ news ∧
      (GenerateSortedRuns env s input).2.m_numberOfRuns = s.m_numberOfRuns + news.length ∧
      (GenerateSortedRuns env s input).2.m_tempFilenames.length =
        s.m_tempFilenames.length + news.length ∧
      ((∀ name, env.writerOpens name = true) →
        (GenerateSortedRuns env s input).2.tempFiles.length =
          s.tempFiles.length + news.length) ∧
      news.flatten = input ∧
      (∀ b ∈ news.dropLast, b.length = s.alignments_per_tempfile) ∧
      (∀ b ∈ news.getLast?, 1 ≤ b.length ∧ b.length ≤ s.alignments_per_tempfile) ∧
      news.length = (input.length + s.alignments_per_tempfile - 1) / s.alignments_per_tempfile := by
  rw [GenerateSortedRuns_eq]
  obtain ⟨news, h1, h2, h3, h4, h5, h6, h7, h8, h9, h10⟩ :=
    fillBuffers_spec env input { s with m_header_SortOrder :=
      if s.sort_order = SORT_NAME then SORT_NAME else SORT_POSITION } [] hN (by simp)
  generalize fillBuffers env { s with m_header_SortOrder :=
      if s.sort_order = SORT_NAME then SORT_NAME else SORT_POSITION } [] input = r at *
  simp only [List.nil_append, List.length_nil, Nat.zero_add] at h1 h2 h3 h4 h5 h6 h7 h8 h9 h10
  by_cases hempty : r.2 = []
  · have hin : input.length = 0 := by
      by_contra hne
      have := h10 (by omega)
      rw [hempty] at this
      simp at this
    have hnews : news = [] := by
      rw [hempty, hin] at h9
      rcases (by simpa using h9 : news = [] ∨ s.alignments_per_tempfile = 0) with h | h
      · exact h
      · omega
    subst hnews
    refine ⟨[], ?_, ?_, ?_, ?_, ?_, ?_, ?_, ?_⟩
    · simp [hempty, h1]
    · simp [hempty, h2]
    · simp [hempty, h3]
    · intro hw; simp [hempty, h5 hw]
    · simpa [hempty] using h7
    · simp
    · simp
    · rw [hin]
      simp only [List.length_nil, Nat.zero_add]
      exact (Nat.div_eq_of_lt (by omega)).symm
  · have hne : (!r.2.isEmpty) = true := by
      cases hr : r.2 with
      | nil => exact absurd hr hempty
      | cons _ _ => rfl
    have hlen : 1 ≤ r.2.length := by
      cases hr : r.2 with
      | nil => exact absurd hr hempty
      | cons _ _ => simp
    obtain ⟨e1, e2, e3, e4, -, -, e7⟩ := CreateSortedTempFile_effect env r.1 r.2
    refine ⟨news ++ [r.2], ?_, ?_, ?_, ?_, ?_, ?_, ?_, ?_⟩
    · simp only [hne, if_true]; rw [e1, h1, List.append_assoc]
    · simp only [hne, if_true]; rw [e2, h2, List.length_append, List.length_singleton]; omega
    · simp only [hne, if_true]
      rw [e3, List.length_append, List.length_singleton, h3, List.length_append,
        List.length_singleton]
      omega
    · intro hw
      simp only [hne, if_true]
      rw [e7 hw, h5 hw, List.length_append, List.length_singleton]; omega
    · rw [List.flatten_append, List.flatten_singleton, h7]
    · rw [List.dropLast_concat]; exact h6
    · intro b hb
      rw [List.getLast?_concat] at hb
      cases hb
      exact ⟨hlen, h8⟩
    · rw [List.length_append, List.length_singleton]
      exact (ceil_div_eq _ _ _ _ hlen h8 h9).symm

/-- C3: for `alignments_per_tempfile = N ≥ 1` and an input of `n` alignments,
`GenerateSortedRuns` creates exactly `⌈n / N⌉` temp files: that many runs are counted and
named, and that many files are written when every write succeeds; none for an empty input,
and 3 for 1 200 000 alignments with `N = 500 000`. -/
theorem C3_number_of_temp_files (env : SorterEnv) (s : ReadSorter)
    (input : List BamAlignment) (hN : 1 ≤ s.alignments_per_tempfile) :
    (GenerateSortedRuns env s input).2.m_numberOfRuns =
      s.m_numberOfRuns +
        (input.length + s.alignments_per_tempfile - 1) / s.alignments_per_tempfile ∧
    (GenerateSortedRuns env s input).2.m_tempFilenames.length =
      s.m_tempFilenames.length +
        (input.length + s.alignments_per_tempfile - 1) / s.alignments_per_tempfile ∧
    ((∀ name, env.writerOpens name = true) →
      (GenerateSortedRuns env s input).2.tempFiles.length =
        s.tempFiles.length +
          (input.length + s.alignments_per_tempfile - 1) / s.alignments_per_tempfile) ∧
    (input.length = 0 →
      (GenerateSortedRuns env s input).2.m_numberOfRuns = s.m_numberOfRuns) ∧
    (input.length = 1200000 → s.alignments_per_tempfile = 500000 →
      (GenerateSortedRuns env s input).2.m_numberOfRuns = s.m_numberOfRuns + 3) := by
  obtain ⟨news, -, h2, h3, h4, -, -, -, h8⟩ := GenerateSortedRuns_spec env s input hN
  rw [← h8]
  refine ⟨h2, h3, h4, ?_, ?_⟩
  · intro h0
    rw [h2, h8, h0, Nat.zero_add, Nat.div_eq_of_lt (by omega)]
    rfl
  · intro hn hcap
    rw [h2, h8, hn, hcap]

/-- C3 at five reads and `alignments_per_tempfile = 2`: three temp files. -/
theorem C3_number_of_temp_files_witness :
    1 ≤ (sampleSorter true 2).alignments_per_tempfile ∧
    (GenerateSortedRuns sampleEnv (sampleSorter true 2) sampleReads).2.m_numberOfRuns = 3 :=
  ⟨by decide,
    (C3_number_of_temp_files sampleEnv (sampleSorter true 2) sampleReads (by decide)).1.trans
      (by decide)⟩

/-- C4: for `alignments_per_tempfile = N ≥ 1`, the buffers that `GenerateSortedRuns` hands to
`CreateSortedTempFile`, concatenated in hand-off order, are the input sequence; every buffer
but the last holds exactly `N` alignments and the last holds between 1 and `N`. -/
theorem C4_buffers_partition_input (env : SorterEnv) (s : ReadSorter)
    (input : List BamAlignment) (hN : 1 ≤ s.alignments_per_tempfile) :
    ∃ news : List (List BamAlignment),
      (GenerateSortedRuns env s input).2.handedOff = s.handedOff ++ news ∧
      news.flatten = input ∧
      (∀ b ∈ news.dropLast, b.length = s.alignments_per_tempfile) ∧
      (∀ b ∈ news.getLast?, 1 ≤ b.length ∧ b.length ≤ s.alignments_per_tempfile) := by
  obtain ⟨news, h1, -, -, -, h5, h6, h7, -⟩ := GenerateSortedRuns_spec env s input hN
  exact ⟨news, h1, h5, h6, h7⟩

/-- C4 at five reads and `alignments_per_tempfile = 2`, in threaded mode. -/
theorem C4_buffers_partition_input_witness :
    1 ≤ (sampleSorter false 2).alignments_per_tempfile ∧
    (GenerateSortedRuns sampleEnv (sampleSorter false 2) sampleReads).2.handedOff.flatten =
      sampleReads := by
  refine ⟨by decide, ?_⟩
  obtain ⟨news, h1, h2, -, -⟩ :=
    C4_buffers_partition_input sampleEnv (sampleSorter false 2) sampleReads (by decide)
  rw [h1, ← h2]
  rfl

/-- The loop of `GenerateSortedRuns` leaves the members that `Run` returns as they are. -/
theorem fillBuffers_retval (env : SorterEnv) :
    ∀ (input : List BamAlignment) (s : ReadSorter) (buffer : List BamAlignment),
      (fillBuffers env s buffer input).1.sort_retval = s.sort_retval ∧
      (fillBuffers env s buffer input).1.merge_retval = s.merge_retval := by
  intro input
  induction input with
  | nil => intro s buffer; exact ⟨rfl, rfl⟩
  | cons al input ih =>
    intro s buffer
    obtain ⟨-, -, -, -, e5, e6, -⟩ := CreateSortedTempFile_effect env s buffer
    simp only [fillBuffers]
    split
    · exact ih s _
    · rw [(ih _ _).1, (ih _ _).2, e5, e6]
      exact ⟨rfl, rfl⟩

/-- The method `Run` returns the values that `sort_retval` and `merge_retval` had when it was
called, whatever happened to the temp files. -/
theorem Run_fst (env : SorterEnv) (s : ReadSorter) (input : List BamAlignment) :
    (Run env s input).1 = (s.sort_retval && s.merge_retval) := by
  have hgen : ∀ t : ReadSorter,
      (GenerateSortedRuns env t input).2.sort_retval = t.sort_retval ∧
      (GenerateSortedRuns env t input).2.merge_retval = t.merge_retval := by
    intro t
    rw [GenerateSortedRuns_eq]
    have hf := fillBuffers_retval env input { t with m_header_SortOrder :=
      if t.sort_order = SORT_NAME then SORT_NAME else SORT_POSITION } []
    generalize fillBuffers env { t with m_header_SortOrder :=
      if t.sort_order = SORT_NAME then SORT_NAME else SORT_POSITION } [] input = r at hf ⊢
    obtain ⟨-, -, -, -, e5, e6, -⟩ := CreateSortedTempFile_effect env r.1 r.2
    by_cases hne : (!r.2.isEmpty) = true
    · simp only [hne, if_true]
      rw [e5, e6]
      exact hf
    · simp only [hne, if_false]
      exact hf
  have hmerge : ∀ t : ReadSorter,
      (MergeSortedRuns env t).2.sort_retval = t.sort_retval ∧
      (MergeSortedRuns env t).2.merge_retval = t.merge_retval := by
    intro t
    unfold MergeSortedRuns
    split <;> exact ⟨rfl, rfl⟩
  have hsort : ∀ t : ReadSorter,
      (RunSort env t input).2.sort_retval = t.sort_retval ∧
      (RunSort env t input).2.merge_retval = t.merge_retval := by
    intro t
    unfold RunSort
    simp only [GenerateSortedRuns_fst, if_true]
    rw [(hmerge _).1, (hmerge _).2]
    exact hgen t
  unfold Run
  simp only
  rw [(hsort _).1, (hsort _).2]

/-- C5 fails on the code: in an environment in which no temp file can be opened,
`WriteTempFile` returns `false`, no temp file is written, and still `GenerateSortedRuns`
returns `true`; `RunSort` returns `false` only because the merge cannot open the files, and
`Run` drops that result: its value and the status of the stage are those of a run in which
every write succeeds.  In threaded mode the failure is written to `cerr` and nowhere else. -/
theorem C5_write_failure_not_propagated :
    (WriteTempFile failingEnv (sampleSorter true 2) sampleReads "tmp0").1 = false ∧
    (GenerateSortedRuns failingEnv (sampleSorter true 2) sampleReads).1 = true ∧
    (GenerateSortedRuns failingEnv (sampleSorter false 2) sampleReads).1 = true ∧
    (GenerateSortedRuns failingEnv (sampleSorter true 2) sampleReads).2.tempFiles = [] ∧
    (GenerateSortedRuns failingEnv (sampleSorter false 2) sampleReads).2.tempFiles = [] ∧
    (GenerateSortedRuns failingEnv (sampleSorter false 2) sampleReads).2.problems.length = 3 ∧
    (RunSort failingEnv (sampleSorter true 2) sampleReads).1 = false ∧
    (Run failingEnv (sampleSorter true 2) sampleReads).1 = true ∧
    (Run failingEnv (sampleSorter false 2) sampleReads).1 = true ∧
    runInternal failingEnv (sampleSorter true 2) sampleReads =
      runInternal sampleEnv (sampleSorter true 2) sampleReads ∧
    runInternal failingEnv (sampleSorter false 2) sampleReads =
      runInternal sampleEnv (sampleSorter false 2) sampleReads := by
  refine ⟨rfl, GenerateSortedRuns_fst _ _ _, GenerateSortedRuns_fst _ _ _, by decide, by decide,
    by decide, by decide, ?_, ?_, ?_, ?_⟩
  · rw [Run_fst]; rfl
  · rw [Run_fst]; rfl
  · unfold runInternal; rw [Run_fst, Run_fst]
  · unfold runInternal; rw [Run_fst, Run_fst]

/-! ## Properties of `computeInsertSize` and `setMateInfo` -/

/-- What `setMateInfo` does with two mapped records: every mate field is taken from the
partner, except the mate reference id of `rec1`, which is taken from the mate reference id of
`rec2`. -/
theorem setMateInfo_both_mapped (rec1 rec2 : OGERead) (h1 : rec1.mapped = true)
    (h2 : rec2.mapped = true) :
    (setMateInfo rec1 rec2).1.MateRefID = rec2.MateRefID ∧
    (setMateInfo rec1 rec2).1.MatePosition = rec2.Position ∧
    (setMateInfo rec1 rec2).1.mateReverseStrand = rec2.reverseStrand ∧
    (setMateInfo rec1 rec2).1.mateMapped = true ∧
    (setMateInfo rec1 rec2).1.tagMQ = some rec2.MapQuality ∧
    (setMateInfo rec1 rec2).2.MateRefID = rec1.RefID ∧
    (setMateInfo rec1 rec2).2.MatePosition = rec1.Position ∧
    (setMateInfo rec1 rec2).2.mateReverseStrand = rec1.reverseStrand ∧
    (setMateInfo rec1 rec2).2.mateMapped = true ∧
    (setMateInfo rec1 rec2).2.tagMQ = some rec1.MapQuality := by
  simp [setMateInfo, setMateInfo_flags, h1, h2]

/-- C7 fails on the code: for the mapped pair `chimericFirst` (reference 0) and
`chimericSecond` (reference 1), `setMateInfo` leaves in `rec1` the mate reference id 0, the
former mate reference id of `rec2`, and not the reference id 1 of `rec2`; `rec2` does get the
reference id of `rec1`. -/
theorem C7_mate_reference_of_first_record :
    chimericFirst.mapped = true ∧ chimericSecond.mapped = true ∧
    chimericSecond.RefID = 1 ∧
    (setMateInfo chimericFirst chimericSecond).1.MateRefID = 0 ∧
    (setMateInfo chimericFirst chimericSecond).1.MateRefID ≠ chimericSecond.RefID ∧
    (setMateInfo chimericFirst chimericSecond).2.MateRefID = chimericFirst.RefID := by
  decide

/-- The loop of `getReferenceLength` adds up the lengths of the operations that advance on
the reference. -/
theorem getReferenceLength_eq (read : OGERead) :
    getReferenceLength read =
      ((read.CigarData.filter consumesReference).map CigarOp.length).sum := by
  have hfold : ∀ (cigar : List CigarOp) (acc : Nat),
      cigar.foldl
          (fun length i =>
            if i.type = 'M' ∨ i.type = 'D' ∨ i.type = 'N' ∨ i.type = '=' ∨ i.type = 'X' then
              length + i.length
            else length)
          acc =
        acc + ((cigar.filter consumesReference).map CigarOp.length).sum := by
    intro cigar
    induction cigar with
    | nil => intro acc; simp
    | cons op cigar ih =>
      intro acc
      rw [List.foldl_cons, ih, List.filter_cons]
      by_cases hop : op.type = 'M' ∨ op.type = 'D' ∨ op.type = 'N' ∨ op.type = '=' ∨
          op.type = 'X'
      · have hc : consumesReference op = true := by
          unfold consumesReference
          simp only [Bool.or_eq_true, decide_eq_true_eq]
          tauto
        rw [if_pos hop, hc]
        simp [Nat.add_assoc]
      · have hc : consumesReference op = false := by
          cases hcr : consumesReference op with
          | false => rfl
          | true =>
            unfold consumesReference at hcr
            simp only [Bool.or_eq_true, decide_eq_true_eq] at hcr
            exact absurd (by tauto) hop
        rw [if_neg hop, hc]
        simp
  unfold getReferenceLength
  rw [OGERead.getCigarData, hfold]
  simp

/-- A value in the range of `int` is not changed by the conversion to `int`. -/
theorem toInt32_of_fits (x : Int) (h : fitsInt32 x) : toInt32 x = x := by
  unfold toInt32
  unfold fitsInt32 at h
  omega

/-- The 5' position that `computeInsertSize` computes is that of the specification, when
that is in the range of `int`. -/
theorem fivePrime_eq (read : OGERead) (h : fitsInt32 (fivePrimePosition read)) :
    (if read.IsReverseStrand then getEndPosition read else read.getPosition) =
      fivePrimePosition read := by
  unfold fivePrimePosition at h ⊢
  simp only [OGERead.IsReverseStrand, OGERead.getPosition]
  split_ifs with hrev
  · rw [if_pos hrev] at h
    unfold getEndPosition
    rw [getReferenceLength_eq]
    exact toInt32_of_fits _ h
  · rfl

/-- What `computeInsertSize` returns for two mapped records on which its second test does
not fire, when the 5' positions and their distance, adjusted by one, are in the range of
`int`. -/
theorem computeInsertSize_in_range (a b : OGERead) (ha : a.mapped = true)
    (hb : b.mapped = true) (hne : ¬ logicalNot a.RefID = b.RefID)
    (hfits : fitsInt32 (fivePrimePosition a) ∧ fitsInt32 (fivePrimePosition b) ∧
      fitsInt32 (fivePrimePosition b - fivePrimePosition a - 1) ∧
      fitsInt32 (fivePrimePosition b - fivePrimePosition a + 1)) :
    computeInsertSize a b =
      (if fivePrimePosition b ≥ fivePrimePosition a then
        fivePrimePosition b - fivePrimePosition a + 1
      else fivePrimePosition b - fivePrimePosition a - 1) := by
  unfold computeInsertSize
  simp only [OGERead.IsMapped, ha, hb, Bool.not_true, Bool.or_self, Bool.false_eq_true,
    if_false, OGERead.getRefID, hne, fivePrime_eq a hfits.1, fivePrime_eq b hfits.2.1]
  obtain ⟨_, _, h3, h4⟩ := hfits
  generalize fivePrimePosition a = e1 at *
  generalize fivePrimePosition b = e2 at *
  unfold toInt32
  unfold fitsInt32 at h3 h4
  split_ifs <;> omega

/-- C9: when exactly one record of the pair is mapped, in either argument order, `setMateInfo`
gives the unmapped record the reference id and position of the mapped one, makes that locus
the mate reference id and mate position of both records, leaves the reference id and position
of the mapped record as they were, and sets both insert sizes to 0. -/
theorem C9_one_end_mapped (m u : OGERead) (hm : m.mapped = true) (hu : u.mapped = false) :
    ((setMateInfo m u).2.RefID = m.RefID ∧ (setMateInfo m u).2.Position = m.Position ∧
      (setMateInfo m u).1.MateRefID = m.RefID ∧ (setMateInfo m u).1.MatePosition = m.Position ∧
      (setMateInfo m u).2.MateRefID = m.RefID ∧ (setMateInfo m u).2.MatePosition = m.Position ∧
      (setMateInfo m u).1.RefID = m.RefID ∧ (setMateInfo m u).1.Position = m.Position ∧
      (setMateInfo m u).1.InsertSize = 0 ∧ (setMateInfo m u).2.InsertSize = 0) ∧
    ((setMateInfo u m).1.RefID = m.RefID ∧ (setMateInfo u m).1.Position = m.Position ∧
      (setMateInfo u m).2.MateRefID = m.RefID ∧ (setMateInfo u m).2.MatePosition = m.Position ∧
      (setMateInfo u m).1.MateRefID = m.RefID ∧ (setMateInfo u m).1.MatePosition = m.Position ∧
      (setMateInfo u m).2.RefID = m.RefID ∧ (setMateInfo u m).2.Position = m.Position ∧
      (setMateInfo u m).1.InsertSize = 0 ∧ (setMateInfo u m).2.InsertSize = 0) := by
  constructor <;>
    simp [setMateInfo, setMateInfo_flags, setMateInfo_oneMapped, computeInsertSize, hm, hu]

/-- C9 at the scenario of the specification: `r1` mapped at position 1000 of reference 0,
`r2` unmapped; afterwards `r2` is at position 1000 and the insert sizes are 0. -/
theorem C9_one_end_mapped_witness :
    sampleMapped.mapped = true ∧ sampleUnmapped.mapped = false ∧
    (setMateInfo sampleMapped sampleUnmapped).2.RefID = 0 ∧
    (setMateInfo sampleMapped sampleUnmapped).2.Position = 1000 ∧
    (setMateInfo sampleMapped sampleUnmapped).1.InsertSize = 0 ∧
    (setMateInfo sampleMapped sampleUnmapped).2.InsertSize = 0 :=
  ⟨rfl, rfl,
    (C9_one_end_mapped sampleMapped sampleUnmapped rfl rfl).1.1,
    (C9_one_end_mapped sampleMapped sampleUnmapped rfl rfl).1.2.1,
    (C9_one_end_mapped sampleMapped sampleUnmapped rfl rfl).1.2.2.2.2.2.2.2.2.1,
    (C9_one_end_mapped sampleMapped sampleUnmapped rfl rfl).1.2.2.2.2.2.2.2.2.2⟩

/-- C10 (as amended): for a mapped record `r1` and its unmapped mate `r2`, in either argument
order, `setMateInfo` clears the mate-mapped flag of `r1`, whose mate is unmapped, and sets the
mate-mapped flag of `r2`, whose mate is mapped. -/
theorem C10_mate_mapped_flags (r1 r2 : OGERead) (h1 : r1.mapped = true)
    (h2 : r2.mapped = false) :
    (setMateInfo r1 r2).1.IsMateMapped = false ∧ (setMateInfo r1 r2).2.IsMateMapped = true ∧
    (setMateInfo r2 r1).2.IsMateMapped = false ∧ (setMateInfo r2 r1).1.IsMateMapped = true := by
  simp [setMateInfo, setMateInfo_flags, setMateInfo_oneMapped, h1, h2]

/-- C10 (as amended) at the scenario of the specification. -/
theorem C10_mate_mapped_flags_witness :
    sampleMapped.mapped = true ∧ sampleUnmapped.mapped = false ∧
    (setMateInfo sampleMapped sampleUnmapped).1.IsMateMapped = false ∧
    (setMateInfo sampleMapped sampleUnmapped).2.IsMateMapped = true :=
  ⟨rfl, rfl, (C10_mate_mapped_flags sampleMapped sampleUnmapped rfl rfl).1,
    (C10_mate_mapped_flags sampleMapped sampleUnmapped rfl rfl).2.1⟩

/-- C10 as stated fails: after `setMateInfo` on `r1`, mapped at position 1000 of reference 0,
and its unmapped mate `r2`, the mate-mapped flag of `r1` is not set, although it was set
before the call. -/
theorem C10_counterexample_mate_mapped_not_set :
    sampleMapped.IsMapped = true ∧ sampleUnmapped.IsMapped = false ∧
    sampleMapped.IsMateMapped = true ∧
    ¬ ((setMateInfo sampleMapped sampleUnmapped).1.IsMateMapped = true) := by
  decide

/-! ## Properties of `ReadSorter::getHeader` -/

/-- C18: the header that `ReadSorter::getHeader` returns carries the sort-order tag
`queryname` when the sort order is by name and `coordinate` otherwise, has every other field
of the header of the source, and does not depend on the sort-order tag of the source. -/
theorem C18_getHeader_sets_sort_order (s : ReadSorter) (sourceHeader : SamHeader) :
    (s.getHeader sourceHeader).SortOrder =
      (if s.sort_order = SORT_NAME then "queryname" else "coordinate") ∧
    (s.getHeader sourceHeader).Version = sourceHeader.Version ∧
    (s.getHeader sourceHeader).GroupOrder = sourceHeader.GroupOrder ∧
    (s.getHeader sourceHeader).Sequences = sourceHeader.Sequences ∧
    (s.getHeader sourceHeader).ReadGroups = sourceHeader.ReadGroups ∧
    (s.getHeader sourceHeader).Programs = sourceHeader.Programs ∧
    (s.getHeader sourceHeader).Comments = sourceHeader.Comments ∧
    (∀ tag : String,
      s.getHeader { sourceHeader with SortOrder := tag } = s.getHeader sourceHeader) := by
  refine ⟨?_, rfl, rfl, rfl, rfl, rfl, rfl, fun _ => rfl⟩
  unfold ReadSorter.getHeader SAM_HD_SORTORDER_QUERYNAME SAM_HD_SORTORDER_COORDINATE
  rfl

/-! ## Properties of the movability test -/

/-- What `pairedReadIsMovable` tests: the read is paired, one end is mapped, the read is not
a mapped read with its mate on another reference, and the value of `getLength()`, the length
of the read, is at most the bound in absolute value. -/
theorem pairedReadIsMovable_iff (maxInsertSize : Int) (read : OGERead) :
    pairedReadIsMovable maxInsertSize read = true ↔
      read.paired = true ∧ (read.mapped = true ∨ read.mateMapped = true) ∧
      ¬ (read.mapped = true ∧ read.RefID ≠ read.MateRefID) ∧ |read.Length| ≤ maxInsertSize := by
  unfold pairedReadIsMovable iSizeTooBigToMove
  cases hp : read.paired <;> cases hm : read.mapped <;> cases hmm : read.mateMapped <;>
    simp [hp, hm, hmm]

/-- C19 fails on the code: `pairedReadIsMovable` compares the length of the read, not its
insert size, with the bound.  With the bound 3000, a read of 100 bases with insert size 5000
is movable, and a read of 4000 bases with insert size 200 is not; both are paired and mapped,
with a mapped mate on the same reference. -/
theorem C19_movable_depends_on_read_length :
    longInsert.paired = true ∧ longInsert.mapped = true ∧
    longInsert.RefID = longInsert.MateRefID ∧ |longInsert.InsertSize| > 3000 ∧
    pairedReadIsMovable 3000 longInsert = true ∧
    longRead.paired = true ∧ longRead.mapped = true ∧
    longRead.RefID = longRead.MateRefID ∧ |longRead.InsertSize| ≤ 3000 ∧
    pairedReadIsMovable 3000 longRead = false := by
  decide

/-! ## Properties of `getInputAlignment` -/

/-- C14 fails on the code: the source has one record, 7, to put out.  The downstream module
finds its queue empty; then the source pushes the record and sets `finished_execution`; then
the downstream module reads the flag and returns `NULL`, while the record is in the queue,
unread. -/
theorem C14_null_returned_with_record_unread :
    ((Handoff.start [7]).run
        [Thread.downstream, Thread.upstream, Thread.upstream, Thread.downstream]).results =
      [none] ∧
    ((Handoff.start [7]).run
        [Thread.downstream, Thread.upstream, Thread.upstream, Thread.downstream]).input_queue =
      [7] ∧
    ((Handoff.start [7]).run
        [Thread.downstream, Thread.upstream, Thread.upstream]).finished_execution = true ∧
    ((Handoff.start [7]).run
        [Thread.downstream, Thread.upstream, Thread.upstream]).input_queue = [7] := by
  decide

/-- When the source has finished before the downstream module starts to read, the records
come out in the order in which they went in, and `NULL` comes after them. -/
theorem Handoff_source_first :
    ((Handoff.start [7, 8]).run
        [Thread.upstream, Thread.upstream, Thread.upstream,
          Thread.downstream, Thread.downstream, Thread.downstream, Thread.downstream,
          Thread.downstream, Thread.downstream]).results = [some 7, some 8, none] := by
  decide

/-! ## Properties of `FileReader` -/

/-- The tests of `deduceFileFormat` yield the detected format. -/
theorem detectedFormat_eq (env : ReaderEnv) (stdin : List Nat) (filename : String)
    (b0 b1 : Nat) (h : firstTwoBytes env stdin filename = some (b0, b1)) :
    detectedFormat env stdin filename = formatOfBytes b0 b1 := by
  unfold detectedFormat formatOfBytes
  rw [h]

/-- One round of the loop of `deduceFileFormat` on an input that cannot be read. -/
theorem deduceFileFormat_loop_unreadable (env : ReaderEnv) (i : Nat) (ret : file_format_t)
    (stdin : List Nat) (filename : String) (filenames : List String)
    (h : firstTwoBytes env stdin filename = none) :
    (deduceFileFormat_loop env i ret stdin (filename :: filenames)).1 =
      Outcome.returned FORMAT_UNKNOWN := by
  unfold firstTwoBytes at h
  unfold deduceFileFormat_loop
  split at h
  · simp at h
  · split <;> simp_all

/-- One round of the loop of `deduceFileFormat` on an input that can be read. -/
theorem deduceFileFormat_loop_readable (env : ReaderEnv) (i : Nat) (ret : file_format_t)
    (stdin : List Nat) (filename : String) (filenames : List String) (b0 b1 : Nat)
    (h : firstTwoBytes env stdin filename = some (b0, b1)) :
    deduceFileFormat_loop env i ret stdin (filename :: filenames) =
      if i ≠ 0 ∧ (if i = 0 then formatOfBytes b0 b1 else ret) ≠ formatOfBytes b0 b1 then
        (Outcome.exited (-1), stdin)
      else deduceFileFormat_loop env (i + 1) (if i = 0 then formatOfBytes b0 b1 else ret)
        stdin filenames := by
  unfold firstTwoBytes at h
  conv_lhs => unfold deduceFileFormat_loop
  split at h
  · next d0 d1 tl heq =>
    simp only [Option.some.injEq, Prod.mk.injEq] at h
    obtain ⟨rfl, rfl⟩ := h
    rw [heq]
  · simp at h

/-- C15: for a single input whose first two bytes `b0`, `b1` can be read, `deduceFileFormat`
returns SAM exactly when `b0 = '@'`, BAM exactly when `b0 = 0x1F` and `b1 = 0x8B`, and
`FORMAT_UNKNOWN` in every other case; for an input with fewer than two readable bytes, or one
that cannot be opened, it returns `FORMAT_UNKNOWN`. -/
theorem C15_format_of_a_single_input (env : ReaderEnv) (stdin : List Nat)
    (filename : String) :
    (∀ b0 b1 : Nat, firstTwoBytes env stdin filename = some (b0, b1) →
      ((deduceFileFormat env stdin [filename]).1 = Outcome.returned FORMAT_SAM ↔
        b0 = 0x40) ∧
      ((deduceFileFormat env stdin [filename]).1 = Outcome.returned FORMAT_BAM ↔
        b0 = 0x1F ∧ b1 = 0x8B) ∧
      ((deduceFileFormat env stdin [filename]).1 = Outcome.returned FORMAT_UNKNOWN ↔
        ¬ b0 = 0x40 ∧ ¬ (b0 = 0x1F ∧ b1 = 0x8B))) ∧
    (firstTwoBytes env stdin filename = none →
      (deduceFileFormat env stdin [filename]).1 = Outcome.returned FORMAT_UNKNOWN) := by
  constructor
  · intro b0 b1 h
    have hrun : (deduceFileFormat env stdin [filename]).1 =
        Outcome.returned (formatOfBytes b0 b1) := by
      unfold deduceFileFormat
      rw [deduceFileFormat_loop_readable env 0 _ stdin filename [] b0 b1 h]
      simp [deduceFileFormat_loop]
    rw [hrun]
    unfold formatOfBytes
    by_cases h0 : b0 = 64
    · simp [h0]
    · by_cases h1 : b0 = 31 ∧ b1 = 139
      · simp [h0, h1]
      · simp [h0, h1]
  · intro h
    exact deduceFileFormat_loop_unreadable env 0 _ stdin filename [] h

/-- C15 at the files `a.sam`, `c.bam`, `x.txt` and a missing file. -/
theorem C15_format_of_a_single_input_witness :
    firstTwoBytes sampleFiles [] "a.sam" = some (64, 72) ∧
    (deduceFileFormat sampleFiles [] ["a.sam"]).1 = Outcome.returned FORMAT_SAM ∧
    firstTwoBytes sampleFiles [] "c.bam" = some (31, 139) ∧
    (deduceFileFormat sampleFiles [] ["c.bam"]).1 = Outcome.returned FORMAT_BAM ∧
    firstTwoBytes sampleFiles [] "missing" = none ∧
    (deduceFileFormat sampleFiles [] ["missing"]).1 = Outcome.returned FORMAT_UNKNOWN :=
  ⟨by decide,
    ((C15_format_of_a_single_input sampleFiles [] "a.sam").1 64 72 (by decide)).1.mpr rfl,
    by decide,
    ((C15_format_of_a_single_input sampleFiles [] "c.bam").1 31 139 (by decide)).2.1.mpr
      ⟨rfl, rfl⟩,
    by decide,
    (C15_format_of_a_single_input sampleFiles [] "missing").2 (by decide)⟩

/-- The loop of `deduceFileFormat` after the first input, whose format is `first`: it returns
`first` when every input is readable and has that format, it returns `FORMAT_UNKNOWN` when it
meets an input that cannot be read, and it exits with status −1 when it meets a readable
input of another format. -/
theorem deduceFileFormat_loop_spec (env : ReaderEnv) (stdin : List Nat)
    (first : file_format_t) :
    ∀ (filenames : List String) (i : Nat), i ≠ 0 →
      ((deduceFileFormat_loop env i first stdin filenames).1 = Outcome.returned first ∧
        ∀ n ∈ filenames, firstTwoBytes env stdin n ≠ none ∧
          detectedFormat env stdin n = first) ∨
      ((deduceFileFormat_loop env i first stdin filenames).1 =
          Outcome.returned FORMAT_UNKNOWN ∧
        ∃ n ∈ filenames, firstTwoBytes env stdin n = none) ∨
      ((deduceFileFormat_loop env i first stdin filenames).1 = Outcome.exited (-1) ∧
        ∃ n ∈ filenames, firstTwoBytes env stdin n ≠ none ∧
          detectedFormat env stdin n ≠ first) := by
  intro filenames
  induction filenames with
  | nil =>
    intro i _
    left
    exact ⟨by simp [deduceFileFormat_loop], by simp⟩
  | cons n rest ih =>
    intro i hi
    cases hb : firstTwoBytes env stdin n with
    | none =>
      right; left
      exact ⟨deduceFileFormat_loop_unreadable env i first stdin n rest hb,
        n, List.mem_cons_self _ _, hb⟩
    | some bytes =>
      obtain ⟨b0, b1⟩ := bytes
      have hdet := detectedFormat_eq env stdin n b0 b1 hb
      rw [deduceFileFormat_loop_readable env i first stdin n rest b0 b1 hb]
      simp only [hi, if_false, ne_eq, not_false_eq_true, true_and]
      by_cases hsame : first = formatOfBytes b0 b1
      · rw [if_neg (by simp [hsame])]
        rcases ih (i + 1) (by omega) with ⟨h1, h2⟩ | ⟨h1, m, hm, h2⟩ | ⟨h1, m, hm, h2⟩
        · left
          refine ⟨h1, ?_⟩
          intro m hm
          rcases List.mem_cons.mp hm with rfl | hm
          · exact ⟨by simp [hb], by rw [hdet, hsame]⟩
          · exact h2 m hm
        · right; left
          exact ⟨h1, m, List.mem_cons_of_mem _ hm, h2⟩
        · right; right
          exact ⟨h1, m, List.mem_cons_of_mem _ hm, h2⟩
      · rw [if_pos hsame]
        right; right
        refine ⟨rfl, n, List.mem_cons_self _ _, by simp [hb], ?_⟩
        rw [hdet]
        exact fun h => hsame h.symm

/-- The three ways in which `deduceFileFormat` ends on a non-empty list of inputs. -/
theorem deduceFileFormat_spec (env : ReaderEnv) (stdin : List Nat) (first : String)
    (rest : List String) :
    ((deduceFileFormat env stdin (first :: rest)).1 =
        Outcome.returned (detectedFormat env stdin first) ∧
      ∀ n ∈ first :: rest, firstTwoBytes env stdin n ≠ none ∧
        detectedFormat env stdin n = detectedFormat env stdin first) ∨
    ((deduceFileFormat env stdin (first :: rest)).1 = Outcome.returned FORMAT_UNKNOWN ∧
      ∃ n ∈ first :: rest, firstTwoBytes env stdin n = none) ∨
    ((deduceFileFormat env stdin (first :: rest)).1 = Outcome.exited (-1) ∧
      ∃ n ∈ first :: rest, firstTwoBytes env stdin n ≠ none ∧
        detectedFormat env stdin n ≠ detectedFormat env stdin first) := by
  unfold deduceFileFormat
  cases hb : firstTwoBytes env stdin first with
  | none =>
    right; left
    exact ⟨deduceFileFormat_loop_unreadable env 0 _ stdin first rest hb,
      first, List.mem_cons_self _ _, hb⟩
  | some bytes =>
    obtain ⟨b0, b1⟩ := bytes
    have hdet := detectedFormat_eq env stdin first b0 b1 hb
    rw [deduceFileFormat_loop_readable env 0 _ stdin first rest b0 b1 hb, hdet]
    simp only [ne_eq, not_true_eq_false, false_and, if_false, if_true]
    rcases deduceFileFormat_loop_spec env stdin (formatOfBytes b0 b1) rest 1 (by omega) with
      ⟨h1, h2⟩ | ⟨h1, m, hm, h2⟩ | ⟨h1, m, hm, h2⟩
    · left
      refine ⟨h1, ?_⟩
      intro m hm
      rcases List.mem_cons.mp hm with rfl | hm
      · exact ⟨by simp [hb], hdet⟩
      · exact h2 m hm
    · right; left
      exact ⟨h1, m, List.mem_cons_of_mem _ hm, h2⟩
    · right; right
      exact ⟨h1, m, List.mem_cons_of_mem _ hm, h2⟩

/-- A reader that is to deduce the format ends the process with status −1 when
`deduceFileFormat` does, and when `deduceFileFormat` returns `FORMAT_UNKNOWN`. -/
theorem runInternal_of_deduce (env : ReaderEnv) (stdin : List Nat) (r : FileReader)
    (hspec : r.format_specified = false)
    (h : (deduceFileFormat env stdin r.filenames).1 = Outcome.exited (-1) ∨
      (deduceFileFormat env stdin r.filenames).1 = Outcome.returned FORMAT_UNKNOWN) :
    (r.runInternal env stdin).1 = Outcome.exited (-1) := by
  unfold FileReader.runInternal
  rcases h with h | h <;> simp [hspec, h]

/-- What `deduceFileFormat` and the run do when the detected formats of the inputs do, or do
not, agree. -/
theorem deduceFileFormat_agreement (env : ReaderEnv) (stdin : List Nat) (r : FileReader)
    (first : String) (rest : List String) (hnames : r.filenames = first :: rest)
    (hspec : r.format_specified = false) :
    (∀ F, (deduceFileFormat env stdin r.filenames).1 = Outcome.returned F →
      F = FORMAT_SAM ∨ F = FORMAT_BAM →
      ∀ n ∈ r.filenames, detectedFormat env stdin n = F) ∧
    ((∃ n ∈ r.filenames, detectedFormat env stdin n ≠ detectedFormat env stdin first) →
      ((deduceFileFormat env stdin r.filenames).1 = Outcome.exited (-1) ∨
        (deduceFileFormat env stdin r.filenames).1 = Outcome.returned FORMAT_UNKNOWN) ∧
      (r.runInternal env stdin).1 = Outcome.exited (-1) ∧
      ((∀ n ∈ r.filenames, firstTwoBytes env stdin n ≠ none) →
        (deduceFileFormat env stdin r.filenames).1 = Outcome.exited (-1))) := by
  have hs := deduceFileFormat_spec env stdin first rest
  rw [← hnames] at hs
  constructor
  · intro F hF hreal n hn
    rcases hs with ⟨h1, h2⟩ | ⟨h1, -⟩ | ⟨h1, -⟩
    · rw [h1] at hF
      cases hF
      exact (h2 n hn).2
    · rw [h1] at hF
      cases hF
      rcases hreal with h | h <;> cases h
    · rw [h1] at hF
      cases hF
  · rintro ⟨n, hn, hdiff⟩
    have hends : (deduceFileFormat env stdin r.filenames).1 = Outcome.exited (-1) ∨
        (deduceFileFormat env stdin r.filenames).1 = Outcome.returned FORMAT_UNKNOWN := by
      rcases hs with ⟨-, h2⟩ | ⟨h1, -⟩ | ⟨h1, -⟩
      · exact absurd (h2 n hn).2 hdiff
      · exact Or.inr h1
      · exact Or.inl h1
    refine ⟨hends, runInternal_of_deduce env stdin r hspec hends, ?_⟩
    intro hall
    rcases hs with ⟨-, h2⟩ | ⟨-, m, hm, h2⟩ | ⟨h1, -⟩
    · exact absurd (h2 n hn).2 hdiff
    · exact absurd h2 (hall m hm)
    · exact h1

/-- C16: for a non-empty list of inputs, `deduceFileFormat` returns SAM or BAM only if
every input has that detected format.  If the detected format of an input differs from that
of the first input, no format is returned and the run of a reader that deduces its format
fails fatally, with `exit(-1)`: `deduceFileFormat` ends the process itself, as it does
whenever every input can be opened and read, or it returns `FORMAT_UNKNOWN` at an input
that cannot be read, on which `runInternal` ends the process. -/
theorem C16_formats_must_agree (env : ReaderEnv) (stdin : List Nat) (r : FileReader)
    (first : String) (rest : List String) (hnames : r.filenames = first :: rest)
    (hspec : r.format_specified = false) :
    (∀ F, (deduceFileFormat env stdin r.filenames).1 = Outcome.returned F →
      F = FORMAT_SAM ∨ F = FORMAT_BAM →
      ∀ n ∈ r.filenames, detectedFormat env stdin n = F) ∧
    ((∃ n ∈ r.filenames, detectedFormat env stdin n ≠ detectedFormat env stdin first) →
      ((deduceFileFormat env stdin r.filenames).1 = Outcome.exited (-1) ∨
        (deduceFileFormat env stdin r.filenames).1 = Outcome.returned FORMAT_UNKNOWN) ∧
      (r.runInternal env stdin).1 = Outcome.exited (-1) ∧
      ((∀ n ∈ r.filenames, firstTwoBytes env stdin n ≠ none) →
        (deduceFileFormat env stdin r.filenames).1 = Outcome.exited (-1))) :=
  deduceFileFormat_agreement env stdin r first rest hnames hspec

/-- C16 at the SAM file `a.sam` followed by the BAM file `c.bam`. -/
theorem C16_formats_must_agree_witness :
    (sampleFileReader ["a.sam", "c.bam"]).filenames = "a.sam" :: ["c.bam"] ∧
    (sampleFileReader ["a.sam", "c.bam"]).format_specified = false ∧
    detectedFormat sampleFiles [] "c.bam" ≠ detectedFormat sampleFiles [] "a.sam" ∧
    (deduceFileFormat sampleFiles [] ["a.sam", "c.bam"]).1 = Outcome.exited (-1) ∧
    ((sampleFileReader ["a.sam", "c.bam"]).runInternal sampleFiles []).1 =
      Outcome.exited (-1) :=
  ⟨rfl, rfl, by decide,
    ((C16_formats_must_agree sampleFiles [] (sampleFileReader ["a.sam", "c.bam"]) "a.sam"
      ["c.bam"] rfl rfl).2 ⟨"c.bam", by decide, by decide⟩).2.2 (by decide),
    ((C16_formats_must_agree sampleFiles [] (sampleFileReader ["a.sam", "c.bam"]) "a.sam"
      ["c.bam"] rfl rfl).2 ⟨"c.bam", by decide, by decide⟩).2.1⟩

/-- For the SAM file `a.sam`, a file that cannot be opened, and the BAM file `c.bam`,
`deduceFileFormat` returns `FORMAT_UNKNOWN` before it comes to the third input, and the run
ends with `exit(-1)`. -/
theorem deduceFileFormat_unreadable_before_mismatch :
    detectedFormat sampleFiles [] "a.sam" = FORMAT_SAM ∧
    detectedFormat sampleFiles [] "c.bam" = FORMAT_BAM ∧
    sampleFiles.fopen "missing" = none ∧
    (deduceFileFormat sampleFiles [] ["a.sam", "missing", "c.bam"]).1 =
      Outcome.returned FORMAT_UNKNOWN ∧
    ((sampleFileReader ["a.sam", "missing", "c.bam"]).runInternal sampleFiles []).1 =
      Outcome.exited (-1) := by
  decide

/-- The only status with which `deduceFileFormat` ends the process is −1. -/
theorem deduceFileFormat_exit_status (env : ReaderEnv) (stdin : List Nat)
    (filenames : List String) (status : Int)
    (h : (deduceFileFormat env stdin filenames).1 = Outcome.exited status) : status = -1 := by
  cases filenames with
  | nil => simp [deduceFileFormat, deduceFileFormat_loop] at h
  | cons first rest =>
    rcases deduceFileFormat_spec env stdin first rest with ⟨h1, -⟩ | ⟨h1, -⟩ | ⟨h1, -⟩
    · rw [h1] at h; cases h
    · rw [h1] at h; cases h
    · rw [h1] at h; cases h; rfl

/-- C17 (as amended): the file reader has one failure status, −1.  Every run returns 0,
returns −1, or ends the process with `exit(-1)`; a run that deduces the format of inputs that
can all be read and do not all have the detected format of the first one ends with
`exit(-1)`, the status which is nonzero and which the reader also uses when the format cannot
be detected. -/
theorem C17_one_failure_status (env : ReaderEnv) (stdin : List Nat) (r : FileReader) :
    ((r.runInternal env stdin).1 = Outcome.returned 0 ∨
      (r.runInternal env stdin).1 = Outcome.returned (-1) ∨
      (r.runInternal env stdin).1 = Outcome.exited (-1)) ∧
    (r.format_specified = false →
      (∀ n ∈ r.filenames, firstTwoBytes env stdin n ≠ none) →
      (∃ n ∈ r.filenames, ∃ m ∈ r.filenames,
        detectedFormat env stdin n ≠ detectedFormat env stdin m) →
      (r.runInternal env stdin).1 = Outcome.exited (-1) ∧
      (r.runInternal env stdin).1.status ≠ 0) ∧
    (r.format_specified = false →
      (deduceFileFormat env stdin r.filenames).1 = Outcome.returned FORMAT_UNKNOWN →
      (r.runInternal env stdin).1 = Outcome.exited (-1)) := by
  refine ⟨?_, ?_, ?_⟩
  · unfold FileReader.runInternal
    simp only
    split
    · next status hd =>
      split at hd
      · have := deduceFileFormat_exit_status env stdin r.filenames status hd
        subst this
        exact Or.inr (Or.inr rfl)
      · cases hd
    · next format hd =>
      split
      · split
        · exact Or.inr (Or.inl rfl)
        · exact Or.inl rfl
      · split
        · split
          · exact Or.inr (Or.inl rfl)
          · exact Or.inl rfl
        · exact Or.inr (Or.inr rfl)
  · intro hspec hall ⟨n, hn, m, hm, hdiff⟩
    cases hnames : r.filenames with
    | nil => rw [hnames] at hn; cases hn
    | cons first rest =>
      have hex : ∃ k ∈ r.filenames,
          detectedFormat env stdin k ≠ detectedFormat env stdin first := by
        by_cases h1 : detectedFormat env stdin n = detectedFormat env stdin first
        · exact ⟨m, hm, fun h2 => hdiff (h1.trans h2.symm)⟩
        · exact ⟨n, hn, h1⟩
      have h := (deduceFileFormat_agreement env stdin r first rest hnames hspec).2 hex
      refine ⟨h.2.1, ?_⟩
      rw [h.2.1]
      decide
  · intro hspec hd
    exact runInternal_of_deduce env stdin r hspec (Or.inr hd)

/-- C17 (as amended) at the SAM file `a.sam` followed by the BAM file `c.bam`. -/
theorem C17_one_failure_status_witness :
    (sampleFileReader ["a.sam", "c.bam"]).format_specified = false ∧
    detectedFormat sampleFiles [] "a.sam" ≠ detectedFormat sampleFiles [] "c.bam" ∧
    ((sampleFileReader ["a.sam", "c.bam"]).runInternal sampleFiles []).1 =
      Outcome.exited (-1) :=
  ⟨rfl, by decide,
    ((C17_one_failure_status sampleFiles [] (sampleFileReader ["a.sam", "c.bam"])).2.1 rfl
      (by decide) ⟨"a.sam", by decide, "c.bam", by decide, by decide⟩).1⟩

/-- C17 as stated fails: the status of a run that ends on a format mismatch, −1, is the
status of a run that ends because the format cannot be detected, of a run that ends because
an input cannot be opened, and the value returned when the BAM reader cannot open its
files. -/
theorem C17_counterexample_same_status :
    ((sampleFileReader ["a.sam", "c.bam"]).runInternal sampleFiles []).1 =
      Outcome.exited (-1) ∧
    ((sampleFileReader ["x.txt"]).runInternal sampleFiles []).1 = Outcome.exited (-1) ∧
    ((sampleFileReader ["missing"]).runInternal sampleFiles []).1 = Outcome.exited (-1) ∧
    ((sampleFileReader ["c.bam"]).runInternal sampleFiles []).1 = Outcome.returned (-1) ∧
    ((sampleFileReader ["a.sam", "c.bam"]).runInternal sampleFiles []).1.status =
      ((sampleFileReader ["x.txt"]).runInternal sampleFiles []).1.status := by
  decide

/-! ## Properties of `putOutputAlignment` -/

/-- The loop of `putOutputAlignment` once the first sink is served: the `k`-th sink that is
left gets a new copy, at the `k`-th address from `nextFree` on; the queues of the other
modules and the alignments allocated before stay as they are. -/
theorem putOutputAlignment_loop_copies (read : Nat) :
    ∀ (sinks : List Nat) (p : Pipeline), sinks.Nodup → read < p.nextFree →
      (putOutputAlignment_loop read p false sinks).nextFree = p.nextFree + sinks.length ∧
      (∀ address, address < p.nextFree →
        (putOutputAlignment_loop read p false sinks).alignments address =
          p.alignments address) ∧
      (∀ module, module ∉ sinks →
        (putOutputAlignment_loop read p false sinks).input_queue module =
          p.input_queue module) ∧
      (∀ k i, sinks[k]? = some i →
        (putOutputAlignment_loop read p false sinks).input_queue i =
          p.input_queue i ++ [p.nextFree + k] ∧
        (putOutputAlignment_loop read p false sinks).alignments (p.nextFree + k) =
          p.alignments read) := by
  intro sinks
  induction sinks with
  | nil =>
    intro p _ _
    simp [putOutputAlignment_loop]
  | cons i sinks ih =>
    intro p hnodup hlt
    rw [List.nodup_cons] at hnodup
    have hstep : putOutputAlignment_loop read p false (i :: sinks) =
        putOutputAlignment_loop read
          (putInputAlignment (newBamAlignment p read).2 i (newBamAlignment p read).1)
          false sinks := by
      simp [putOutputAlignment_loop]
    obtain ⟨h1, h2, h3, h4⟩ :=
      ih (putInputAlignment (newBamAlignment p read).2 i (newBamAlignment p read).1)
        hnodup.2 (by simp [putInputAlignment, newBamAlignment]; omega)
    have hq : ∀ module, (putInputAlignment (newBamAlignment p read).2 i
        (newBamAlignment p read).1).input_queue module =
        if module = i then p.input_queue i ++ [p.nextFree] else p.input_queue module := by
      intro module
      by_cases hmod : module = i
      · simp [putInputAlignment, newBamAlignment, hmod]
      · simp [putInputAlignment, newBamAlignment, hmod]
    have ha : ∀ address, (putInputAlignment (newBamAlignment p read).2 i
        (newBamAlignment p read).1).alignments address =
        if address = p.nextFree then p.alignments read else p.alignments address := by
      intro address
      by_cases hadr : address = p.nextFree
      · simp [putInputAlignment, newBamAlignment, hadr]
      · simp [putInputAlignment, newBamAlignment, hadr]
    have hn : (putInputAlignment (newBamAlignment p read).2 i
        (newBamAlignment p read).1).nextFree = p.nextFree + 1 := by
      simp [putInputAlignment, newBamAlignment]
    rw [hstep]
    refine ⟨?_, ?_, ?_, ?_⟩
    · rw [h1, hn, List.length_cons]; omega
    · intro address hadr
      rw [h2 address (by rw [hn]; omega), ha, if_neg (by omega)]
    · intro module hmod
      rw [List.mem_cons, not_or] at hmod
      rw [h3 module hmod.2, hq, if_neg hmod.1]
    · intro k j hk
      cases k with
      | zero =>
        simp only [List.getElem?_cons_zero, Option.some.injEq] at hk
        subst hk
        refine ⟨?_, ?_⟩
        · rw [h3 i hnodup.1, hq, if_pos rfl]; rfl
        · rw [h2 _ (by rw [hn]; omega), ha]; simp
      | succ k =>
        simp only [List.getElem?_cons_succ] at hk
        obtain ⟨h5, h6⟩ := h4 k j hk
        have hji : j ≠ i := by
          intro hji
          subst hji
          exact hnodup.1 (List.getElem?_mem hk)
        refine ⟨?_, ?_⟩
        · rw [h5, hq, if_neg hji, hn]
          congr 2
          omega
        · rw [hn] at h6
          rw [show p.nextFree + (k + 1) = p.nextFree + 1 + k by omega, h6, ha,
            if_neg (by omega)]

/-- A call of `putOutputAlignment(read)` during which no sink acts, with the sinks a set (no
module twice), appends exactly one pointer to the input queue of every sink: the pointer
`read` itself for the first sink, and for the `k`-th sink after it the address of a new
alignment, allocated by this call, whose content is that of `read`.  The queues of all
other modules stay as they are.  Without sinks no queue changes and the alignment is
deleted. -/
theorem putOutputAlignment_fan_out (p : Pipeline) (sinks : List Nat) (read : Nat)
    (a : BamAlignment) (hnodup : sinks.Nodup) (hread : p.alignments read = some a)
    (hlt : read < p.nextFree) :
    (∀ k i, sinks[k]? = some i →
      (putOutputAlignment p sinks read).input_queue i =
        p.input_queue i ++ [if k = 0 then read else p.nextFree + (k - 1)] ∧
      (putOutputAlignment p sinks read).alignments
        (if k = 0 then read else p.nextFree + (k - 1)) = some a) ∧
    (∀ module, module ∉ sinks →
      (putOutputAlignment p sinks read).input_queue module = p.input_queue module) ∧
    (sinks = [] →
      (putOutputAlignment p sinks read).input_queue = p.input_queue ∧
      (putOutputAlignment p sinks read).alignments read = none) := by
  cases sinks with
  | nil =>
    refine ⟨by simp, ?_, ?_⟩
    · intro module _
      simp [putOutputAlignment, putOutputAlignment_loop, deleteAlignment]
    · intro _
      simp [putOutputAlignment, putOutputAlignment_loop, deleteAlignment]
  | cons first rest =>
    rw [List.nodup_cons] at hnodup
    have hrun : putOutputAlignment p (first :: rest) read =
        putOutputAlignment_loop read (putInputAlignment p first read) false rest := by
      simp [putOutputAlignment, putOutputAlignment_loop]
    obtain ⟨-, h2, h3, h4⟩ := putOutputAlignment_loop_copies read rest
      (putInputAlignment p first read) hnodup.2 (by simpa [putInputAlignment] using hlt)
    have hq : ∀ module, (putInputAlignment p first read).input_queue module =
        if module = first then p.input_queue first ++ [read] else p.input_queue module := by
      intro module
      by_cases hmod : module = first
      · simp [putInputAlignment, hmod]
      · simp [putInputAlignment, hmod]
    have ha : (putInputAlignment p first read).alignments = p.alignments := rfl
    have hn : (putInputAlignment p first read).nextFree = p.nextFree := rfl
    rw [hrun]
    refine ⟨?_, ?_, by simp⟩
    · intro k i hk
      cases k with
      | zero =>
        simp only [List.getElem?_cons_zero, Option.some.injEq] at hk
        subst hk
        simp only [if_true]
        refine ⟨?_, ?_⟩
        · rw [h3 first hnodup.1, hq, if_pos rfl]
        · rw [h2 read (by rw [hn]; exact hlt), ha, hread]
      | succ k =>
        simp only [List.getElem?_cons_succ] at hk
        obtain ⟨h5, h6⟩ := h4 k i hk
        have hif : i ≠ first := by
          intro hif
          subst hif
          exact hnodup.1 (List.getElem?_mem hk)
        simp only [Nat.add_one_ne_zero, if_false, Nat.add_sub_cancel]
        rw [hn] at h5 h6
        refine ⟨?_, ?_⟩
        · rw [h5, hq, if_neg hif]
        · rw [h6, ha, hread]
    · intro module hmod
      rw [List.mem_cons, not_or] at hmod
      rw [h3 module hmod.2, hq, if_neg hmod.1]

/-- A call during which no sink acts, for one alignment and the three sinks 10, 20 and 30:
the first gets the pointer 0, the others the new addresses 1 and 2. -/
theorem putOutputAlignment_fan_out_sample :
    [10, 20, 30].Nodup ∧ samplePipeline.alignments 0 = some ⟨"r0", 0, 400, 0⟩ ∧
    0 < samplePipeline.nextFree ∧
    (putOutputAlignment samplePipeline [10, 20, 30] 0).input_queue 10 = [0] ∧
    (putOutputAlignment samplePipeline [10, 20, 30] 0).input_queue 20 = [1] ∧
    (putOutputAlignment samplePipeline [10, 20, 30] 0).input_queue 30 = [2] ∧
    (putOutputAlignment samplePipeline [10, 20, 30] 0).alignments 2 =
      some ⟨"r0", 0, 400, 0⟩ :=
  ⟨by decide, rfl, by decide,
    ((putOutputAlignment_fan_out samplePipeline [10, 20, 30] 0 ⟨"r0", 0, 400, 0⟩
      (by decide) rfl (by decide)).1 0 10 rfl).1,
    ((putOutputAlignment_fan_out samplePipeline [10, 20, 30] 0 ⟨"r0", 0, 400, 0⟩
      (by decide) rfl (by decide)).1 1 20 rfl).1,
    ((putOutputAlignment_fan_out samplePipeline [10, 20, 30] 0 ⟨"r0", 0, 400, 0⟩
      (by decide) rfl (by decide)).1 2 30 rfl).1,
    ((putOutputAlignment_fan_out samplePipeline [10, 20, 30] 0 ⟨"r0", 0, 400, 0⟩
      (by decide) rfl (by decide)).1 2 30 rfl).2⟩

/-- The loop of `putOutputAlignment` is made of its passages. -/
theorem putOutputAlignment_loop_cons (read : Nat) (p : Pipeline) (atBegin : Bool) (i : Nat)
    (sinks : List Nat) :
    putOutputAlignment_loop read p atBegin (i :: sinks) =
      putOutputAlignment_loop read (putOutputAlignment_passage read p atBegin i) false sinks := by
  cases atBegin <;> simp [putOutputAlignment_loop, putOutputAlignment_passage]

/-- When only the caller acts, the passages of the loop give the loop. -/
theorem FanOut.run_caller (sinks : List Nat) :
    ∀ f : FanOut, f.sinksLeft = sinks →
      (f.run (List.replicate sinks.length FanOutThread.caller)).pipeline =
        putOutputAlignment_loop f.read f.pipeline f.atBegin sinks := by
  induction sinks with
  | nil =>
    intro f _
    simp [FanOut.run, putOutputAlignment_loop]
  | cons i rest ih =>
    intro f hf
    rw [List.length_cons, List.replicate_succ, FanOut.run, List.foldl_cons]
    have hstep : f.step FanOutThread.caller =
        { f with pipeline := putOutputAlignment_passage f.read f.pipeline f.atBegin i,
                 atBegin := false, sinksLeft := rest } := by
      simp only [FanOut.step, hf]
    rw [hstep, putOutputAlignment_loop_cons]
    exact ih _ rfl

/-- A call during which no sink acts is the method `putOutputAlignment` of the model. -/
theorem FanOut.run_alone (p : Pipeline) (sinks : List Nat) (read : Nat) :
    ((FanOut.start p sinks read).run
      (List.replicate sinks.length FanOutThread.caller)).pipeline =
      putOutputAlignment p sinks read :=
  FanOut.run_caller sinks (FanOut.start p sinks read) rfl

/-- C13 fails on the code: a module with the two sinks 10 and 20 puts out the alignment at
address 0, whose content is `r0`.  The first passage of the loop hands the pointer to sink
10; sink 10, on its own thread, takes the alignment from its queue and puts it out, which
deletes it; the second passage evaluates `new BamAlignment(*read)` on the deleted
alignment.  When the call is over, the queue of sink 20 holds one pointer, to an alignment
whose content is not that of `r0`: it is a copy of freed memory.  Had sink 10 waited, the
content would be that of `r0`. -/
theorem C13_copy_after_handoff :
    samplePipeline.alignments 0 = some ⟨"r0", 0, 400, 0⟩ ∧
    ((FanOut.start samplePipeline [10, 20] 0).run
      [FanOutThread.caller, FanOutThread.sink 10]).pipeline.alignments 0 = none ∧
    ((FanOut.start samplePipeline [10, 20] 0).run
      [FanOutThread.caller, FanOutThread.sink 10, FanOutThread.caller]).sinksLeft = [] ∧
    ((FanOut.start samplePipeline [10, 20] 0).run
      [FanOutThread.caller, FanOutThread.sink 10, FanOutThread.caller]).pipeline.input_queue 20
      = [1] ∧
    ((FanOut.start samplePipeline [10, 20] 0).run
      [FanOutThread.caller, FanOutThread.sink 10, FanOutThread.caller]).pipeline.alignments 1
      ≠ some ⟨"r0", 0, 400, 0⟩ ∧
    ((FanOut.start samplePipeline [10, 20] 0).run
      [FanOutThread.caller, FanOutThread.caller, FanOutThread.sink 10]).pipeline.alignments 1
      = some ⟨"r0", 0, 400, 0⟩ :=
  ⟨by decide, by decide, by decide, by decide, by decide, by decide⟩

/-! ## Properties of the mate-fixing manager -/

open ConstrainedMateFixingManager

/-- The loop that writes all but the last waiting read. -/
theorem writeAllButLast_eq :
    ∀ (waiting : List Nat) (m : ConstrainedMateFixingManager), m.waitingReads = waiting →
      m.writeAllButLast waiting =
        { m with
          waitingReads := waiting.getLast?.toList
          written := m.written ++ waiting.dropLast.map (fun read => (read, m.reads read)) } := by
  intro waiting
  induction waiting with
  | nil =>
    intro m hm
    cases m
    simp only at hm
    subst hm
    simp [writeAllButLast]
  | cons first rest ih =>
    intro m hm
    cases rest with
    | nil =>
      cases m
      simp only at hm
      subst hm
      simp [writeAllButLast]
    | cons second rest =>
      rw [writeAllButLast, ih _ rfl]
      simp [writeRead, List.getLast?_cons_cons]

/-- The loop of `close`. -/
theorem writeAll_eq :
    ∀ (waiting : List Nat) (m : ConstrainedMateFixingManager), m.waitingReads = waiting →
      m.writeAll waiting =
        { m with
          waitingReads := []
          written := m.written ++ waiting.map (fun read => (read, m.reads read)) } := by
  intro waiting
  induction waiting with
  | nil =>
    intro m hm
    cases m
    simp only at hm
    subst hm
    simp [writeAll]
  | cons first rest ih =>
    intro m _
    rw [writeAll, ih _ rfl]
    simp [writeRead]

/-- A flush of an empty set fails in `remove`. -/
theorem flushQueue_empty (m : ConstrainedMateFixingManager) (h : m.waitingReads = []) :
    m.flushQueue = none := by
  simp [flushQueue, h, writeAllButLast, remove]

/-- A flush of a set whose last element is `last`: every waiting read is written, in order;
`lastLocFlushed` is the locus of `last`, or `NULL` when `last` has reference id −1; the mate
map is cleared when there were not too many reads, and purged otherwise. -/
theorem flushQueue_eq (m : ConstrainedMateFixingManager) (last : Nat)
    (h : m.waitingReads.getLast? = some last) :
    m.flushQueue = some
      { m with
        waitingReads := []
        written := m.written ++ m.waitingReads.map (fun read => (read, m.reads read))
        lastLocFlushed :=
          (if (m.reads last).RefID = -1 then none
          else some (m.createGenomeLoc (m.reads last)))
        forMateMatching :=
          (if m.tooManyReads then m.forMateMatching.filter (fun entry => entry.2.wasModified)
          else []) } := by
  have hne : m.waitingReads ≠ [] := by
    intro hnil
    rw [hnil] at h
    simp at h
  have hsplit : m.waitingReads = m.waitingReads.dropLast ++ [last] := by
    have := List.dropLast_append_getLast? last h
    exact this.symm
  unfold flushQueue
  simp only []
  rw [writeAllButLast_eq _ m rfl, h]
  simp only [remove, Option.toList, writeRead, purgeUnmodifiedMates, OGERead.getRefID]
  cases htoo : m.tooManyReads
  · simp only [Bool.not_false, if_true, Bool.false_eq_true, if_false]
    congr 2
    conv_rhs => rw [hsplit]
    simp
  · simp only [Bool.not_true, Bool.false_eq_true, if_false, if_true]
    congr 2
    conv_rhs => rw [hsplit]
    simp

/-- When `addReadInternal` flushes. -/
theorem flushCondition_iff (m : ConstrainedMateFixingManager) (newRead : Nat)
    (canFlush : Bool) :
    m.flushCondition newRead canFlush = true ↔
      (canFlush = true ∧ m.waitingReads.length ≥ m.MAX_RECORDS_IN_MEMORY) ∨
      (∃ first, m.waitingReads.head? = some first ∧
        (m.reads first).RefID ≠ (m.reads newRead).RefID) := by
  unfold flushCondition tooManyReads
  cases hw : m.waitingReads with
  | nil => simp
  | cons first rest => simp

/-- C20 (as amended): `addReadInternal(R, wasModified, canFlush)` flushes exactly when
`canFlush` holds and `|waitingReads| ≥ MAX_RECORDS_IN_MEMORY`, or `waitingReads` is not empty
and its front is on another contig than `R`.  A flush writes every waiting read, in order,
and leaves the set empty; `lastLocFlushed` becomes the locus of the last of them, or `NULL`
when that read has reference id −1; the mate map becomes empty when
`|waitingReads| < MAX_RECORDS_IN_MEMORY` held, and otherwise it keeps exactly its entries
whose `wasModified` flag is set, also when the front was on another contig than `R`. -/
theorem C20_flush_of_addReadInternal (m : ConstrainedMateFixingManager) (newRead : Nat)
    (canFlush : Bool) :
    (m.flushCondition newRead canFlush = true ↔
      (canFlush = true ∧ m.waitingReads.length ≥ m.MAX_RECORDS_IN_MEMORY) ∨
      (∃ first, m.waitingReads.head? = some first ∧
        (m.reads first).RefID ≠ (m.reads newRead).RefID)) ∧
    (m.flushCondition newRead canFlush = false →
      m.flushIfNeeded newRead canFlush = some m) ∧
    (m.flushCondition newRead canFlush = true →
      ∀ last, m.waitingReads.getLast? = some last →
        m.flushIfNeeded newRead canFlush = some
          { m with
            waitingReads := []
            written := m.written ++ m.waitingReads.map (fun read => (read, m.reads read))
            lastLocFlushed :=
              (if (m.reads last).RefID = -1 then none
              else some (m.createGenomeLoc (m.reads last)))
            forMateMatching :=
              (if m.waitingReads.length < m.MAX_RECORDS_IN_MEMORY then []
              else m.forMateMatching.filter (fun entry => entry.2.wasModified)) }) := by
  refine ⟨flushCondition_iff m newRead canFlush, ?_, ?_⟩
  · intro h
    simp [flushIfNeeded, h]
  · intro h last hlast
    rw [flushIfNeeded, if_pos h, flushQueue_eq m last hlast]
    unfold tooManyReads
    by_cases hlen : m.waitingReads.length < m.MAX_RECORDS_IN_MEMORY
    · rw [if_pos hlen, if_neg (by simpa using hlen)]
    · rw [if_neg hlen, if_pos (by simpa using hlen)]

/-- C20 (as amended) at `oneWaiting` and the read at address 1: the front is on another
contig, the waiting read is written, and its locus is recorded. -/
theorem C20_flush_of_addReadInternal_witness :
    oneWaiting.flushCondition 1 false = true ∧ oneWaiting.waitingReads.getLast? = some 0 ∧
    ∃ m, oneWaiting.flushIfNeeded 1 false = some m ∧ m.waitingReads = [] ∧
      m.written.map Prod.fst = [0] ∧ m.lastLocFlushed = some ⟨0, 1001, 1050⟩ :=
  ⟨by decide, by decide, _,
    (C20_flush_of_addReadInternal oneWaiting 1 false).2.2 (by decide) 0 (by decide),
    rfl, by decide, by decide⟩

/-- C20 as stated fails: with `MAX_RECORDS_IN_MEMORY = 1`, one read waiting on reference 0
and a new read on reference 1, the flush is caused by the change of contig (`canFlush` is
`false`), and still the mate map is not empty after it: it keeps the entry whose
`wasModified` flag is set.  The manager `oneWaiting` is the one that results from
`addRead(pairFirst, true, false)` on a fresh manager. -/
theorem C20_counterexample_mate_map_not_emptied :
    (((sampleManager 1 100 [pairFirst, singleOnNextContig]).addReadInternal 0 true false).map
      (fun m => (m.waitingReads, m.forMateMatching))) =
        some (oneWaiting.waitingReads, oneWaiting.forMateMatching) ∧
    (oneWaiting.reads 0).RefID ≠ (oneWaiting.reads 1).RefID ∧
    (oneWaiting.flushIfNeeded 1 false).map (fun m => m.forMateMatching) =
      some [("pair", ⟨0, true⟩)] ∧
    (oneWaiting.addReadInternal 1 false false).map (fun m => m.forMateMatching) =
      some [("pair", ⟨0, true⟩)] := by
  decide

/-! ## Properties of the mate-fixing manager: what is written -/

/-- The function `setMateInfo` keeps the mapped flag of both records, and the position of a
record whose mapped flag is set. -/
theorem setMateInfo_keeps_mapped (rec1 rec2 : OGERead) :
    ((setMateInfo rec1 rec2).1.mapped = rec1.mapped ∧
      (rec1.mapped = true → (setMateInfo rec1 rec2).1.Position = rec1.Position)) ∧
    ((setMateInfo rec1 rec2).2.mapped = rec2.mapped ∧
      (rec2.mapped = true → (setMateInfo rec1 rec2).2.Position = rec2.Position)) := by
  unfold setMateInfo setMateInfo_flags setMateInfo_oneMapped
  cases h1 : rec1.mapped <;> cases h2 : rec2.mapped <;>
    simp [h1, h2, OGERead.AddTagMQ, OGERead.RemoveTagMQ, OGERead.setInsertSize,
      OGERead.SetIsMateReverseStrand, OGERead.SetIsMateMapped]

/-- The emission sweep writes a front part of the set, each read as it is, and changes
nothing else but the mate map. -/
theorem emitLoop_frame (newRead : Nat) :
    ∀ (waiting : List Nat) (m : ConstrainedMateFixingManager), m.waitingReads = waiting →
      ∃ k, (m.emitLoop newRead waiting).reads = m.reads ∧
        (m.emitLoop newRead waiting).less = m.less ∧
        (m.emitLoop newRead waiting).MAX_RECORDS_IN_MEMORY = m.MAX_RECORDS_IN_MEMORY ∧
        (m.emitLoop newRead waiting).written
          = m.written ++ (waiting.take k).map (fun read => (read, m.reads read)) ∧
        (m.emitLoop newRead waiting).waitingReads = waiting.drop k := by
  intro waiting
  induction waiting with
  | nil =>
    intro m hm
    exact ⟨0, by simp [emitLoop, hm]⟩
  | cons first rest ih =>
    intro m hm
    unfold emitLoop
    split_ifs with hcond
    · obtain ⟨k, h1, h2, h3, h4, h5⟩ := ih
        ({ ({ m with forMateMatching :=
              m.forMateMatching.filter (fun entry => entry.1 ≠ (m.reads first).getName) })
            with waitingReads := rest }.writeRead first) rfl
      refine ⟨k + 1, ?_, ?_, ?_, ?_, ?_⟩
      · simpa [writeRead] using h1
      · simpa [writeRead] using h2
      · simpa [writeRead] using h3
      · simpa [writeRead] using h4
      · simpa [writeRead] using h5
    · exact ⟨0, by simp [hm]⟩

/-- The first `if` of `addReadInternal` returns when `MAX_RECORDS_IN_MEMORY` is not zero; it
writes all waiting reads or none, each as it is, and does not change the reads. -/
theorem flushIfNeeded_frame (m : ConstrainedMateFixingManager) (newRead : Nat)
    (canFlush : Bool) (hmax : 1 ≤ m.MAX_RECORDS_IN_MEMORY) :
    ∃ m', m.flushIfNeeded newRead canFlush = some m' ∧ m'.reads = m.reads ∧
      m'.less = m.less ∧ m'.MAX_RECORDS_IN_MEMORY = m.MAX_RECORDS_IN_MEMORY ∧
      m'.EMIT_FREQUENCY = m.EMIT_FREQUENCY ∧
      m'.maxInsertSizeForMovingReadPairs = m.maxInsertSizeForMovingReadPairs ∧
      m'.counter = m.counter ∧
      ((m'.written = m.written ∧ m'.waitingReads = m.waitingReads) ∨
        (m'.written = m.written ++ m.waitingReads.map (fun read => (read, m.reads read)) ∧
          m'.waitingReads = [])) := by
  unfold flushIfNeeded
  split_ifs with hflush
  · have hne : m.waitingReads ≠ [] := by
      intro hnil
      rw [flushCondition_iff] at hflush
      rcases hflush with ⟨_, hlen⟩ | ⟨first, hfirst, _⟩
      · rw [hnil] at hlen
        simp at hlen
        omega
      · rw [hnil] at hfirst
        simp at hfirst
    obtain ⟨last, hlast⟩ : ∃ last, m.waitingReads.getLast? = some last := by
      cases hopt : m.waitingReads.getLast? with
      | none => exact absurd (List.getLast?_eq_none_iff.mp hopt) hne
      | some last => exact ⟨last, rfl⟩
    rw [flushQueue_eq m last hlast]
    exact ⟨_, rfl, rfl, rfl, rfl, rfl, rfl, rfl, Or.inr ⟨rfl, rfl⟩⟩
  · exact ⟨m, rfl, rfl, rfl, rfl, rfl, rfl, rfl, Or.inl ⟨rfl, rfl⟩⟩

/-- An insertion into the set adds the element when every element of the set is ordered
with it one way or the other. -/
theorem setInsert_perm (lt : Nat → Nat → Bool) (x : Nat) :
    ∀ (set : List Nat), (∀ y ∈ set, lt x y = true ∨ lt y x = true) →
      (setInsert lt x set).Perm (x :: set) := by
  intro set
  induction set with
  | nil => intro _; simp [setInsert]
  | cons y ys ih =>
    intro h
    unfold setInsert
    split_ifs with h1 h2
    · exact List.Perm.refl _
    · exact ((ih (fun z hz => h z (List.mem_cons_of_mem _ hz))).cons y).trans
        (List.Perm.swap x y ys)
    · rcases h y (List.mem_cons_self _ _) with h3 | h3
      · exact absurd h3 h1
      · exact absurd h3 h2

/-- The mate is taken out of the set and put back, under a comparator that may have
changed: the set holds the same records after that. -/
theorem requeue_perm (lt lt2 : Nat → Nat → Bool) (x : Nat) (set : List Nat)
    (hnodup : set.Nodup)
    (htotal : ∀ y, y ≠ x → lt x y = true ∨ lt y x = true)
    (htotal2 : ∀ y, y ≠ x → lt2 x y = true ∨ lt2 y x = true) :
    (setCount lt x set = 0 → setErase lt x set = set) ∧
    (setCount lt x set ≠ 0 → (setInsert lt2 x (setErase lt x set)).Perm set) := by
  cases hxx : lt x x with
  | true =>
    have hall : ∀ y ∈ set, (lt x y || lt y x) = true := by
      intro y _
      by_cases hy : y = x
      · subst hy
        simp [hxx]
      · simpa using htotal y hy
    have herase : setErase lt x set = set := List.filter_eq_self.mpr hall
    have hcount : setCount lt x set = 0 := by
      unfold setCount
      rw [List.length_eq_zero, List.filter_eq_nil_iff]
      intro y hy
      have := hall y hy
      simp only [Bool.or_eq_true] at this
      rcases this with h | h <;> simp [h]
    exact ⟨fun _ => herase, fun h => absurd hcount h⟩
  | false =>
    have herase : setErase lt x set = set.filter (fun y => decide (y ≠ x)) := by
      unfold setErase
      apply List.filter_congr
      intro y _
      by_cases hy : y = x
      · subst hy
        simp [hxx]
      · simpa [hy] using htotal y hy
    have hcount : setCount lt x set = 0 ↔ x ∉ set := by
      unfold setCount
      rw [List.length_eq_zero, List.filter_eq_nil_iff]
      constructor
      · intro h hx
        have := h x hx
        simp [hxx] at this
      · intro hx y hy
        have hne : y ≠ x := fun h => hx (h ▸ hy)
        rcases htotal y hne with h | h <;> simp [h]
    constructor
    · intro h0
      rw [herase]
      apply List.filter_eq_self.mpr
      intro y hy
      have hx := hcount.mp h0
      simpa using fun h : y = x => hx (h ▸ hy)
    · intro h0
      have hx : x ∈ set := by
        by_contra hx
        exact h0 (hcount.mpr hx)
      rw [herase]
      refine (setInsert_perm lt2 x _ ?_).trans ?_
      · intro y hy
        have hne : y ≠ x := by simpa using (List.mem_filter.mp hy).2
        exact htotal2 y hne
      · have hfilter : set.filter (fun y => decide (y ≠ x)) = set.erase x := by
          rw [hnodup.erase_eq_filter x]
          apply List.filter_congr
          intro y _
          by_cases hy : y = x <;> simp [hy]
        rw [hfilter]
        exact (List.perm_cons_erase hx).symm

/-- The mate-fixing step of `addReadInternal` changes the reads, the set and the mate map
only: either the reads and the set stay as they are, or `setMateInfo` is applied to a mate
and the new read, and the mate stays where it is in the set, or is taken out and, when it
was in the set, put back. -/
theorem fixMates_eq (m : ConstrainedMateFixingManager) (newRead : Nat)
    (readWasModified : Bool) :
    ∃ reads waiting mates,
      m.fixMates newRead readWasModified
        = { m with reads := reads, waitingReads := waiting, forMateMatching := mates } ∧
      ((reads = m.reads ∧ waiting = m.waitingReads) ∨
        ∃ mate, reads = Function.update (Function.update m.reads mate
              (setMateInfo (m.reads mate) (m.reads newRead)).1) newRead
              (setMateInfo (m.reads mate) (m.reads newRead)).2 ∧
          (waiting = m.waitingReads ∨
            (setCount m.lessPtr mate m.waitingReads = 0 ∧
              waiting = setErase m.lessPtr mate m.waitingReads) ∨
            (setCount m.lessPtr mate m.waitingReads ≠ 0 ∧
              waiting = setInsert (fun a b => m.less (a, reads a) (b, reads b)) mate
                (setErase m.lessPtr mate m.waitingReads)))) := by
  unfold fixMates
  by_cases hp : (m.reads newRead).IsPaired = true
  · rw [if_pos hp]
    cases hlook : m.forMateMatching.lookup (m.reads newRead).getName with
    | none =>
      simp only []
      split_ifs
      · exact ⟨_, _, _, rfl, Or.inl ⟨rfl, rfl⟩⟩
      · exact ⟨_, _, _, rfl, Or.inl ⟨rfl, rfl⟩⟩
    | some mate =>
      simp only []
      cases h1 : (m.reads newRead).mapped <;> cases h2 : (m.reads mate.record).mapped <;>
        by_cases h3 : setCount m.lessPtr mate.record m.waitingReads = 0 <;>
        simp only [OGERead.IsMapped, h1, h2, h3, Bool.not_true, Bool.not_false,
          Bool.false_and, Bool.true_and, Bool.and_false, Bool.and_true, Bool.or_true,
          Bool.or_false, Bool.false_or, Bool.true_or, decide_True, decide_False,
          if_true, if_false, ne_eq, not_true_eq_false, not_false_eq_true,
          Bool.false_eq_true, Bool.true_eq_false]
      all_goals first
        | exact ⟨_, _, _, rfl, Or.inl ⟨rfl, rfl⟩⟩
        | exact ⟨_, _, _, rfl, Or.inr ⟨_, rfl, Or.inl rfl⟩⟩
        | exact ⟨_, _, _, rfl, Or.inr ⟨_, rfl, Or.inr (Or.inl ⟨h3, rfl⟩)⟩⟩
        | exact ⟨_, _, _, rfl, Or.inr ⟨_, rfl, Or.inr (Or.inr ⟨h3, rfl⟩)⟩⟩
  · rw [if_neg hp]
    exact ⟨_, _, _, rfl, Or.inl ⟨rfl, rfl⟩⟩

/-- What `addReadInternal` does after the first `if`: the mates are fixed, the new read is
inserted, and the emission sweep runs or does not. -/
theorem addReadInternal_eq (m flushed : ConstrainedMateFixingManager) (newRead : Nat)
    (readWasModified canFlush : Bool)
    (hflush : m.flushIfNeeded newRead canFlush = some flushed) :
    ∃ inserted : ConstrainedMateFixingManager,
      inserted.reads = (flushed.fixMates newRead readWasModified).reads ∧
      inserted.written = (flushed.fixMates newRead readWasModified).written ∧
      inserted.less = (flushed.fixMates newRead readWasModified).less ∧
      inserted.MAX_RECORDS_IN_MEMORY
        = (flushed.fixMates newRead readWasModified).MAX_RECORDS_IN_MEMORY ∧
      inserted.waitingReads
        = setInsert (flushed.fixMates newRead readWasModified).lessPtr newRead
            (flushed.fixMates newRead readWasModified).waitingReads ∧
      (m.addReadInternal newRead readWasModified canFlush = some inserted ∨
        m.addReadInternal newRead readWasModified canFlush
          = some (inserted.emitLoop newRead inserted.waitingReads)) := by
  unfold addReadInternal
  rw [hflush]
  simp only []
  split_ifs
  · refine ⟨_, ?_, ?_, ?_, ?_, ?_, Or.inr rfl⟩ <;> rfl
  · refine ⟨_, ?_, ?_, ?_, ?_, ?_, Or.inl rfl⟩ <;> rfl

/-- Writing reads as they are keeps the positions of the mapped reads. -/
theorem positionsKept_of_written (origin : Nat → OGERead)
    (m m2 : ConstrainedMateFixingManager) (hk : positionsKept origin m)
    (hreads : m2.reads = m.reads) (pointers : List Nat)
    (hwritten : m2.written = m.written ++ pointers.map (fun read => (read, m.reads read))) :
    positionsKept origin m2 := by
  refine ⟨fun read => by rw [hreads]; exact hk.1 read, ?_⟩
  intro entry hentry hmapped
  rw [hwritten, List.mem_append] at hentry
  rcases hentry with hentry | hentry
  · exact hk.2 entry hentry hmapped
  · obtain ⟨read, _, rfl⟩ := List.mem_map.mp hentry
    exact (hk.1 read).2 hmapped

/-- The mate-fixing step keeps the positions of the mapped reads. -/
theorem positionsKept_fixMates (origin : Nat → OGERead) (m : ConstrainedMateFixingManager)
    (newRead : Nat) (readWasModified : Bool) (hk : positionsKept origin m) :
    positionsKept origin (m.fixMates newRead readWasModified) := by
  obtain ⟨reads, waiting, mates, heq, hcases⟩ := fixMates_eq m newRead readWasModified
  rw [heq]
  refine ⟨?_, hk.2⟩
  intro read
  show (reads read).mapped = (origin read).mapped ∧ _
  rcases hcases with ⟨hreads, _⟩ | ⟨mate, hreads, _⟩
  · rw [hreads]
    exact hk.1 read
  · have hinfo := setMateInfo_keeps_mapped (m.reads mate) (m.reads newRead)
    rw [hreads]
    simp only [Function.update_apply]
    split_ifs with h1 h2
    · subst h1
      refine ⟨hinfo.2.1.trans (hk.1 read).1, fun hmapped => ?_⟩
      rw [hinfo.2.2 ((hk.1 read).1.trans hmapped)]
      exact (hk.1 read).2 hmapped
    · subst h2
      refine ⟨hinfo.1.1.trans (hk.1 read).1, fun hmapped => ?_⟩
      rw [hinfo.1.2 ((hk.1 read).1.trans hmapped)]
      exact (hk.1 read).2 hmapped
    · exact hk.1 read

/-- What the first `if` of `addReadInternal` does when it returns. -/
theorem flushIfNeeded_some (m flushed : ConstrainedMateFixingManager) (newRead : Nat)
    (canFlush : Bool) (hflush : m.flushIfNeeded newRead canFlush = some flushed) :
    flushed.reads = m.reads ∧
    ∃ pointers : List Nat,
      flushed.written = m.written ++ pointers.map (fun read => (read, m.reads read)) := by
  unfold flushIfNeeded at hflush
  split_ifs at hflush with hcond
  · cases hopt : m.waitingReads.getLast? with
    | none =>
      rw [flushQueue_empty m (List.getLast?_eq_none_iff.mp hopt)] at hflush
      exact absurd hflush (by simp)
    | some last =>
      rw [flushQueue_eq m last hopt] at hflush
      cases hflush
      exact ⟨rfl, m.waitingReads, rfl⟩
  · cases hflush
    exact ⟨rfl, [], by simp⟩

/-- The method `addReadInternal` keeps the positions of the mapped reads. -/
theorem positionsKept_addReadInternal (origin : Nat → OGERead)
    (m result : ConstrainedMateFixingManager) (newRead : Nat)
    (readWasModified canFlush : Bool) (hk : positionsKept origin m)
    (hadd : m.addReadInternal newRead readWasModified canFlush = some result) :
    positionsKept origin result := by
  cases hflush : m.flushIfNeeded newRead canFlush with
  | none => simp [addReadInternal, hflush] at hadd
  | some flushed =>
    obtain ⟨hreads, pointers, hwritten⟩ := flushIfNeeded_some m flushed newRead canFlush hflush
    have h1 := positionsKept_of_written origin m flushed hk hreads pointers hwritten
    have h2 := positionsKept_fixMates origin flushed newRead readWasModified h1
    obtain ⟨inserted, hr, hw, _, _, _, hres⟩ :=
      addReadInternal_eq m flushed newRead readWasModified canFlush hflush
    have h3 : positionsKept origin inserted :=
      positionsKept_of_written origin _ inserted h2 hr [] (by simpa using hw)
    rcases hres with hres | hres
    · rw [hres] at hadd
      cases hadd
      exact h3
    · rw [hres] at hadd
      cases hadd
      obtain ⟨k, e1, _, _, e4, _⟩ := emitLoop_frame newRead inserted.waitingReads inserted rfl
      exact positionsKept_of_written origin inserted _ h3 e1 _ e4

/-- The method `addReads` keeps the positions of the mapped reads. -/
theorem positionsKept_addReads (origin : Nat → OGERead) (modifiedReads : List Nat) :
    ∀ (newReads : List Nat) (m result : ConstrainedMateFixingManager),
      positionsKept origin m → m.addReads newReads modifiedReads = some result →
      positionsKept origin result := by
  intro newReads
  induction newReads with
  | nil =>
    intro m result hk hadd
    simp only [addReads, Option.some.injEq] at hadd
    exact hadd ▸ hk
  | cons newRead rest ih =>
    intro m result hk hadd
    unfold addReads at hadd
    cases hone : m.addReadInternal newRead (decide (modifiedReads.count newRead > 0)) false with
    | none =>
      rw [hone] at hadd
      simp at hadd
    | some next =>
      rw [hone] at hadd
      exact ih next result (positionsKept_addReadInternal origin m next _ _ _ hk hone) hadd

/-- A sequence of calls keeps the positions of the mapped reads. -/
theorem positionsKept_runCalls (origin : Nat → OGERead) :
    ∀ (calls : List ManagerCall) (m result : ConstrainedMateFixingManager),
      positionsKept origin m → m.runCalls calls = some result →
      positionsKept origin result := by
  intro calls
  induction calls with
  | nil =>
    intro m result hk hrun
    simp only [runCalls, Option.some.injEq] at hrun
    exact hrun ▸ hk
  | cons call rest ih =>
    intro m result hk hrun
    cases call with
    | addRead newRead readWasModified canFlush =>
      unfold runCalls at hrun
      cases hone : m.addRead newRead readWasModified canFlush with
      | none => simp [hone] at hrun
      | some next =>
        simp only [hone] at hrun
        exact ih next result
          (positionsKept_addReadInternal origin m next _ _ _ hk hone) hrun
    | addReads newReads modifiedReads =>
      unfold runCalls at hrun
      cases hone : m.addReads newReads modifiedReads with
      | none => simp [hone] at hrun
      | some next =>
        simp only [hone] at hrun
        exact ih next result (positionsKept_addReads origin modifiedReads newReads m next hk hone)
          hrun

/-- The method `close` keeps the positions of the mapped reads. -/
theorem positionsKept_close (origin : Nat → OGERead) (m : ConstrainedMateFixingManager)
    (hk : positionsKept origin m) : positionsKept origin m.close := by
  unfold close
  rw [writeAll_eq m.waitingReads m rfl]
  exact positionsKept_of_written origin m _ hk rfl m.waitingReads rfl

/-- The mate-fixing step keeps the records of the set, when the comparator orders any two
distinct records and no record is twice in the set. -/
theorem fixMates_waitingReads_perm (m : ConstrainedMateFixingManager) (newRead : Nat)
    (readWasModified : Bool) (htotal : comparesDistinctRecords m.less)
    (hnodup : m.waitingReads.Nodup) :
    (m.fixMates newRead readWasModified).waitingReads.Perm m.waitingReads := by
  obtain ⟨reads, waiting, mates, heq, hcases⟩ := fixMates_eq m newRead readWasModified
  rw [heq]
  show waiting.Perm m.waitingReads
  rcases hcases with ⟨_, hwaiting⟩ | ⟨mate, _, hwaiting | ⟨hcount, hwaiting⟩ | ⟨hcount, hwaiting⟩⟩
  · rw [hwaiting]
  · rw [hwaiting]
  · rw [hwaiting]
    rw [(requeue_perm m.lessPtr m.lessPtr mate m.waitingReads hnodup
      (fun y hy => htotal mate y _ _ (Ne.symm hy))
      (fun y hy => htotal mate y _ _ (Ne.symm hy))).1 hcount]
  · rw [hwaiting]
    exact (requeue_perm m.lessPtr (fun a b => m.less (a, reads a) (b, reads b)) mate
      m.waitingReads hnodup
      (fun y hy => htotal mate y _ _ (Ne.symm hy))
      (fun y hy => htotal mate y _ _ (Ne.symm hy))).2 hcount

/-- The method `addReadInternal` returns, and the manager holds the new read with the reads
it held, when `MAX_RECORDS_IN_MEMORY` is not zero, the comparator orders any two distinct
records and the new read is not one of the reads added before. -/
theorem holdsOrHasWritten_addReadInternal (added : List Nat)
    (m : ConstrainedMateFixingManager) (newRead : Nat) (readWasModified canFlush : Bool)
    (htotal : comparesDistinctRecords m.less) (hmax : 1 ≤ m.MAX_RECORDS_IN_MEMORY)
    (hnodup : added.Nodup) (hnew : newRead ∉ added) (hk : holdsOrHasWritten added m) :
    ∃ result, m.addReadInternal newRead readWasModified canFlush = some result ∧
      result.less = m.less ∧ result.MAX_RECORDS_IN_MEMORY = m.MAX_RECORDS_IN_MEMORY ∧
      holdsOrHasWritten (added ++ [newRead]) result := by
  obtain ⟨flushed, hflush, _, hless, hmaxeq, _, _, _, hcase⟩ :=
    flushIfNeeded_frame m newRead canFlush hmax
  have h1 : holdsOrHasWritten added flushed := by
    unfold holdsOrHasWritten at hk ⊢
    rcases hcase with ⟨hw, hq⟩ | ⟨hw, hq⟩
    · rw [hw, hq]
      exact hk
    · rw [hw, hq]
      simpa [List.map_append, Function.comp_def] using hk
  have hnodupW : flushed.waitingReads.Nodup :=
    ((List.nodup_append.mp (h1.nodup_iff.mpr hnodup)).2).1
  have hperm := fixMates_waitingReads_perm flushed newRead readWasModified
    (hless ▸ htotal) hnodupW
  obtain ⟨reads, waiting, mates, heq, _⟩ := fixMates_eq flushed newRead readWasModified
  have hwritten : (flushed.fixMates newRead readWasModified).written = flushed.written := by
    rw [heq]
  have hlessFix : (flushed.fixMates newRead readWasModified).less = flushed.less := by
    rw [heq]
  have hmaxFix : (flushed.fixMates newRead readWasModified).MAX_RECORDS_IN_MEMORY
      = flushed.MAX_RECORDS_IN_MEMORY := by
    rw [heq]
  obtain ⟨inserted, _, hw, hl, hx, hq, hres⟩ :=
    addReadInternal_eq m flushed newRead readWasModified canFlush hflush
  have hnotin : newRead ∉ (flushed.fixMates newRead readWasModified).waitingReads := by
    intro hin
    have hin2 : newRead ∈ flushed.written.map Prod.fst ++ flushed.waitingReads :=
      List.mem_append_right _ (hperm.subset hin)
    exact hnew (h1.subset hin2)
  have hins : inserted.waitingReads.Perm (newRead :: flushed.waitingReads) := by
    rw [hq]
    refine (setInsert_perm _ newRead _ ?_).trans (hperm.cons newRead)
    intro y hy
    have hne : newRead ≠ y := fun h => hnotin (h ▸ hy)
    have htot2 : comparesDistinctRecords (flushed.fixMates newRead readWasModified).less := by
      rw [hlessFix, hless]
      exact htotal
    exact htot2 newRead y _ _ hne
  have h3 : holdsOrHasWritten (added ++ [newRead]) inserted := by
    unfold holdsOrHasWritten at h1 ⊢
    rw [hw, hwritten]
    refine ((hins.append_left _).trans ?_)
    refine (List.perm_middle).trans ?_
    exact ((h1.cons newRead).trans (List.perm_append_singleton newRead added).symm)
  rcases hres with hres | hres
  · exact ⟨inserted, hres, by rw [hl, hlessFix, hless], by rw [hx, hmaxFix, hmaxeq], h3⟩
  · obtain ⟨k, _, e2, e3, e4, e5⟩ := emitLoop_frame newRead inserted.waitingReads inserted rfl
    refine ⟨_, hres, by rw [e2, hl, hlessFix, hless], by rw [e3, hx, hmaxFix, hmaxeq], ?_⟩
    unfold holdsOrHasWritten at h3 ⊢
    rw [e4, e5]
    simpa [List.map_append, Function.comp_def, List.append_assoc] using h3

/-- The method `addReads` returns, and the manager holds the new reads with the reads it
held. -/
theorem holdsOrHasWritten_addReads (modifiedReads : List Nat) :
    ∀ (newReads added : List Nat) (m : ConstrainedMateFixingManager),
      comparesDistinctRecords m.less → 1 ≤ m.MAX_RECORDS_IN_MEMORY →
      (added ++ newReads).Nodup → holdsOrHasWritten added m →
      ∃ result, m.addReads newReads modifiedReads = some result ∧
        result.less = m.less ∧ result.MAX_RECORDS_IN_MEMORY = m.MAX_RECORDS_IN_MEMORY ∧
        holdsOrHasWritten (added ++ newReads) result := by
  intro newReads
  induction newReads with
  | nil =>
    intro added m _ _ _ hk
    exact ⟨m, rfl, rfl, rfl, by simpa using hk⟩
  | cons newRead rest ih =>
    intro added m htotal hmax hnodup hk
    have hnodup2 : ((added ++ [newRead]) ++ rest).Nodup := by simpa using hnodup
    have hparts := List.nodup_append.mp hnodup2
    have hparts2 := List.nodup_append.mp hparts.1
    have hnew : newRead ∉ added := fun hin =>
      hparts2.2.2 hin (List.mem_singleton_self newRead)
    obtain ⟨next, hone, hl, hx, hk2⟩ := holdsOrHasWritten_addReadInternal added m newRead
      (decide (modifiedReads.count newRead > 0)) false htotal hmax hparts2.1 hnew hk
    obtain ⟨result, hrest, hl2, hx2, hk3⟩ := ih (added ++ [newRead]) next (hl ▸ htotal)
      (hx ▸ hmax) hnodup2 hk2
    refine ⟨result, ?_, hl2.trans hl, hx2.trans hx, by simpa using hk3⟩
    unfold addReads
    rw [hone]
    exact hrest

/-- A sequence of calls returns, and the manager holds the new reads with the reads it
held. -/
theorem holdsOrHasWritten_runCalls :
    ∀ (calls : List ManagerCall) (added : List Nat) (m : ConstrainedMateFixingManager),
      comparesDistinctRecords m.less → 1 ≤ m.MAX_RECORDS_IN_MEMORY →
      (added ++ calls.flatMap ManagerCall.pointers).Nodup → holdsOrHasWritten added m →
      ∃ result, m.runCalls calls = some result ∧
        holdsOrHasWritten (added ++ calls.flatMap ManagerCall.pointers) result := by
  intro calls
  induction calls with
  | nil =>
    intro added m _ _ _ hk
    exact ⟨m, rfl, by simpa using hk⟩
  | cons call rest ih =>
    intro added m htotal hmax hnodup hk
    have hnodup2 : ((added ++ call.pointers) ++ rest.flatMap ManagerCall.pointers).Nodup := by
      simpa [List.flatMap_cons] using hnodup
    have hstep : ∃ next, m.runCalls (call :: rest) = next.runCalls rest ∧
        next.less = m.less ∧ next.MAX_RECORDS_IN_MEMORY = m.MAX_RECORDS_IN_MEMORY ∧
        holdsOrHasWritten (added ++ call.pointers) next := by
      cases call with
      | addRead newRead readWasModified canFlush =>
        have hparts := List.nodup_append.mp (List.nodup_append.mp hnodup2).1
        have hnew : newRead ∉ added := fun hin =>
          hparts.2.2 hin (List.mem_singleton_self newRead)
        obtain ⟨next, hone, hl, hx, hk2⟩ := holdsOrHasWritten_addReadInternal added m newRead
          readWasModified canFlush htotal hmax hparts.1 hnew hk
        refine ⟨next, ?_, hl, hx, hk2⟩
        simp only [runCalls, addRead, hone]
      | addReads newReads modifiedReads =>
        obtain ⟨next, hone, hl, hx, hk2⟩ := holdsOrHasWritten_addReads modifiedReads
          newReads added m htotal hmax (List.nodup_append.mp hnodup2).1 hk
        refine ⟨next, ?_, hl, hx, hk2⟩
        simp only [runCalls, hone]
    obtain ⟨next, hrun, hl, hx, hk2⟩ := hstep
    obtain ⟨result, hrest, hk3⟩ := ih (added ++ call.pointers) next (hl ▸ htotal) (hx ▸ hmax)
      hnodup2 hk2
    exact ⟨result, hrun.trans hrest, by simpa [List.flatMap_cons] using hk3⟩

/-- The comparator `sampleLess` orders any two distinct records. -/
theorem sampleLess_comparesDistinctRecords : comparesDistinctRecords sampleLess := by
  intro a b readA readB hne
  unfold sampleLess
  simp only []
  by_cases h1 : readA.RefID = readB.RefID
  · by_cases h2 : readA.Position = readB.Position
    · simp only [h1, h2, ne_eq, not_true_eq_false, if_false, decide_eq_true_eq]
      omega
    · have h3 : ¬readB.Position = readA.Position := fun h => h2 h.symm
      simp only [h1, h2, h3, ne_eq, not_true_eq_false, not_false_eq_true, if_false, if_true,
        decide_eq_true_eq]
      omega
  · have h3 : ¬readB.RefID = readA.RefID := fun h => h1 h.symm
    simp only [h1, h3, ne_eq, not_false_eq_true, if_true, decide_eq_true_eq]
    omega

/-- When `MAX_RECORDS_IN_MEMORY` is at least 1, the comparator of `waitingReads` orders any
two distinct records, the manager is fresh and no read is added twice, every sequence of
`addRead` and `addReads` calls returns, and after `close()` every added read has been
written exactly once (the pointers written are a permutation of the pointers added, none of
which occurs twice) and `waitingReads` is empty. -/
theorem every_added_read_written_once (m : ConstrainedMateFixingManager)
    (calls : List ManagerCall) (htotal : comparesDistinctRecords m.less)
    (hmax : 1 ≤ m.MAX_RECORDS_IN_MEMORY) (hwaiting : m.waitingReads = [])
    (hwritten : m.written = []) (hnodup : (calls.flatMap ManagerCall.pointers).Nodup) :
    ∃ result, m.runCalls calls = some result ∧
      (result.close.written.map Prod.fst).Perm (calls.flatMap ManagerCall.pointers) ∧
      result.close.waitingReads = [] := by
  have hk : holdsOrHasWritten [] m := by
    unfold holdsOrHasWritten
    rw [hwritten, hwaiting]
    exact List.Perm.refl _
  obtain ⟨result, hrun, hk2⟩ := holdsOrHasWritten_runCalls calls [] m htotal hmax
    (by simpa using hnodup) hk
  refine ⟨result, hrun, ?_, ?_⟩
  · unfold holdsOrHasWritten at hk2
    unfold close
    rw [writeAll_eq result.waitingReads result rfl]
    simpa [List.map_append, Function.comp_def] using hk2
  · unfold close
    rw [writeAll_eq result.waitingReads result rfl]

/-- A manager with `MAX_RECORDS_IN_MEMORY = 1`, `EMIT_FREQUENCY = 1` and the comparator
`sampleLess` writes each of three reads once. -/
theorem every_added_read_written_once_sample :
    ∃ result,
      (sampleManager 1 1 [pairFirst, pairSecond, singleOnNextContig]).runCalls
        [ManagerCall.addRead 0 true true, ManagerCall.addReads [1, 2] [1]] = some result ∧
      (result.close.written.map Prod.fst).Perm [0, 1, 2] ∧
      result.close.waitingReads = [] :=
  every_added_read_written_once
    (sampleManager 1 1 [pairFirst, pairSecond, singleOnNextContig])
    [ManagerCall.addRead 0 true true, ManagerCall.addReads [1, 2] [1]]
    sampleLess_comparesDistinctRecords (by decide) rfl rfl (by decide)

/-- C11 fails on the code: on a manager built with `maxRecordsInMemory = 0`, the first call
`addRead(read, false, true)` finds `waitingReads.size() >= MAX_RECORDS_IN_MEMORY` on the
empty set, enters the flush and calls `remove` on the empty set, which dereferences
`begin()` and fails its assertion: the call does not return, and the read is never written.
No comparison of records is made on the way. -/
theorem C11_flush_of_empty_set :
    (sampleManager 0 100 [pairFirst]).flushCondition 0 true = true ∧
    (sampleManager 0 100 [pairFirst]).waitingReads = [] ∧
    (sampleManager 0 100 [pairFirst]).flushQueue.isNone = true ∧
    ((sampleManager 0 100 [pairFirst]).runCalls
      [ManagerCall.addRead 0 false true]).isNone = true := by
  decide

/-- The general fact behind it: with `MAX_RECORDS_IN_MEMORY = 0`, the first call of
`addReadInternal` with `canFlush = true` on a manager whose set is empty fails the
assertion of `remove`, whatever the comparator and the read. -/
theorem addReadInternal_of_no_room (m : ConstrainedMateFixingManager) (newRead : Nat)
    (readWasModified : Bool) (hmax : m.MAX_RECORDS_IN_MEMORY = 0)
    (hempty : m.waitingReads = []) :
    m.addReadInternal newRead readWasModified true = none := by
  have hcond : m.flushCondition newRead true = true :=
    (flushCondition_iff m newRead true).mpr (Or.inl ⟨rfl, by rw [hmax]; exact Nat.zero_le _⟩)
  unfold addReadInternal flushIfNeeded
  rw [if_pos hcond, flushQueue_empty m hempty]

/-- With the comparator of the specification, which takes two records of one reference,
position and strand for equivalent, `std::set::insert` does not insert the second of two
such reads: of the two reads added, one is written. -/
theorem waitingReads_drops_equal_coordinates :
    ((coordinateManager 100 100 [singleOnNextContig, singleOnNextContig]).runCalls
      [ManagerCall.addRead 0 false true, ManagerCall.addRead 1 false true]).map
      (fun m => (m.waitingReads, m.close.written.map Prod.fst)) = some ([0], [0]) := by
  decide

/-- C12 (as amended): on a fresh manager, every read whose mapped flag is set is written
with the position it has in the heap of the client, for every sequence of `addRead` and
`addReads` calls that returns, followed by `close()`.  (A read whose unmapped flag is set
can be written at the position of its mate, however far that is.) -/
theorem C12_mapped_reads_keep_their_position (m result : ConstrainedMateFixingManager)
    (calls : List ManagerCall) (hwritten : m.written = [])
    (hrun : m.runCalls calls = some result) :
    ∀ entry ∈ result.close.written, (m.reads entry.1).mapped = true →
      entry.2.Position = (m.reads entry.1).Position := by
  have hk : positionsKept m.reads m := by
    refine ⟨fun read => ⟨rfl, fun _ => rfl⟩, ?_⟩
    rw [hwritten]
    intro entry hentry
    simp at hentry
  exact (positionsKept_close m.reads result
    (positionsKept_runCalls m.reads calls m result hk hrun)).2

/-- C12 (as amended) at the pair `pairFirst`, `pairSecond`, added in this order. -/
theorem C12_mapped_reads_keep_their_position_witness :
    ∃ result,
      (sampleManager 100 100 [pairFirst, pairSecond]).runCalls
        [ManagerCall.addRead 0 false true, ManagerCall.addRead 1 false true] = some result ∧
      ∀ entry ∈ result.close.written,
        ((sampleManager 100 100 [pairFirst, pairSecond]).reads entry.1).mapped = true →
        entry.2.Position
          = ((sampleManager 100 100 [pairFirst, pairSecond]).reads entry.1).Position := by
  obtain ⟨result, hrun⟩ := Option.isSome_iff_exists.mp
    (by decide : ((sampleManager 100 100 [pairFirst, pairSecond]).runCalls
      [ManagerCall.addRead 0 false true, ManagerCall.addRead 1 false true]).isSome = true)
  exact ⟨result, hrun, C12_mapped_reads_keep_their_position
    (sampleManager 100 100 [pairFirst, pairSecond]) result _ rfl hrun⟩

/-- C12 as stated fails: with `MAX_POS_MOVE_ALLOWED = 200`, the read `pairSecond` is added
at position 50000 with its unmapped flag set, after its mapped mate `pairFirst`, which
waits at position 1000; `setMateInfo` gives it the position of the mate, and it is written
at position 1000, 49000 away from where it was. -/
theorem C12_counterexample_unmapped_read_moved :
    (sampleManager 100 100 [pairFirst, pairSecond]).MAX_POS_MOVE_ALLOWED = 200 ∧
    pairSecond.Position = 50000 ∧
    ((sampleManager 100 100 [pairFirst, pairSecond]).runCalls
      [ManagerCall.addRead 0 false true, ManagerCall.addRead 1 false true]).map
        (fun m => m.close.written.map (fun entry => (entry.1, entry.2.Position)))
      = some [(0, 1000), (1, 1000)] ∧
    ¬ |(1000 : Int) - pairSecond.Position| ≤ 200 := by
  decide

/-! ## Properties of `computeInsertSize` across references -/

/-- What `computeInsertSize` returns for two mapped records whose 5' positions and their
distance, adjusted by one, are in the range of `int`: 0 when the first reference id is 0 and
the second is 1, or the first is not 0 and the second is 0; in every other case, also when
the reference ids differ, the distance of the 5' positions, adjusted by one. -/
theorem computeInsertSize_of_mapped (firstEnd secondEnd : OGERead)
    (h1 : firstEnd.mapped = true) (h2 : secondEnd.mapped = true)
    (hfits : fitsInt32 (fivePrimePosition firstEnd) ∧ fitsInt32 (fivePrimePosition secondEnd) ∧
      fitsInt32 (fivePrimePosition secondEnd - fivePrimePosition firstEnd - 1) ∧
      fitsInt32 (fivePrimePosition secondEnd - fivePrimePosition firstEnd + 1)) :
    computeInsertSize firstEnd secondEnd =
      (if (firstEnd.RefID = 0 ∧ secondEnd.RefID = 1) ∨
          (firstEnd.RefID ≠ 0 ∧ secondEnd.RefID = 0) then 0
      else if fivePrimePosition secondEnd ≥ fivePrimePosition firstEnd then
        fivePrimePosition secondEnd - fivePrimePosition firstEnd + 1
      else fivePrimePosition secondEnd - fivePrimePosition firstEnd - 1) := by
  by_cases hfire : logicalNot firstEnd.RefID = secondEnd.RefID
  · have hzero : computeInsertSize firstEnd secondEnd = 0 := by
      unfold computeInsertSize
      simp [h1, h2, hfire]
    rw [hzero, if_pos]
    unfold logicalNot at hfire
    split_ifs at hfire with h0
    · exact Or.inl ⟨h0, hfire.symm⟩
    · exact Or.inr ⟨h0, hfire.symm⟩
  · have hnone : ¬ ((firstEnd.RefID = 0 ∧ secondEnd.RefID = 1) ∨
        (firstEnd.RefID ≠ 0 ∧ secondEnd.RefID = 0)) := by
      unfold logicalNot at hfire
      intro hcases
      rcases hcases with ⟨h0, hs⟩ | ⟨h0, hs⟩
      · rw [if_pos h0] at hfire
        exact hfire hs.symm
      · rw [if_neg h0] at hfire
        exact hfire hs.symm
    rw [computeInsertSize_in_range firstEnd secondEnd h1 h2 hfire hfits, if_neg hnone]

/-- C27 fails on the code: for the mapped records `acrossFirst`, at position 100 of
reference 1, and `acrossSecond`, at position 500 of reference 2, `computeInsertSize` returns
401 and not 0 (and −401 with the arguments exchanged): the test
`!firstEnd.getRefID() == secondEnd.getRefID()` compares `!1`, which is 0, with 2. -/
theorem C27_insert_size_across_references :
    acrossFirst.IsMapped = true ∧ acrossSecond.IsMapped = true ∧
    acrossFirst.getRefID = 1 ∧ acrossSecond.getRefID = 2 ∧
    logicalNot acrossFirst.getRefID = 0 ∧
    computeInsertSize acrossFirst acrossSecond = 401 ∧
    computeInsertSize acrossSecond acrossFirst = -401 ∧
    (setMateInfo acrossFirst acrossSecond).1.InsertSize = 400 := by
  decide

/-! ## The sections of the threaded `SortBuffer` -/

/-- The sort job with counter `ctr` sorts the section with index `ctr`. -/
theorem SortJob_runJob_section {α : Type} (comp : α → α → Bool) (availableCores : Int)
    (buffer : List α) (ctr : Nat) (range : Nat × Nat)
    (h : (sortSections buffer.length availableCores)[ctr]? = some range) :
    SortJob_runJob comp (sortDivisions buffer.length availableCores)
        (buffer.length / sortDivisions buffer.length availableCores) buffer ctr =
      stable_sort_range comp buffer range.1 range.2 := by
  unfold sortSections at h
  simp only [List.getElem?_map, Option.map_eq_some'] at h
  obtain ⟨k, hk, rfl⟩ := h
  have hlt := (List.getElem?_eq_some_iff.mp hk).1
  have hkc : k = ctr := by
    have := (List.getElem?_eq_some_iff.mp hk).2
    simp [List.getElem_range'] at this
    omega
  subst hkc
  rfl

/-- The number of sections in terms of the size and the number of cores. -/
theorem sortDivisions_eq (size : Nat) (availableCores : Int) :
    (sortDivisions size availableCores : Int) =
      max 1 (min ((size / 30000 : Nat) : Int) availableCores) := by
  unfold sortDivisions MERGESORT_MIN_SORT_SIZE
  simp only
  split_ifs <;> omega

/-- C23 (as amended): for every buffer of size `s` and every number `c` of available cores,
the threaded `SortBuffer` creates its sort jobs for exactly `max(1, min(⌊s / 30000⌋, c))`
sections. -/
theorem C23_number_of_sections (size : Nat) (availableCores : Int) :
    ((sortSections size availableCores).length : Int) =
      max 1 (min ((size / 30000 : Nat) : Int) availableCores) := by
  rw [← sortDivisions_eq]
  simp [sortSections]

/-- C23 as stated fails: a buffer of 5 alignments is sorted on 4 cores as one section, the
whole buffer, and `min(⌊5 / 30000⌋, 4)` is 0; so is an empty buffer. -/
theorem C23_counterexample_small_buffer :
    sortSections 5 4 = [(0, 5)] ∧ min (5 / 30000) 4 = 0 ∧
    sortSections 0 4 = [(0, 0)] ∧
    SortBuffer_threaded ByPosition 4 sampleReads = stable_sort ByPosition sampleReads := by
  decide

/-- The section with index `ctr`. -/
theorem sortSections_getElem (size : Nat) (availableCores : Int) (ctr : Nat)
    (hctr : ctr < sortDivisions size availableCores) :
    (sortSections size availableCores)[ctr]? =
      some (ctr * (size / sortDivisions size availableCores),
        if ctr = sortDivisions size availableCores - 1 then size
        else (ctr + 1) * (size / sortDivisions size availableCores)) := by
  unfold sortSections sectionEnd
  simp only [List.getElem?_map]
  rw [List.getElem?_eq_getElem (by simpa using hctr)]
  simp [List.getElem_range', Nat.add_comm]

/-- With more than one section, a section is at least `MERGESORT_MIN_SORT_SIZE` long. -/
theorem section_length_ge (size : Nat) (availableCores : Int)
    (h : 1 < sortDivisions size availableCores) :
    30000 ≤ size / sortDivisions size availableCores := by
  have heq := sortDivisions_eq size availableCores
  have hle : sortDivisions size availableCores ≤ size / 30000 := by omega
  have hpos : 0 < sortDivisions size availableCores := by omega
  rw [Nat.le_div_iff_mul_le hpos]
  calc 30000 * sortDivisions size availableCores
      ≤ 30000 * (size / 30000) := Nat.mul_le_mul_left _ hle
    _ ≤ size := Nat.mul_div_le size 30000

/-- The sections `k, …, d - 1` of a buffer, one after the other, are the buffer from the
begin of section `k` on. -/
theorem sections_flatten {α : Type} (buffer : List α) (d L : Nat)
    (hd : d * L ≤ buffer.length) :
    ∀ (m k : Nat), k + (m + 1) = d →
      ((List.range' k (m + 1)).map (fun ctr =>
        (buffer.take (sectionEnd buffer.length d L ctr)).drop (ctr * L))).flatten =
        buffer.drop (k * L) := by
  intro m
  induction m with
  | zero =>
    intro k hk
    have hkd : k = d - 1 := by omega
    rw [List.range'_succ, List.range'_zero]
    simp only [List.map_cons, List.map_nil, List.flatten_cons, List.flatten_nil,
      List.append_nil]
    rw [hkd, sectionEnd_last, List.take_length]
  | succ m ih =>
    intro k hk
    obtain ⟨hb, he⟩ := sectionEnd_bounds buffer.length d L k (by omega) hd
    rw [List.range'_succ, List.map_cons, List.flatten_cons, ih (k + 1) (by omega),
      drop_eq_slice_append buffer (k * L) (sectionEnd buffer.length d L k) hb he,
      sectionEnd_of_ne buffer.length d L k (by omega)]

/-- The sections are those of `sectionEnd`. -/
theorem mem_sortSections (size : Nat) (availableCores : Int) (range : Nat × Nat)
    (h : range ∈ sortSections size availableCores) :
    ∃ ctr, ctr < sortDivisions size availableCores ∧
      range = (ctr * (size / sortDivisions size availableCores),
        sectionEnd size (sortDivisions size availableCores)
          (size / sortDivisions size availableCores) ctr) := by
  unfold sortSections at h
  simp only [List.mem_map, List.mem_range'_1] at h
  obtain ⟨ctr, ⟨_, hlt⟩, rfl⟩ := h
  exact ⟨ctr, by omega, rfl⟩

/-- C24: for every buffer size and every number of cores, the sections that the threaded
`SortBuffer` hands to its sort jobs are contiguous and cover the buffer: the first begins at
0, each ends where the next begins, none ends before it begins, and the last one ends at the
end of the buffer (it absorbs the remainder); so the sections, taken out of a buffer of that
size one after the other, give the buffer.  Whenever there is more than one section, every
section holds at least 30000 alignments. -/
theorem C24_sections_partition_the_buffer (size : Nat) (availableCores : Int) :
    (∃ stop, (sortSections size availableCores)[0]? = some (0, stop)) ∧
    (∀ ctr first second, (sortSections size availableCores)[ctr]? = some first →
      (sortSections size availableCores)[ctr + 1]? = some second → first.2 = second.1) ∧
    (∀ range ∈ sortSections size availableCores, range.1 ≤ range.2 ∧ range.2 ≤ size) ∧
    (∃ start, (sortSections size availableCores).getLast? = some (start, size)) ∧
    (∀ {α : Type} (buffer : List α), buffer.length = size →
      ((sortSections size availableCores).map
        (fun range => (buffer.take range.2).drop range.1)).flatten = buffer) ∧
    (1 < (sortSections size availableCores).length →
      ∀ range ∈ sortSections size availableCores, 30000 ≤ range.2 - range.1) := by
  have hpos := sortDivisions_pos size availableCores
  have hd : sortDivisions size availableCores * (size / sortDivisions size availableCores)
      ≤ size := Nat.mul_div_le _ _
  have hlen : (sortSections size availableCores).length = sortDivisions size availableCores := by
    simp [sortSections]
  refine ⟨?_, ?_, ?_, ?_, ?_, ?_⟩
  · rw [sortSections_getElem size availableCores 0 (by omega)]
    exact ⟨_, by rw [Nat.zero_mul]⟩
  · intro ctr first second h1 h2
    have hlt : ctr + 1 < sortDivisions size availableCores := by
      rw [← hlen]
      exact (List.getElem?_eq_some_iff.mp h2).1
    rw [sortSections_getElem size availableCores ctr (by omega)] at h1
    rw [sortSections_getElem size availableCores (ctr + 1) hlt] at h2
    cases h1
    cases h2
    simp only
    rw [if_neg (by omega)]
  · intro range hrange
    obtain ⟨ctr, hctr, rfl⟩ := mem_sortSections size availableCores range hrange
    exact sectionEnd_bounds size _ _ ctr hctr hd
  · refine ⟨(sortDivisions size availableCores - 1)
      * (size / sortDivisions size availableCores), ?_⟩
    rw [List.getLast?_eq_getElem?, hlen,
      sortSections_getElem size availableCores _ (by omega)]
    simp
  · intro α buffer hbuf
    subst hbuf
    have h := sections_flatten buffer (sortDivisions buffer.length availableCores)
      (buffer.length / sortDivisions buffer.length availableCores) hd
      (sortDivisions buffer.length availableCores - 1) 0 (by omega)
    rw [Nat.zero_mul, List.drop_zero, show sortDivisions buffer.length availableCores - 1 + 1
      = sortDivisions buffer.length availableCores by omega] at h
    refine Eq.trans ?_ h
    unfold sortSections
    simp only [List.map_map]
    rfl
  · intro hmany range hrange
    rw [hlen] at hmany
    have hL := section_length_ge size availableCores hmany
    obtain ⟨ctr, hctr, rfl⟩ := mem_sortSections size availableCores range hrange
    simp only
    unfold sectionEnd
    split_ifs with hlast
    · have h1 : (ctr + 1) * (size / sortDivisions size availableCores) ≤ size := by
        refine le_trans (Nat.mul_le_mul_right _ ?_) hd
        omega
      rw [Nat.add_mul, Nat.one_mul] at h1
      omega
    · rw [Nat.add_mul, Nat.one_mul]
      omega

/-- The sections of a buffer of 100000 alignments on 4 cores and on 2 cores. -/
theorem sortSections_sample :
    sortSections 100000 4 = [(0, 33333), (33333, 66666), (66666, 100000)] ∧
    sortSections 100000 2 = [(0, 50000), (50000, 100000)] := by
  decide

/-- C24 at a buffer of 100000 alignments on 4 cores: three sections, each of them at least
30000 long. -/
theorem C24_sections_partition_the_buffer_witness :
    1 < (sortSections 100000 4).length ∧
    ∀ range ∈ sortSections 100000 4, 30000 ≤ range.2 - range.1 :=
  ⟨by decide, (C24_sections_partition_the_buffer 100000 4).2.2.2.2.2 (by decide)⟩

/-! ## Properties of the emit queue -/

/-- The loop of `flushEmitQueue` emits the entries at the front that can be emitted, up to
the first one that cannot. -/
theorem flushEmitQueue_loop_eq (canEmit : Nat → Bool) :
    ∀ (queue : List Nat) (s : EmitState), s.emit_queue = queue →
      flushEmitQueue_loop canEmit s queue =
        { s with emit_queue := queue.dropWhile canEmit,
                 emitted := s.emitted ++ queue.takeWhile canEmit } := by
  intro queue
  induction queue with
  | nil =>
    intro s hs
    cases s
    simp only at hs
    subst hs
    simp [flushEmitQueue_loop]
  | cons front rest ih =>
    intro s hs
    unfold flushEmitQueue_loop
    by_cases hfront : canEmit front = true
    · rw [if_pos hfront, ih _ rfl]
      simp [List.takeWhile_cons, List.dropWhile_cons, hfront]
    · rw [if_neg hfront]
      cases s
      simp only at hs
      subst hs
      simp [List.takeWhile_cons, List.dropWhile_cons, hfront]

/-- A step on the emit queue keeps the order: the entries emitted followed by the entries
in the queue are the entries pushed. -/
theorem EmitState.step_order (s : EmitState) (step : EmitStep)
    (h : s.emitted ++ s.emit_queue = s.pushed) :
    (s.step step).emitted ++ (s.step step).emit_queue = (s.step step).pushed := by
  cases step with
  | push e =>
    simp only [EmitState.step, pushToEmitQueue_locked]
    split_ifs
    · simp [← h]
    · exact h
  | flush try_lock canEmit =>
    simp only [EmitState.step, flushEmitQueue]
    split_ifs
    · exact h
    · rw [flushEmitQueue_loop_eq canEmit s.emit_queue s rfl]
      simp [← h]

/-- An interleaving keeps the order. -/
theorem EmitState.run_order (steps : List EmitStep) :
    ∀ s : EmitState, s.emitted ++ s.emit_queue = s.pushed →
      (s.run steps).emitted ++ (s.run steps).emit_queue = (s.run steps).pushed := by
  induction steps with
  | nil => intro s h; exact h
  | cons step rest ih =>
    intro s h
    exact ih (s.step step) (s.step_order step h)

/-- C25: a call of `flushEmitQueue` that acquires the mutex emits exactly the longest
prefix of `emit_queue` whose entries all answer `canEmit()` with yes, in the order of the
queue, and leaves the rest of the queue as it is, also the entries behind the first entry
that cannot be emitted that could be emitted themselves; a call that does not acquire the
mutex changes nothing.  Hence, after any interleaving of pushes and flushes that starts
with the empty queue, the entries emitted are, in the order of their emission, the first
of the entries pushed, in the order in which they were pushed, and the queue holds the
others. -/
theorem C25_flushEmitQueue_emits_ready_prefix (canEmit : Nat → Bool) (s : EmitState)
    (steps : List EmitStep) :
    (flushEmitQueue true canEmit s).emitted = s.emitted ++ s.emit_queue.takeWhile canEmit ∧
    (flushEmitQueue true canEmit s).emit_queue = s.emit_queue.dropWhile canEmit ∧
    (flushEmitQueue true canEmit s).pushed = s.pushed ∧
    flushEmitQueue false canEmit s = s ∧
    (EmitState.start.run steps).emitted ++ (EmitState.start.run steps).emit_queue =
      (EmitState.start.run steps).pushed := by
  refine ⟨?_, ?_, ?_, rfl, EmitState.run_order steps EmitState.start rfl⟩
  all_goals
    unfold flushEmitQueue
    simp only [Bool.not_true, Bool.false_eq_true, if_false]
    rw [flushEmitQueue_loop_eq canEmit s.emit_queue s rfl]

/-- The emit queue with the entries 1, 2 and 3, of which 2 is not ready: a flush emits 1
and leaves 2 and 3; when 2 is ready, the next flush emits 2 and 3. -/
theorem flushEmitQueue_sample :
    (EmitState.start.run [EmitStep.push 1, EmitStep.push 2, EmitStep.push 3,
      EmitStep.flush true (fun e => decide (e ≠ 2))]) =
      { emit_queue := [2, 3], pushed := [1, 2, 3], emitted := [1] } ∧
    (EmitState.start.run [EmitStep.push 1, EmitStep.push 2, EmitStep.push 3,
      EmitStep.flush true (fun e => decide (e ≠ 2)), EmitStep.flush true (fun _ => true)]) =
      { emit_queue := [], pushed := [1, 2, 3], emitted := [1, 2, 3] } := by
  decide

/-- The locked part of `pushToEmitQueue` leaves at most 1001 entries in a queue that held
at most 1001. -/
theorem EmitState.step_bound (s : EmitState) (step : EmitStep)
    (h : s.emit_queue.length ≤ 1001) : (s.step step).emit_queue.length ≤ 1001 := by
  cases step with
  | push e =>
    simp only [EmitState.step, pushToEmitQueue_locked]
    split_ifs with hfull
    · simp only [List.length_append, List.length_singleton]
      simp only [gt_iff_lt, decide_eq_true_eq, Bool.not_eq_true', decide_eq_false_iff_not,
        not_lt] at hfull
      omega
    · exact h
  | flush try_lock canEmit =>
    simp only [EmitState.step, flushEmitQueue]
    split_ifs
    · exact h
    · rw [flushEmitQueue_loop_eq canEmit s.emit_queue s rfl]
      exact (List.dropWhile_sublist _).length_le.trans h

/-- An interleaving leaves at most 1001 entries in a queue that held at most 1001. -/
theorem EmitState.run_bound (steps : List EmitStep) :
    ∀ s : EmitState, s.emit_queue.length ≤ 1001 → (s.run steps).emit_queue.length ≤ 1001 := by
  induction steps with
  | nil => intro s h; exact h
  | cons step rest ih =>
    intro s h
    exact ih (s.step step) (s.step_bound step h)

/-- Pushes into a queue that is not flushed: the first 1001 entries are taken. -/
theorem EmitState.run_pushes (n : Nat) (hn : n ≤ 1001) :
    (EmitState.start.run ((List.range n).map EmitStep.push)).emit_queue = List.range n := by
  induction n with
  | zero => rfl
  | succ n ih =>
    rw [List.range_succ, List.map_append, EmitState.run, List.foldl_append]
    have hprev := ih (by omega)
    unfold EmitState.run at hprev
    generalize List.foldl EmitState.step EmitState.start
      ((List.range n).map EmitStep.push) = s at hprev
    simp only [List.map_cons, List.map_nil, List.foldl_cons, List.foldl_nil,
      EmitState.step, pushToEmitQueue_locked, hprev, List.length_range]
    rw [if_pos (by simp; omega)]

/-- C26 (as amended): the emit queue is bounded by 1001: starting with the empty queue,
after every step of every interleaving of pushes and flushes, so after every
`pushToEmitQueue`, `emit_queue` holds at most 1001 entries. -/
theorem C26_emit_queue_bound (steps : List EmitStep) :
    (EmitState.start.run steps).emit_queue.length ≤ 1001 :=
  EmitState.run_bound steps EmitState.start (by decide)

/-- C26 as stated fails: `pushToEmitQueue` takes the queue for full when it holds more than
1000 entries, so it pushes into a queue of 1000 entries.  After 1001 pushes into the empty
queue, with no flush, the queue holds 1001 entries; the call that pushes the last of them
returns at once. -/
theorem C26_counterexample_one_more_entry :
    (EmitState.start.run ((List.range 1001).map EmitStep.push)).emit_queue.length = 1001 ∧
    (pushToEmitQueue 1000 (EmitState.start.run ((List.range 1000).map EmitStep.push))
      []).map (fun s => s.emit_queue.length) = some 1001 := by
  have h1000 := EmitState.run_pushes 1000 (by decide)
  have h1001 := EmitState.run_pushes 1001 (by decide)
  refine ⟨by rw [h1001, List.length_range], ?_⟩
  generalize EmitState.start.run ((List.range 1000).map EmitStep.push) = s at h1000
  simp [pushToEmitQueue, pushToEmitQueue_locked, h1000]

/-- A call of `pushToEmitQueue` that returns is an interleaving of steps: passages of its
loop that find the queue full, each followed by a flush, and the passage that pushes. -/
theorem pushToEmitQueue_run (e : Nat) :
    ∀ (answers : List (Nat → Bool)) (s result : EmitState),
      pushToEmitQueue e s answers = some result →
      ∃ steps, s.run steps = result ∧ result.pushed = s.pushed ++ [e] := by
  have hlocked : ∀ s : EmitState, (pushToEmitQueue_locked s e).1 = true →
      (pushToEmitQueue_locked s e).2 = s := by
    intro s h
    unfold pushToEmitQueue_locked at h ⊢
    simp only at h ⊢
    split_ifs at h ⊢ with hfull
    · simp only [Bool.not_eq_true'] at hfull
      rw [hfull] at h
      exact absurd h (by simp)
    · rfl
  have hpush : ∀ s : EmitState, ¬ (pushToEmitQueue_locked s e).1 = true →
      (pushToEmitQueue_locked s e).2.pushed = s.pushed ++ [e] := by
    intro s h
    unfold pushToEmitQueue_locked at h ⊢
    simp only at h ⊢
    split_ifs at h ⊢ with hfull
    · rfl
    · simp only [Bool.not_eq_true', Bool.not_eq_false] at hfull
      exact absurd hfull h
  intro answers
  induction answers with
  | nil =>
    intro s result h
    unfold pushToEmitQueue at h
    split_ifs at h with hfull
    cases h
    exact ⟨[EmitStep.push e], rfl, hpush s hfull⟩
  | cons canEmit rest ih =>
    intro s result h
    unfold pushToEmitQueue at h
    split_ifs at h with hfull
    · rw [hlocked s hfull] at h
      obtain ⟨steps, hsteps, hpushed⟩ := ih _ result h
      refine ⟨EmitStep.push e :: EmitStep.flush true canEmit :: steps, ?_, ?_⟩
      · rw [← hsteps]
        simp only [EmitState.run, List.foldl_cons, EmitState.step]
        rw [hlocked s hfull]
      · rw [hpushed]
        simp only [flushEmitQueue, Bool.not_true, Bool.false_eq_true, if_false]
        rw [flushEmitQueue_loop_eq canEmit s.emit_queue s rfl]
    · cases h
      exact ⟨[EmitStep.push e], rfl, hpush s hfull⟩

/-! ## Properties of the mate-fixing manager: the emission sweep -/

/-- The emission sweep on a manager whose set holds `waiting`. -/
theorem emitLoop_eq (newRead : Nat) :
    ∀ (waiting : List Nat) (m : ConstrainedMateFixingManager), m.waitingReads = waiting →
      (m.emitLoop newRead waiting).reads = m.reads ∧
      (m.emitLoop newRead waiting).written = m.written ++
        (waiting.takeWhile (canBeEmitted m newRead)).map (fun read => (read, m.reads read)) ∧
      (m.emitLoop newRead waiting).waitingReads = waiting.dropWhile (canBeEmitted m newRead) ∧
      (m.emitLoop newRead waiting).forMateMatching = m.forMateMatching.filter (fun entry =>
        (waiting.takeWhile (canBeEmitted m newRead)).all
          (fun read => decide (entry.1 ≠ (m.reads read).Name))) := by
  intro waiting
  induction waiting with
  | nil =>
    intro m hm
    simp [emitLoop, hm]
  | cons first rest ih =>
    intro m hm
    unfold emitLoop
    have hcond : (m.noReadCanMoveBefore (m.reads first).getPosition (m.reads newRead)
        && (!pairedReadIsMovable m.maxInsertSizeForMovingReadPairs (m.reads first)
            || m.noReadCanMoveBefore (m.reads first).getMatePosition (m.reads newRead)))
        = canBeEmitted m newRead first := rfl
    rw [hcond]
    by_cases hfirst : canBeEmitted m newRead first = true
    · rw [if_pos hfirst]
      obtain ⟨h1, h2, h3, h4⟩ := ih
        ({ ({ m with forMateMatching :=
              m.forMateMatching.filter (fun entry => entry.1 ≠ (m.reads first).getName) })
            with waitingReads := rest }.writeRead first) rfl
      have hsame : canBeEmitted
          ({ ({ m with forMateMatching :=
              m.forMateMatching.filter (fun entry => entry.1 ≠ (m.reads first).getName) })
            with waitingReads := rest }.writeRead first) newRead = canBeEmitted m newRead := rfl
      rw [hsame] at h2 h3 h4
      refine ⟨h1, ?_, ?_, ?_⟩
      · rw [h2]
        simp [writeRead, List.takeWhile_cons, hfirst]
      · rw [h3]
        simp [List.dropWhile_cons, hfirst]
      · rw [h4]
        simp only [writeRead, List.takeWhile_cons, hfirst, if_true, List.all_cons,
          List.filter_filter, OGERead.getName]
        apply List.filter_congr
        intro entry _
        rw [Bool.and_comm]
    · rw [if_neg hfirst]
      simp [List.takeWhile_cons, List.dropWhile_cons, hfirst, hm]

/-- What the emission sweep of `addReadInternal` does for the new read `R`: it writes
exactly the longest prefix of `waitingReads`, in the order of the set, in which every read
`H` satisfies `H.pos + 2Y < R.pos` and (`pairedReadIsMovable(H)` does not hold or
`H.mate_pos + 2Y < R.pos`); the reads are written in that order, each as it is; the mate map
loses the entries under the names of these reads and no other entry; and every read that
does not belong to the prefix stays in `waitingReads`. -/
theorem emission_sweep_eq (m : ConstrainedMateFixingManager) (newRead : Nat) :
    (m.emitLoop newRead m.waitingReads).written = m.written ++
      (m.waitingReads.takeWhile (canBeEmitted m newRead)).map
        (fun read => (read, m.reads read)) ∧
    (m.emitLoop newRead m.waitingReads).waitingReads =
      m.waitingReads.dropWhile (canBeEmitted m newRead) ∧
    (m.emitLoop newRead m.waitingReads).forMateMatching = m.forMateMatching.filter
      (fun entry => (m.waitingReads.takeWhile (canBeEmitted m newRead)).all
        (fun read => decide (entry.1 ≠ (m.reads read).Name))) ∧
    (m.emitLoop newRead m.waitingReads).reads = m.reads :=
  ⟨(emitLoop_eq newRead m.waitingReads m rfl).2.1,
    (emitLoop_eq newRead m.waitingReads m rfl).2.2.1,
    (emitLoop_eq newRead m.waitingReads m rfl).2.2.2,
    (emitLoop_eq newRead m.waitingReads m rfl).1⟩

/-- When the counter reaches a multiple of `EMIT_FREQUENCY`, `addReadInternal` ends with
the emission sweep, on the manager in which the mates are fixed and the new read is
inserted. -/
theorem addReadInternal_sweep (m flushed : ConstrainedMateFixingManager) (newRead : Nat)
    (readWasModified canFlush : Bool)
    (hflush : m.flushIfNeeded newRead canFlush = some flushed)
    (hcounter : ((flushed.fixMates newRead readWasModified).counter + 1)
      % (flushed.fixMates newRead readWasModified).EMIT_FREQUENCY = 0) :
    m.addReadInternal newRead readWasModified canFlush = some
      (emitLoop
        { flushed.fixMates newRead readWasModified with
          waitingReads := setInsert (flushed.fixMates newRead readWasModified).lessPtr newRead
            (flushed.fixMates newRead readWasModified).waitingReads
          counter := (flushed.fixMates newRead readWasModified).counter + 1 }
        newRead
        (setInsert (flushed.fixMates newRead readWasModified).lessPtr newRead
          (flushed.fixMates newRead readWasModified).waitingReads)) := by
  unfold addReadInternal
  rw [hflush]
  simp only []
  rw [if_pos hcounter]

/-- The emission sweep at work, with `EMIT_FREQUENCY = 3` and `MAX_POS_MOVE_ALLOWED = 200`.
Unpaired reads wait at the positions 300 and 1500 of a reference; a read at position 1800
is added: the sweep writes the first read, since 300 + 400 < 1800, and stops at the second.
When the read `pairFirst`, which is movable and has its mate at position 50000, waits in
front of the read at position 1500 and a read at position 3000 is added, the sweep writes
nothing, though 1500 + 400 < 3000. -/
theorem emitLoop_sample :
    ((sampleManager 100 3
        [{ singleOnNextContig with Position := 300 },
          { singleOnNextContig with Position := 1500 },
          { singleOnNextContig with Position := 1800 }]).runCalls
      [ManagerCall.addRead 0 false false, ManagerCall.addRead 1 false false,
        ManagerCall.addRead 2 false false]).map
      (fun m => (m.written.map Prod.fst, m.waitingReads)) = some ([0], [1, 2]) ∧
    ((sampleManager 100 3
        [pairFirst, { singleOnNextContig with RefID := 0, Position := 1500 },
          { singleOnNextContig with RefID := 0, Position := 3000 }]).runCalls
      [ManagerCall.addRead 0 false false, ManagerCall.addRead 1 false false,
        ManagerCall.addRead 2 false false]).map
      (fun m => (m.written.map Prod.fst, m.waitingReads)) = some ([], [0, 1, 2]) := by
  decide

/-- C21 fails on the code, which takes the length of a read for its insert size when it
asks whether the read is movable.  With `X = 3000`, `Y = 200` and a sweep at every second
call: the read `longInsert` (position 1000, mate position 5900, insert size 5000, 100 bases)
waits, and a read at position 3000 is added.  `longInsert` is not movable, its insert size
being above `X`, and 1000 + 400 < 3000: it belongs to the prefix of the claim; the sweep
writes nothing.  The read `longRead` (position 1000, mate position 1100, insert size 200,
4000 bases) waits, and a read at position 1450 is added.  `longRead` is movable and
1100 + 400 < 1450 does not hold: the prefix of the claim is empty; the sweep writes
`longRead`. -/
theorem C21_sweep_with_read_length :
    canBeEmittedBySpec
      (sampleManager 100 2 [longInsert, { singleOnNextContig with RefID := 0, Position := 3000 }])
      1 0 = true ∧
    ((sampleManager 100 2
        [longInsert, { singleOnNextContig with RefID := 0, Position := 3000 }]).runCalls
      [ManagerCall.addRead 0 false false, ManagerCall.addRead 1 false false]).map
      (fun m => (m.written.map Prod.fst, m.waitingReads, m.counter)) = some ([], [0, 1], 2) ∧
    canBeEmittedBySpec
      (sampleManager 100 2 [longRead, { singleOnNextContig with RefID := 0, Position := 1450 }])
      1 0 = false ∧
    ((sampleManager 100 2
        [longRead, { singleOnNextContig with RefID := 0, Position := 1450 }]).runCalls
      [ManagerCall.addRead 0 false false, ManagerCall.addRead 1 false false]).map
      (fun m => (m.written.map Prod.fst, m.waitingReads, m.counter)) = some ([0], [1], 2) :=
  ⟨by decide, by decide, by decide, by decide⟩

/-- Where the mate of a waiting read lies on its reference and the length of the read and
its insert size are on the same side of `X`, the sweep of the code uses the condition of
the specification. -/
theorem canBeEmitted_eq_spec (m : ConstrainedMateFixingManager) (newRead read : Nat)
    (hsame : (m.reads read).mapped = true → (m.reads read).RefID = (m.reads read).MateRefID)
    (hlength : |(m.reads read).Length| ≤ m.maxInsertSizeForMovingReadPairs ↔
      |(m.reads read).InsertSize| ≤ m.maxInsertSizeForMovingReadPairs) :
    canBeEmitted m newRead read = canBeEmittedBySpec m newRead read := by
  have hmovable : pairedReadIsMovable m.maxInsertSizeForMovingReadPairs (m.reads read) =
      movableBySpec m.maxInsertSizeForMovingReadPairs (m.reads read) := by
    unfold pairedReadIsMovable iSizeTooBigToMove movableBySpec
    simp only [OGERead.IsPaired, OGERead.IsMapped, OGERead.IsMateMapped, OGERead.getRefID,
      OGERead.getMateRefID, OGERead.getLength]
    by_cases hl : |(m.reads read).Length| ≤ m.maxInsertSizeForMovingReadPairs
    · have hi := hlength.mp hl
      cases hm : (m.reads read).mapped
      · simp [hl, hi, not_lt.mpr hl]
      · simp [hl, hi, not_lt.mpr hl, hsame hm]
    · have hi : ¬ |(m.reads read).InsertSize| ≤ m.maxInsertSizeForMovingReadPairs :=
        fun h => hl (hlength.mpr h)
      simp [hl, hi, not_le.mp hl]
  unfold canBeEmitted canBeEmittedBySpec
  rw [hmovable]

/-! ## Properties of the mate-fixing manager: the set of waiting reads -/

/-- An insertion into the set adds at most the element. -/
theorem mem_setInsert (lt : Nat → Nat → Bool) (x y : Nat) :
    ∀ set : List Nat, y ∈ setInsert lt x set → y = x ∨ y ∈ set := by
  intro set
  induction set with
  | nil =>
    intro h
    simp only [setInsert, List.mem_singleton] at h
    exact Or.inl h
  | cons z zs ih =>
    intro h
    unfold setInsert at h
    split_ifs at h
    · rcases List.mem_cons.mp h with h | h
      · exact Or.inl h
      · exact Or.inr h
    · rcases List.mem_cons.mp h with h | h
      · exact Or.inr (h ▸ List.mem_cons_self _ _)
      · rcases ih h with h | h
        · exact Or.inl h
        · exact Or.inr (List.mem_cons_of_mem _ h)
    · exact Or.inr h

/-- An insertion into the set makes it longer by one element at most. -/
theorem length_setInsert_le (lt : Nat → Nat → Bool) (x : Nat) :
    ∀ set : List Nat, (setInsert lt x set).length ≤ set.length + 1 := by
  intro set
  induction set with
  | nil => simp [setInsert]
  | cons z zs ih =>
    unfold setInsert
    split_ifs
    · simp
    · simpa using ih
    · simp

/-- The call `erase(x)` takes as many elements out of the set as `count(x)` finds. -/
theorem length_setErase (lt : Nat → Nat → Bool) (x : Nat) (set : List Nat) :
    (setErase lt x set).length + setCount lt x set = set.length := by
  unfold setErase setCount
  induction set with
  | nil => rfl
  | cons z zs ih =>
    simp only [List.filter_cons]
    cases h1 : lt x z <;> cases h2 : lt z x <;> simp <;> omega

/-- The elements that `erase(x)` leaves are elements of the set. -/
theorem mem_setErase (lt : Nat → Nat → Bool) (x y : Nat) (set : List Nat)
    (h : y ∈ setErase lt x set) : y ∈ set ∧ (lt x y = true ∨ lt y x = true) := by
  unfold setErase at h
  simpa using List.mem_filter.mp h

/-- When `count(x)` finds an element, the set holds an element that the comparator does not
order with `x`. -/
theorem exists_of_setCount_ne_zero (lt : Nat → Nat → Bool) (x : Nat) (set : List Nat)
    (h : setCount lt x set ≠ 0) : ∃ y ∈ set, lt x y = false ∧ lt y x = false := by
  unfold setCount at h
  obtain ⟨y, hy⟩ := List.exists_mem_of_length_pos (Nat.pos_of_ne_zero h)
  have := List.mem_filter.mp hy
  exact ⟨y, this.1, by simpa using this.2⟩

/-- The mate-fixing step of `addReadInternal`, case by case: nothing is fixed; or
`setMateInfo` is applied to the mate and the new read, and the mate, which is mapped, stays
where it is; or the mate is unmapped, the new read is mapped, and `erase` finds nothing; or
it finds the mate, which is put back after the call of `setMateInfo`. -/
theorem fixMates_cases (m : ConstrainedMateFixingManager) (newRead : Nat)
    (readWasModified : Bool) :
    ∃ reads waiting mates,
      m.fixMates newRead readWasModified
        = { m with reads := reads, waitingReads := waiting, forMateMatching := mates } ∧
      (∀ entry ∈ mates, entry ∈ m.forMateMatching ∨ entry.2.record = newRead) ∧
      ((reads = m.reads ∧ waiting = m.waitingReads) ∨
        ∃ mate, mate ∈ m.forMateMatching.map (fun entry => entry.2.record) ∧
          reads = Function.update (Function.update m.reads mate
              (setMateInfo (m.reads mate) (m.reads newRead)).1) newRead
              (setMateInfo (m.reads mate) (m.reads newRead)).2 ∧
          (((m.reads mate).mapped = true ∧
              ((m.reads newRead).mapped = true ∨
                setCount m.lessPtr mate m.waitingReads ≠ 0) ∧
              waiting = m.waitingReads) ∨
            ((m.reads mate).mapped = false ∧ (m.reads newRead).mapped = true ∧
              setCount m.lessPtr mate m.waitingReads = 0 ∧
              waiting = setErase m.lessPtr mate m.waitingReads) ∨
            ((m.reads mate).mapped = false ∧ (m.reads newRead).mapped = true ∧
              setCount m.lessPtr mate m.waitingReads ≠ 0 ∧
              waiting = setInsert (fun a b => m.less (a, reads a) (b, reads b)) mate
                (setErase m.lessPtr mate m.waitingReads)))) := by
  unfold fixMates
  by_cases hp : (m.reads newRead).IsPaired = true
  · rw [if_pos hp]
    cases hlook : m.forMateMatching.lookup (m.reads newRead).getName with
    | none =>
      simp only []
      split_ifs
      · refine ⟨_, _, _, rfl, ?_, Or.inl ⟨rfl, rfl⟩⟩
        intro entry hentry
        rcases List.mem_append.mp hentry with h | h
        · exact Or.inl h
        · rw [List.mem_singleton] at h
          exact Or.inr (by rw [h])
      · exact ⟨_, _, _, rfl, fun entry hentry => Or.inl hentry, Or.inl ⟨rfl, rfl⟩⟩
    | some mate =>
      have hmem : mate.record ∈ m.forMateMatching.map (fun entry => entry.2.record) := by
        have hin : ((m.reads newRead).getName, mate) ∈ m.forMateMatching := by
          have : ∀ (entries : List (String × SAMRecordHashObject)) (name : String),
              entries.lookup name = some mate → (name, mate) ∈ entries := by
            intro entries name
            induction entries with
            | nil => intro h; simp at h
            | cons head tail ih =>
              intro h
              obtain ⟨key, value⟩ := head
              rw [List.lookup_cons] at h
              by_cases hk : (name == key) = true
              · rw [hk] at h
                simp only [Option.some.injEq] at h
                have hkey : name = key := by simpa using hk
                rw [hkey, h]
                exact List.mem_cons_self _ _
              · simp only [Bool.not_eq_true] at hk
                rw [hk] at h
                exact List.mem_cons_of_mem _ (ih h)
          exact this _ _ hlook
        exact List.mem_map.mpr ⟨_, hin, rfl⟩
      have hfilter : ∀ (keep : String × SAMRecordHashObject → Bool),
          ∀ entry ∈ m.forMateMatching.filter keep,
          entry ∈ m.forMateMatching ∨ entry.2.record = newRead :=
        fun _ entry hentry => Or.inl (List.mem_filter.mp hentry).1
      simp only []
      cases h1 : (m.reads newRead).mapped <;> cases h2 : (m.reads mate.record).mapped <;>
        by_cases h3 : setCount m.lessPtr mate.record m.waitingReads = 0 <;>
        simp only [OGERead.IsMapped, h1, h2, h3, Bool.not_true, Bool.not_false,
          Bool.false_and, Bool.true_and, Bool.and_false, Bool.and_true, Bool.or_true,
          Bool.or_false, Bool.false_or, Bool.true_or, decide_True, decide_False,
          if_true, if_false, ne_eq, not_true_eq_false, not_false_eq_true,
          Bool.false_eq_true, Bool.true_eq_false]
      all_goals first
        | exact ⟨_, _, _, rfl, hfilter _, Or.inl ⟨rfl, rfl⟩⟩
        | exact ⟨_, _, _, rfl, hfilter _, Or.inr ⟨_, hmem, rfl,
            Or.inl ⟨by simp [h2], Or.inl (by simp [h1]), rfl⟩⟩⟩
        | exact ⟨_, _, _, rfl, hfilter _, Or.inr ⟨_, hmem, rfl,
            Or.inl ⟨by simp [h2], Or.inr (by simp [h3]), rfl⟩⟩⟩
        | exact ⟨_, _, _, rfl, hfilter _, Or.inr ⟨_, hmem, rfl,
            Or.inr (Or.inl ⟨by simp [h2], by simp [h1], by simp [h3], rfl⟩)⟩⟩
        | exact ⟨_, _, _, rfl, hfilter _, Or.inr ⟨_, hmem, rfl,
            Or.inr (Or.inr ⟨by simp [h2], by simp [h1], by simp [h3], rfl⟩)⟩⟩
  · rw [if_neg hp]
    exact ⟨_, _, _, rfl, fun entry hentry => Or.inl hentry, Or.inl ⟨rfl, rfl⟩⟩

/-! ## Properties of the mate-fixing manager: the size of the set -/

/-- The mate-fixing step does not make the set longer. -/
theorem fixMates_length_le (m : ConstrainedMateFixingManager) (newRead : Nat)
    (readWasModified : Bool) :
    (m.fixMates newRead readWasModified).waitingReads.length ≤ m.waitingReads.length := by
  obtain ⟨reads, waiting, mates, heq, _, hcases⟩ := fixMates_cases m newRead readWasModified
  rw [heq]
  show waiting.length ≤ m.waitingReads.length
  have herase := fun mate => length_setErase m.lessPtr mate m.waitingReads
  rcases hcases with ⟨_, hw⟩ | ⟨mate, _, _, ⟨_, _, hw⟩ | ⟨_, _, _, hw⟩ | ⟨_, _, hcount, hw⟩⟩
  · rw [hw]
  · rw [hw]
  · rw [hw]
    have := herase mate
    omega
  · rw [hw]
    have h1 := length_setInsert_le (fun a b => m.less (a, reads a) (b, reads b)) mate
      (setErase m.lessPtr mate m.waitingReads)
    have h2 := herase mate
    omega

/-- A flush is not entered with an empty set when `MAX_RECORDS_IN_MEMORY` is not zero. -/
theorem flushCondition_nonempty (m : ConstrainedMateFixingManager) (newRead : Nat)
    (canFlush : Bool) (hmax : 1 ≤ m.MAX_RECORDS_IN_MEMORY)
    (hflush : m.flushCondition newRead canFlush = true) : m.waitingReads ≠ [] := by
  intro hnil
  rw [flushCondition_iff] at hflush
  rcases hflush with ⟨_, hlen⟩ | ⟨first, hfirst, _⟩
  · rw [hnil] at hlen
    simp at hlen
    omega
  · rw [hnil] at hfirst
    simp at hfirst

/-- A call of `addReadInternal` that may flush returns and leaves at most
`MAX_RECORDS_IN_MEMORY` reads in the set. -/
theorem addReadInternal_length_le (m : ConstrainedMateFixingManager) (newRead : Nat)
    (readWasModified : Bool) (hmax : 1 ≤ m.MAX_RECORDS_IN_MEMORY) :
    ∃ result, m.addReadInternal newRead readWasModified true = some result ∧
      result.MAX_RECORDS_IN_MEMORY = m.MAX_RECORDS_IN_MEMORY ∧
      result.waitingReads.length ≤ m.MAX_RECORDS_IN_MEMORY := by
  obtain ⟨flushed, hflush, _, _, hmaxeq, _, _, _, hcase⟩ :=
    flushIfNeeded_frame m newRead true hmax
  have hlen : flushed.waitingReads.length + 1 ≤ m.MAX_RECORDS_IN_MEMORY := by
    rcases hcase with ⟨_, hq⟩ | ⟨_, hq⟩
    · rw [hq]
      by_contra hge
      have hcond : m.flushCondition newRead true = true :=
        (flushCondition_iff m newRead true).mpr (Or.inl ⟨rfl, by omega⟩)
      have hne := flushCondition_nonempty m newRead true hmax hcond
      unfold flushIfNeeded at hflush
      rw [if_pos hcond] at hflush
      obtain ⟨last, hlast⟩ : ∃ last, m.waitingReads.getLast? = some last := by
        cases hopt : m.waitingReads.getLast? with
        | none => exact absurd (List.getLast?_eq_none_iff.mp hopt) hne
        | some last => exact ⟨last, rfl⟩
      rw [flushQueue_eq m last hlast] at hflush
      cases hflush
      exact hne hq.symm
    · rw [hq]
      simpa using hmax
  have hfix := fixMates_length_le flushed newRead readWasModified
  obtain ⟨reads, waiting, mates, heq, _⟩ := fixMates_eq flushed newRead readWasModified
  have hmaxFix : (flushed.fixMates newRead readWasModified).MAX_RECORDS_IN_MEMORY
      = flushed.MAX_RECORDS_IN_MEMORY := by
    rw [heq]
  obtain ⟨inserted, _, _, _, hx, hq, hres⟩ :=
    addReadInternal_eq m flushed newRead readWasModified true hflush
  have hins : inserted.waitingReads.length ≤ m.MAX_RECORDS_IN_MEMORY := by
    rw [hq]
    have := length_setInsert_le (flushed.fixMates newRead readWasModified).lessPtr newRead
      (flushed.fixMates newRead readWasModified).waitingReads
    omega
  rcases hres with hres | hres
  · exact ⟨inserted, hres, by rw [hx, hmaxFix, hmaxeq], hins⟩
  · obtain ⟨k, _, _, e3, _, e5⟩ := emitLoop_frame newRead inserted.waitingReads inserted rfl
    refine ⟨_, hres, by rw [e3, hx, hmaxFix, hmaxeq], ?_⟩
    rw [e5, List.length_drop]
    omega

/-- C30: with `MAX_RECORDS_IN_MEMORY` at least 1, every sequence of `addRead` calls with
`canFlush = true` on a manager whose set holds at most `MAX_RECORDS_IN_MEMORY` reads, an
empty manager for one, returns, with at most `MAX_RECORDS_IN_MEMORY` reads in
`waitingReads`; so the bound holds after every call, and no call fails the assertion of
`remove`: whenever the flush is entered, `waitingReads` is not empty. -/
theorem C30_waiting_reads_bounded (m : ConstrainedMateFixingManager)
    (newReads : List (Nat × Bool)) (hmax : 1 ≤ m.MAX_RECORDS_IN_MEMORY)
    (hstart : m.waitingReads.length ≤ m.MAX_RECORDS_IN_MEMORY) :
    (∃ result,
      m.runCalls (newReads.map (fun read => ManagerCall.addRead read.1 read.2 true))
        = some result ∧
      result.waitingReads.length ≤ m.MAX_RECORDS_IN_MEMORY) ∧
    (∀ newRead canFlush, m.flushCondition newRead canFlush = true → m.waitingReads ≠ []) := by
  refine ⟨?_, fun newRead canFlush => flushCondition_nonempty m newRead canFlush hmax⟩
  induction newReads generalizing m with
  | nil => exact ⟨m, rfl, hstart⟩
  | cons read rest ih =>
    obtain ⟨next, hone, hx, hlen⟩ := addReadInternal_length_le m read.1 read.2 hmax
    obtain ⟨result, hrun, hres⟩ := ih next (hx ▸ hmax) (hx ▸ hlen)
    refine ⟨result, ?_, hx ▸ hres⟩
    simp only [List.map_cons, runCalls, addRead, hone]
    exact hrun

/-- C30 at a manager with room for two reads, and three reads of one reference. -/
theorem C30_waiting_reads_bounded_witness :
    ∃ result,
      (sampleManager 2 100 [pairFirst, pairMapped, pairSecond]).runCalls
        [ManagerCall.addRead 0 true true, ManagerCall.addRead 1 false true,
          ManagerCall.addRead 2 false true] = some result ∧
      result.waitingReads.length ≤ 2 :=
  (C30_waiting_reads_bounded (sampleManager 2 100 [pairFirst, pairMapped, pairSecond])
    [(0, true), (1, false), (2, false)] (by decide) (by decide)).1

/-! ## Properties of the mate-fixing manager: records that were written -/

/-- C28 fails on the code: with `MAX_RECORDS_IN_MEMORY = 1`, the read `pairFirst` is added
as a modified read, and then its mapped mate `pairMapped`, with `canFlush = true`.  The
second call finds too many reads and flushes: `pairFirst` is written, and its entry stays
in the mate map, since its `wasModified` flag is set.  Then the call finds the entry and
applies `setMateInfo` to the record that was written: the record at address 0 is not what
was written any more. -/
theorem C28_written_record_modified :
    ((sampleManager 1 100 [pairFirst, pairMapped]).runCalls
      [ManagerCall.addRead 0 true true]).map
      (fun m => (m.written, m.waitingReads, m.forMateMatching))
      = some ([], [0], [("pair", ⟨0, true⟩)]) ∧
    (((sampleManager 1 100 [pairFirst, pairMapped]).runCalls
      [ManagerCall.addRead 0 true true]).bind (fun m => m.flushIfNeeded 1 true)).map
      (fun m => (m.written, m.forMateMatching))
      = some ([(0, pairFirst)], [("pair", ⟨0, true⟩)]) ∧
    ((sampleManager 1 100 [pairFirst, pairMapped]).runCalls
      [ManagerCall.addRead 0 true true, ManagerCall.addRead 1 false true]).map
      (fun m => (m.written, m.waitingReads, m.reads 0))
      = some ([(0, pairFirst)], [1], (setMateInfo pairFirst pairMapped).1) ∧
    (setMateInfo pairFirst pairMapped).1 ≠ pairFirst ∧
    (setMateInfo pairFirst pairMapped).1.MatePosition = 1200 ∧
    pairFirst.MatePosition = 50000 :=
  ⟨by decide, by decide, by decide, by decide, by decide, by decide⟩

/-! ## Properties of the mate-fixing manager: one reference in the set -/

/-- What `setMateInfo` does to the reference ids: that of a mapped record stays, and an
unmapped record with a mapped mate gets that of the mate. -/
theorem setMateInfo_RefID (rec1 rec2 : OGERead) :
    (rec1.mapped = true → (setMateInfo rec1 rec2).1.RefID = rec1.RefID) ∧
    (rec2.mapped = true → (setMateInfo rec1 rec2).2.RefID = rec2.RefID) ∧
    (rec1.mapped = false → rec2.mapped = true →
      (setMateInfo rec1 rec2).1.RefID = rec2.RefID) ∧
    (rec1.mapped = true → rec2.mapped = false →
      (setMateInfo rec1 rec2).2.RefID = rec1.RefID) := by
  unfold setMateInfo setMateInfo_flags setMateInfo_oneMapped
  cases h1 : rec1.mapped <;> cases h2 : rec2.mapped <;>
    simp [h1, h2, OGERead.AddTagMQ, OGERead.RemoveTagMQ, OGERead.setInsertSize,
      OGERead.SetIsMateReverseStrand, OGERead.SetIsMateMapped]

/-- What the first `if` of `addReadInternal` does to the set and to the mate map, when it
returns. -/
theorem flushIfNeeded_waiting (m flushed : ConstrainedMateFixingManager) (newRead : Nat)
    (canFlush : Bool) (hflush : m.flushIfNeeded newRead canFlush = some flushed) :
    flushed.reads = m.reads ∧ flushed.less = m.less ∧
    ((m.flushCondition newRead canFlush = false ∧ flushed.waitingReads = m.waitingReads) ∨
      flushed.waitingReads = []) ∧
    (∀ entry ∈ flushed.forMateMatching, entry ∈ m.forMateMatching) := by
  unfold flushIfNeeded at hflush
  split_ifs at hflush with hcond
  · cases hopt : m.waitingReads.getLast? with
    | none =>
      rw [flushQueue_empty m (List.getLast?_eq_none_iff.mp hopt)] at hflush
      exact absurd hflush (by simp)
    | some last =>
      rw [flushQueue_eq m last hopt] at hflush
      cases hflush
      refine ⟨rfl, rfl, Or.inr rfl, ?_⟩
      intro entry hentry
      simp only at hentry
      split_ifs at hentry
      · exact (List.mem_filter.mp hentry).1
      · simp at hentry
  · cases hflush
    exact ⟨rfl, rfl, Or.inl ⟨by simpa using hcond, rfl⟩, fun _ h => h⟩

/-- After `addReadInternal` every record in the set has the reference id that the new read
had when the call began. -/
theorem addReadInternal_RefID (m result : ConstrainedMateFixingManager) (newRead : Nat)
    (readWasModified canFlush : Bool) (hless : unorderedOnOneReference m.less)
    (hinv : onOneReference m)
    (hadd : m.addReadInternal newRead readWasModified canFlush = some result) :
    result.less = m.less ∧
    ∀ read ∈ result.waitingReads, (result.reads read).RefID = (m.reads newRead).RefID := by
  cases hflush : m.flushIfNeeded newRead canFlush with
  | none => simp [addReadInternal, hflush] at hadd
  | some flushed =>
    obtain ⟨hreads, hlessF, hwaiting, _⟩ :=
      flushIfNeeded_waiting m flushed newRead canFlush hflush
    have hall : ∀ read ∈ flushed.waitingReads,
        (flushed.reads read).RefID = (flushed.reads newRead).RefID := by
      intro read hread
      rcases hwaiting with ⟨hcond, hw⟩ | hw
      · rw [hw] at hread
        rw [hreads]
        unfold flushCondition at hcond
        cases hlist : m.waitingReads with
        | nil => rw [hlist] at hread; simp at hread
        | cons first rest =>
          rw [hlist] at hcond
          simp only [Bool.or_eq_false_iff, decide_eq_false_iff_not, not_not,
            OGERead.getRefID] at hcond
          rw [← hcond.2]
          exact hinv read hread first (hlist ▸ List.mem_cons_self _ _)
      · rw [hw] at hread
        simp at hread
    obtain ⟨reads, waiting, mates, heq, _, hcases⟩ :=
      fixMates_cases flushed newRead readWasModified
    have hfixed : ∀ read, read ∈ waiting ∨ read = newRead →
        (reads read).RefID = (flushed.reads newRead).RefID := by
      rcases hcases with ⟨hr, hw⟩ | ⟨mate, _, hr, hsub⟩
      · intro read hread
        rw [hr]
        rcases hread with hread | hread
        · exact hall read (hw ▸ hread)
        · rw [hread]
      · have hinfo := setMateInfo_RefID (flushed.reads mate) (flushed.reads newRead)
        have hkey : ∀ read, (read ∈ flushed.waitingReads ∨ read = mate ∨ read = newRead) →
            ((flushed.reads mate).mapped = true → (flushed.reads newRead).mapped = false →
              (flushed.reads mate).RefID = (flushed.reads newRead).RefID) →
            ((flushed.reads mate).mapped = true → mate ≠ newRead → read = mate →
              (flushed.reads mate).RefID = (flushed.reads newRead).RefID) →
            ((flushed.reads mate).mapped = false → (flushed.reads newRead).mapped = true) →
            (read ≠ mate → read ≠ newRead → read ∈ flushed.waitingReads) →
            (reads read).RefID = (flushed.reads newRead).RefID := by
          intro read _ hA hA2 hB hin
          rw [hr]
          simp only [Function.update_apply]
          split_ifs with h1 h2
          · cases hm : (flushed.reads newRead).mapped with
            | true => exact hinfo.2.1 hm
            | false =>
              cases hmate : (flushed.reads mate).mapped with
              | true => rw [hinfo.2.2.2 hmate hm]; exact hA hmate hm
              | false => rw [hB hmate] at hm; exact absurd hm (by simp)
          · cases hmate : (flushed.reads mate).mapped with
            | true => rw [hinfo.1 hmate]; exact hA2 hmate (h2 ▸ h1) h2
            | false => exact hinfo.2.2.1 hmate (hB hmate)
          · exact hall read (hin h2 h1)
        rcases hsub with ⟨hmate, hor, hw⟩ | ⟨hmate, hnew, _, hw⟩ | ⟨hmate, hnew, _, hw⟩
        · intro read hread
          refine hkey read ?_ ?_ ?_ ?_ ?_
          · rcases hread with h | h
            · exact Or.inl (hw ▸ h)
            · exact Or.inr (Or.inr h)
          · intro _ hunmapped
            rcases hor with h | h
            · rw [h] at hunmapped
              exact absurd hunmapped (by simp)
            · obtain ⟨other, hother, h1, h2⟩ :=
                exists_of_setCount_ne_zero flushed.lessPtr mate flushed.waitingReads h
              rw [← hall other hother]
              have hlessFlushed : unorderedOnOneReference flushed.less := by
                rw [hlessF]
                exact hless
              exact hlessFlushed mate other _ _ h1 h2
          · intro _ hne hrm
            rcases hread with h | h
            · exact hall mate (hrm ▸ hw ▸ h)
            · exact absurd (hrm ▸ h) hne
          · intro h
            rw [hmate] at h
            exact absurd h (by simp)
          · intro _ h2
            rcases hread with h | h
            · exact hw ▸ h
            · exact absurd h h2
        · intro read hread
          refine hkey read ?_ ?_ ?_ (fun _ => hnew) ?_
          · rcases hread with h | h
            · exact Or.inl (mem_setErase _ _ _ _ (hw ▸ h)).1
            · exact Or.inr (Or.inr h)
          · intro h
            rw [hmate] at h
            exact absurd h (by simp)
          · intro h
            rw [hmate] at h
            exact absurd h (by simp)
          · intro _ h2
            rcases hread with h | h
            · exact (mem_setErase _ _ _ _ (hw ▸ h)).1
            · exact absurd h h2
        · intro read hread
          have hmem : read ∈ waiting → read = mate ∨ read ∈ flushed.waitingReads := by
            intro h
            rw [hw] at h
            rcases mem_setInsert _ _ _ _ h with h | h
            · exact Or.inl h
            · exact Or.inr (mem_setErase _ _ _ _ h).1
          refine hkey read ?_ ?_ ?_ (fun _ => hnew) ?_
          · rcases hread with h | h
            · rcases hmem h with h | h
              · exact Or.inr (Or.inl h)
              · exact Or.inl h
            · exact Or.inr (Or.inr h)
          · intro h
            rw [hmate] at h
            exact absurd h (by simp)
          · intro h
            rw [hmate] at h
            exact absurd h (by simp)
          · intro h1 h2
            rcases hread with h | h
            · rcases hmem h with h | h
              · exact absurd h h1
              · exact h
            · exact absurd h h2
    have hfixReads : (flushed.fixMates newRead readWasModified).reads = reads := by
      rw [heq]
    have hfixWaiting : (flushed.fixMates newRead readWasModified).waitingReads = waiting := by
      rw [heq]
    have hfixLess : (flushed.fixMates newRead readWasModified).less = flushed.less := by
      rw [heq]
    obtain ⟨inserted, hr, _, hl, _, hq, hres⟩ :=
      addReadInternal_eq m flushed newRead readWasModified canFlush hflush
    have hins : ∀ read ∈ inserted.waitingReads,
        (inserted.reads read).RefID = (m.reads newRead).RefID := by
      intro read hread
      rw [hr, hfixReads, ← hreads]
      rw [hq, hfixWaiting] at hread
      rcases mem_setInsert _ _ _ _ hread with h | h
      · exact hfixed read (Or.inr h)
      · exact hfixed read (Or.inl h)
    rcases hres with hres | hres
    · rw [hres] at hadd
      cases hadd
      exact ⟨by rw [hl, hfixLess, hlessF], hins⟩
    · rw [hres] at hadd
      cases hadd
      obtain ⟨k, e1, e2, _, _, e5⟩ := emitLoop_frame newRead inserted.waitingReads inserted rfl
      refine ⟨by rw [e2, hl, hfixLess, hlessF], ?_⟩
      intro read hread
      rw [e1]
      rw [e5] at hread
      exact hins read (List.mem_of_mem_drop hread)

/-- The method `addReadInternal` keeps the set on one reference. -/
theorem onOneReference_addReadInternal (m result : ConstrainedMateFixingManager)
    (newRead : Nat) (readWasModified canFlush : Bool)
    (hless : unorderedOnOneReference m.less) (hinv : onOneReference m)
    (hadd : m.addReadInternal newRead readWasModified canFlush = some result) :
    unorderedOnOneReference result.less ∧ onOneReference result := by
  obtain ⟨hl, hall⟩ :=
    addReadInternal_RefID m result newRead readWasModified canFlush hless hinv hadd
  refine ⟨hl ▸ hless, ?_⟩
  intro first hfirst second hsecond
  rw [hall first hfirst, hall second hsecond]

/-- The method `addReads` keeps the set on one reference. -/
theorem onOneReference_addReads (modifiedReads : List Nat) :
    ∀ (newReads : List Nat) (m result : ConstrainedMateFixingManager),
      unorderedOnOneReference m.less → onOneReference m →
      m.addReads newReads modifiedReads = some result →
      unorderedOnOneReference result.less ∧ onOneReference result := by
  intro newReads
  induction newReads with
  | nil =>
    intro m result hless hinv hadd
    simp only [addReads, Option.some.injEq] at hadd
    exact hadd ▸ ⟨hless, hinv⟩
  | cons newRead rest ih =>
    intro m result hless hinv hadd
    unfold addReads at hadd
    cases hone : m.addReadInternal newRead (decide (modifiedReads.count newRead > 0)) false with
    | none =>
      rw [hone] at hadd
      simp at hadd
    | some next =>
      rw [hone] at hadd
      obtain ⟨h1, h2⟩ := onOneReference_addReadInternal m next _ _ _ hless hinv hone
      exact ih next result h1 h2 hadd

/-- A sequence of calls keeps the set on one reference. -/
theorem onOneReference_runCalls :
    ∀ (calls : List ManagerCall) (m result : ConstrainedMateFixingManager),
      unorderedOnOneReference m.less → onOneReference m →
      m.runCalls calls = some result → onOneReference result := by
  intro calls
  induction calls with
  | nil =>
    intro m result _ hinv hrun
    simp only [runCalls, Option.some.injEq] at hrun
    exact hrun ▸ hinv
  | cons call rest ih =>
    intro m result hless hinv hrun
    cases call with
    | addRead newRead readWasModified canFlush =>
      unfold runCalls at hrun
      cases hone : m.addRead newRead readWasModified canFlush with
      | none => simp [hone] at hrun
      | some next =>
        simp only [hone] at hrun
        obtain ⟨h1, h2⟩ := onOneReference_addReadInternal m next _ _ _ hless hinv hone
        exact ih next result h1 h2 hrun
    | addReads newReads modifiedReads =>
      unfold runCalls at hrun
      cases hone : m.addReads newReads modifiedReads with
      | none => simp [hone] at hrun
      | some next =>
        simp only [hone] at hrun
        obtain ⟨h1, h2⟩ := onOneReference_addReads modifiedReads newReads m next hless hinv hone
        exact ih next result h1 h2 hrun

/-- The comparator `sampleLess` orders any two records on different references. -/
theorem sampleLess_unorderedOnOneReference : unorderedOnOneReference sampleLess := by
  intro a b readA readB h1 h2
  by_contra hne
  have hne2 : ¬ readB.RefID = readA.RefID := fun h => hne h.symm
  unfold sampleLess at h1 h2
  simp only [ne_eq, hne, hne2, not_false_eq_true, if_true, decide_eq_false_iff_not] at h1 h2
  omega

/-- C29: when the comparator of `waitingReads` orders any two records that lie on
different references, then, starting from a manager whose set is empty, after every
sequence of `addRead` and `addReads` calls that returns, so after every call, all records in
`waitingReads` have the same reference id. -/
theorem C29_waiting_reads_on_one_reference (m result : ConstrainedMateFixingManager)
    (calls : List ManagerCall) (hless : unorderedOnOneReference m.less)
    (hempty : m.waitingReads = []) (hrun : m.runCalls calls = some result) :
    ∀ first ∈ result.waitingReads, ∀ second ∈ result.waitingReads,
      (result.reads first).RefID = (result.reads second).RefID := by
  have hinv : onOneReference m := by
    intro first hfirst
    rw [hempty] at hfirst
    simp at hfirst
  exact onOneReference_runCalls calls m result hless hinv hrun

/-- C29 at the reads `pairFirst` and `pairSecond` of reference 0 followed by a read of
reference 1. -/
theorem C29_waiting_reads_on_one_reference_witness :
    ∃ result,
      (sampleManager 100 100 [pairFirst, pairSecond, singleOnNextContig]).runCalls
        [ManagerCall.addReads [0, 1] [], ManagerCall.addRead 2 false true] = some result ∧
      ∀ first ∈ result.waitingReads, ∀ second ∈ result.waitingReads,
        (result.reads first).RefID = (result.reads second).RefID := by
  obtain ⟨result, hrun⟩ := Option.isSome_iff_exists.mp
    (by decide : ((sampleManager 100 100 [pairFirst, pairSecond, singleOnNextContig]).runCalls
      [ManagerCall.addReads [0, 1] [], ManagerCall.addRead 2 false true]).isSome = true)
  exact ⟨result, hrun, C29_waiting_reads_on_one_reference
    (sampleManager 100 100 [pairFirst, pairSecond, singleOnNextContig]) result _
    sampleLess_unorderedOnOneReference rfl hrun⟩

/-! ## Properties of the mate-fixing manager: the order of the set -/

/-- An insertion into a set that is in order leaves it in order. -/
theorem setInsert_pairwise (lt : Nat → Nat → Bool)
    (htrans : ∀ x y z, lt x y = true → lt y z = true → lt x z = true) (x : Nat) :
    ∀ set : List Nat, set.Pairwise (fun a b => lt a b = true) →
      (setInsert lt x set).Pairwise (fun a b => lt a b = true) := by
  intro set
  induction set with
  | nil => intro _; simp [setInsert]
  | cons y ys ih =>
    intro h
    have hy := List.pairwise_cons.mp h
    unfold setInsert
    split_ifs with h1 h2
    · refine List.pairwise_cons.mpr ⟨?_, h⟩
      intro z hz
      rcases List.mem_cons.mp hz with hz | hz
      · rw [hz]; exact h1
      · exact htrans x y z h1 (hy.1 z hz)
    · refine List.pairwise_cons.mpr ⟨?_, ih hy.2⟩
      intro z hz
      rcases mem_setInsert lt x z ys hz with hz | hz
      · rw [hz]; exact h2
      · exact hy.1 z hz
    · exact h

/-- The call `count(x)` finds `x` in a set that holds it, when the comparator is
irreflexive. -/
theorem setCount_ne_zero_of_mem (lt : Nat → Nat → Bool) (x : Nat) (set : List Nat)
    (hirrefl : lt x x = false) (hx : x ∈ set) : setCount lt x set ≠ 0 := by
  unfold setCount
  have : x ∈ set.filter (fun y => !lt x y && !lt y x) :=
    List.mem_filter.mpr ⟨hx, by simp [hirrefl]⟩
  exact Nat.pos_iff_ne_zero.mp (List.length_pos_of_mem this)

/-- The mate-fixing step changes the reference id or the position of a record of the set
other than the new read only if the record is the mate, which `erase` takes out of the set
before the call of `setMateInfo` and `insert` puts back after it. -/
theorem fixMates_key_change (m : ConstrainedMateFixingManager) (newRead : Nat)
    (readWasModified : Bool) (hirrefl : ∀ x, m.less x x = false) (read : Nat)
    (hread : read ∈ m.waitingReads) (hne : read ≠ newRead)
    (hchange : ((m.fixMates newRead readWasModified).reads read).RefID ≠ (m.reads read).RefID ∨
      ((m.fixMates newRead readWasModified).reads read).Position ≠ (m.reads read).Position) :
    read ∉ setErase m.lessPtr read m.waitingReads ∧
    (m.fixMates newRead readWasModified).waitingReads =
      setInsert (m.fixMates newRead readWasModified).lessPtr read
        (setErase m.lessPtr read m.waitingReads) := by
  have hnotin : read ∉ setErase m.lessPtr read m.waitingReads := by
    intro h
    have := (mem_setErase _ _ _ _ h).2
    unfold lessPtr at this
    rw [hirrefl] at this
    simp at this
  refine ⟨hnotin, ?_⟩
  obtain ⟨reads, waiting, mates, heq, _, hcases⟩ := fixMates_cases m newRead readWasModified
  rw [heq] at hchange ⊢
  simp only at hchange
  rcases hcases with ⟨hr, _⟩ | ⟨mate, _, hr, hsub⟩
  · rw [hr] at hchange
    simp at hchange
  · have hval : reads read = if read = mate
        then (setMateInfo (m.reads mate) (m.reads newRead)).1 else m.reads read := by
      rw [hr]
      simp only [Function.update_apply, if_neg hne]
    by_cases hmate : read = mate
    · subst hmate
      rw [hval, if_pos rfl] at hchange
      rcases hsub with ⟨hmapped, _, _⟩ | ⟨_, _, hcount, _⟩ | ⟨_, _, _, hw⟩
      · have h1 := (setMateInfo_RefID (m.reads read) (m.reads newRead)).1 hmapped
        have h2 := (setMateInfo_keeps_mapped (m.reads read) (m.reads newRead)).1.2 hmapped
        rcases hchange with h | h
        · exact absurd h1 h
        · exact absurd h2 h
      · exact absurd hcount
          (setCount_ne_zero_of_mem m.lessPtr read m.waitingReads (hirrefl _) hread)
      · rw [hw]
        rfl
    · rw [hval, if_neg hmate] at hchange
      simp at hchange

/-- The function `setMateInfo` leaves the own fields of a mapped record as they are. -/
theorem setMateInfo_sameOwnFields (rec1 rec2 : OGERead) :
    (rec1.mapped = true → sameOwnFields rec1 (setMateInfo rec1 rec2).1) ∧
    (rec2.mapped = true → sameOwnFields rec2 (setMateInfo rec1 rec2).2) := by
  unfold sameOwnFields setMateInfo setMateInfo_flags setMateInfo_oneMapped
  cases h1 : rec1.mapped <;> cases h2 : rec2.mapped <;>
    simp [h1, h2, OGERead.AddTagMQ, OGERead.RemoveTagMQ, OGERead.setInsertSize,
      OGERead.SetIsMateReverseStrand, OGERead.SetIsMateMapped]

/-- The mate-fixing step leaves the set in order, when the comparator is keyed by
coordinate and the new read is not in the set. -/
theorem inSetOrder_fixMates (m : ConstrainedMateFixingManager) (newRead : Nat)
    (readWasModified : Bool) (hkeyed : KeyedByCoordinate m.less) (hsorted : inSetOrder m)
    (hnew : newRead ∉ m.waitingReads) :
    inSetOrder (m.fixMates newRead readWasModified) := by
  obtain ⟨reads, waiting, mates, heq, _, hcases⟩ := fixMates_cases m newRead readWasModified
  rw [heq]
  show waiting.Pairwise (fun a b => m.less (a, reads a) (b, reads b) = true)
  rcases hcases with ⟨hr, hw⟩ | ⟨mate, _, hr, hsub⟩
  · rw [hr, hw]
    exact hsorted
  · have hkeep : ∀ read, read ∈ m.waitingReads →
        (read = mate → (m.reads mate).mapped = true) →
        sameOwnFields (m.reads read) (reads read) := by
      intro read hread hmapped
      have hne : read ≠ newRead := fun h => hnew (h ▸ hread)
      rw [hr]
      simp only [Function.update_apply, if_neg hne]
      split_ifs with hmate
      · subst hmate
        exact (setMateInfo_sameOwnFields (m.reads read) (m.reads newRead)).1 (hmapped rfl)
      · exact ⟨rfl, rfl, rfl, rfl, rfl, rfl, rfl, rfl, rfl⟩
    have hnotin : mate ∉ setErase m.lessPtr mate m.waitingReads := by
      intro h
      have := (mem_setErase _ _ _ _ h).2
      unfold lessPtr at this
      rw [hkeyed.irrefl] at this
      simp at this
    have herased : (setErase m.lessPtr mate m.waitingReads).Pairwise
        (fun a b => m.less (a, reads a) (b, reads b) = true) := by
      have hsub : (setErase m.lessPtr mate m.waitingReads).Pairwise
          (fun a b => m.lessPtr a b = true) :=
        List.Pairwise.sublist (List.filter_sublist _) hsorted
      refine List.Pairwise.imp_of_mem ?_ hsub
      intro a b ha hb hab
      have ha2 := hkeep a (mem_setErase _ _ _ _ ha).1 (fun h => absurd (h ▸ ha) hnotin)
      have hb2 := hkeep b (mem_setErase _ _ _ _ hb).1 (fun h => absurd (h ▸ hb) hnotin)
      rw [← hkeyed.ownFields a b _ _ _ _ ha2 hb2]
      exact hab
    rcases hsub with ⟨hmapped, _, hw⟩ | ⟨_, _, _, hw⟩ | ⟨_, _, _, hw⟩
    · rw [hw]
      refine List.Pairwise.imp_of_mem ?_ hsorted
      intro a b ha hb hab
      have ha2 := hkeep a ha (fun _ => hmapped)
      have hb2 := hkeep b hb (fun _ => hmapped)
      rw [← hkeyed.ownFields a b _ _ _ _ ha2 hb2]
      exact hab
    · rw [hw]
      exact herased
    · rw [hw]
      exact setInsert_pairwise (fun a b => m.less (a, reads a) (b, reads b))
        (fun x y z => hkeyed.trans _ _ _) mate _ herased

/-- The mate-fixing step brings no record into the set or into the mate map but the mate
and the new read. -/
theorem knowsOnly_fixMates (added : List Nat) (m : ConstrainedMateFixingManager)
    (newRead : Nat) (readWasModified : Bool) (hknown : knowsOnly added m) :
    knowsOnly (added ++ [newRead]) (m.fixMates newRead readWasModified) := by
  obtain ⟨reads, waiting, mates, heq, hmates, hcases⟩ :=
    fixMates_cases m newRead readWasModified
  rw [heq]
  constructor
  · show ∀ read ∈ waiting, read ∈ added ++ [newRead]
    intro read hread
    refine List.mem_append_left _ ?_
    rcases hcases with ⟨_, hw⟩ | ⟨mate, hmate, _, hsub⟩
    · exact hknown.1 read (hw ▸ hread)
    · have hmateAdded : mate ∈ added := by
        obtain ⟨entry, hentry, rfl⟩ := List.mem_map.mp hmate
        exact hknown.2 entry hentry
      rcases hsub with ⟨_, _, hw⟩ | ⟨_, _, _, hw⟩ | ⟨_, _, _, hw⟩
      · exact hknown.1 read (hw ▸ hread)
      · exact hknown.1 read (mem_setErase _ _ _ _ (hw ▸ hread)).1
      · rw [hw] at hread
        rcases mem_setInsert _ _ _ _ hread with h | h
        · exact h ▸ hmateAdded
        · exact hknown.1 read (mem_setErase _ _ _ _ h).1
  · show ∀ entry ∈ mates, entry.2.record ∈ added ++ [newRead]
    intro entry hentry
    rcases hmates entry hentry with h | h
    · exact List.mem_append_left _ (hknown.2 entry h)
    · exact List.mem_append_right _ (by simp [h])

/-- What `addReadInternal` does after the first `if`, with the mate map: the mates are
fixed, the new read is inserted, and the emission sweep runs or does not. -/
theorem addReadInternal_inserted (m flushed : ConstrainedMateFixingManager) (newRead : Nat)
    (readWasModified canFlush : Bool)
    (hflush : m.flushIfNeeded newRead canFlush = some flushed) :
    ∃ inserted : ConstrainedMateFixingManager,
      inserted.reads = (flushed.fixMates newRead readWasModified).reads ∧
      inserted.less = (flushed.fixMates newRead readWasModified).less ∧
      inserted.forMateMatching = (flushed.fixMates newRead readWasModified).forMateMatching ∧
      inserted.waitingReads
        = setInsert (flushed.fixMates newRead readWasModified).lessPtr newRead
            (flushed.fixMates newRead readWasModified).waitingReads ∧
      (m.addReadInternal newRead readWasModified canFlush = some inserted ∨
        m.addReadInternal newRead readWasModified canFlush
          = some (inserted.emitLoop newRead inserted.waitingReads)) := by
  unfold addReadInternal
  rw [hflush]
  simp only []
  split_ifs
  · refine ⟨_, ?_, ?_, ?_, ?_, Or.inr rfl⟩ <;> rfl
  · refine ⟨_, ?_, ?_, ?_, ?_, Or.inl rfl⟩ <;> rfl

/-- The method `addReadInternal` leaves the set in order, when the comparator is keyed by
coordinate and the new read is not one of the reads added before. -/
theorem inSetOrder_addReadInternal (added : List Nat)
    (m result : ConstrainedMateFixingManager) (newRead : Nat)
    (readWasModified canFlush : Bool) (hkeyed : KeyedByCoordinate m.less)
    (hsorted : inSetOrder m) (hknown : knowsOnly added m) (hnew : newRead ∉ added)
    (hadd : m.addReadInternal newRead readWasModified canFlush = some result) :
    result.less = m.less ∧ inSetOrder result ∧ knowsOnly (added ++ [newRead]) result := by
  cases hflush : m.flushIfNeeded newRead canFlush with
  | none => simp [addReadInternal, hflush] at hadd
  | some flushed =>
    obtain ⟨hreads, hlessF, hwaiting, hmap⟩ :=
      flushIfNeeded_waiting m flushed newRead canFlush hflush
    have hkeyedF : KeyedByCoordinate flushed.less := hlessF ▸ hkeyed
    have hsortedF : inSetOrder flushed := by
      unfold inSetOrder lessPtr at hsorted ⊢
      rcases hwaiting with ⟨_, hw⟩ | hw
      · rw [hw, hreads, hlessF]
        exact hsorted
      · rw [hw]
        exact List.Pairwise.nil
    have hknownF : knowsOnly added flushed := by
      refine ⟨?_, fun entry hentry => hknown.2 entry (hmap entry hentry)⟩
      intro read hread
      rcases hwaiting with ⟨_, hw⟩ | hw
      · exact hknown.1 read (hw ▸ hread)
      · rw [hw] at hread
        simp at hread
    have hnewF : newRead ∉ flushed.waitingReads := fun h => hnew (hknownF.1 newRead h)
    have hsortedFix := inSetOrder_fixMates flushed newRead readWasModified hkeyedF hsortedF hnewF
    have hknownFix := knowsOnly_fixMates added flushed newRead readWasModified hknownF
    obtain ⟨reads, waiting, mates, heq, _⟩ := fixMates_eq flushed newRead readWasModified
    have hlessFix : (flushed.fixMates newRead readWasModified).less = flushed.less := by
      rw [heq]
    have hsortedIns : (setInsert (flushed.fixMates newRead readWasModified).lessPtr newRead
        (flushed.fixMates newRead readWasModified).waitingReads).Pairwise
        (fun a b => (flushed.fixMates newRead readWasModified).lessPtr a b = true) := by
      refine setInsert_pairwise _ ?_ newRead _ hsortedFix
      intro x y z
      unfold lessPtr
      rw [hlessFix]
      exact hkeyedF.trans _ _ _
    have hmemIns : ∀ read ∈ setInsert (flushed.fixMates newRead readWasModified).lessPtr
        newRead (flushed.fixMates newRead readWasModified).waitingReads,
        read ∈ added ++ [newRead] := by
      intro read hread
      rcases mem_setInsert _ _ _ _ hread with h | h
      · exact List.mem_append_right _ (by simp [h])
      · exact hknownFix.1 read h
    obtain ⟨inserted, hr, hl, hm, hq, hres⟩ :=
      addReadInternal_inserted m flushed newRead readWasModified canFlush hflush
    have hsortedInserted : inSetOrder inserted := by
      unfold inSetOrder lessPtr
      rw [hr, hl, hq]
      exact hsortedIns
    have hknownInserted : knowsOnly (added ++ [newRead]) inserted :=
      ⟨fun read hread => hmemIns read (hq ▸ hread),
        fun entry hentry => hknownFix.2 entry (hm ▸ hentry)⟩
    rcases hres with hres | hres
    · rw [hres] at hadd
      cases hadd
      exact ⟨(hl.trans hlessFix).trans hlessF, hsortedInserted, hknownInserted⟩
    · rw [hres] at hadd
      cases hadd
      obtain ⟨e1, _, e3, e4⟩ := emitLoop_eq newRead inserted.waitingReads inserted rfl
      obtain ⟨k, _, e2, _, _, _⟩ := emitLoop_frame newRead inserted.waitingReads inserted rfl
      refine ⟨by rw [e2]; exact (hl.trans hlessFix).trans hlessF, ?_, ?_, ?_⟩
      · unfold inSetOrder lessPtr
        rw [e1, e2, e3]
        exact List.Pairwise.sublist (List.dropWhile_sublist _) hsortedInserted
      · intro read hread
        rw [e3] at hread
        exact hknownInserted.1 read ((List.dropWhile_sublist _).subset hread)
      · intro entry hentry
        rw [e4] at hentry
        exact hknownInserted.2 entry (List.mem_filter.mp hentry).1

/-- The method `addReads` leaves the set in order. -/
theorem inSetOrder_addReads (modifiedReads : List Nat) :
    ∀ (newReads added : List Nat) (m result : ConstrainedMateFixingManager),
      KeyedByCoordinate m.less → inSetOrder m → knowsOnly added m →
      (added ++ newReads).Nodup → m.addReads newReads modifiedReads = some result →
      result.less = m.less ∧ inSetOrder result ∧ knowsOnly (added ++ newReads) result := by
  intro newReads
  induction newReads with
  | nil =>
    intro added m result _ hsorted hknown _ hadd
    simp only [addReads, Option.some.injEq] at hadd
    subst hadd
    exact ⟨rfl, hsorted, by simpa using hknown⟩
  | cons newRead rest ih =>
    intro added m result hkeyed hsorted hknown hnodup hadd
    have hnodup2 : ((added ++ [newRead]) ++ rest).Nodup := by simpa using hnodup
    have hparts := List.nodup_append.mp (List.nodup_append.mp hnodup2).1
    have hnew : newRead ∉ added := fun hin =>
      hparts.2.2 hin (List.mem_singleton_self newRead)
    unfold addReads at hadd
    cases hone : m.addReadInternal newRead (decide (modifiedReads.count newRead > 0)) false with
    | none =>
      rw [hone] at hadd
      simp at hadd
    | some next =>
      rw [hone] at hadd
      obtain ⟨h1, h2, h3⟩ :=
        inSetOrder_addReadInternal added m next _ _ _ hkeyed hsorted hknown hnew hone
      obtain ⟨h4, h5, h6⟩ := ih (added ++ [newRead]) next result (h1 ▸ hkeyed) h2 h3 hnodup2 hadd
      exact ⟨h4.trans h1, h5, by simpa using h6⟩

/-- A sequence of calls leaves the set in order. -/
theorem inSetOrder_runCalls :
    ∀ (calls : List ManagerCall) (added : List Nat) (m result : ConstrainedMateFixingManager),
      KeyedByCoordinate m.less → inSetOrder m → knowsOnly added m →
      (added ++ calls.flatMap ManagerCall.pointers).Nodup → m.runCalls calls = some result →
      result.less = m.less ∧ inSetOrder result := by
  intro calls
  induction calls with
  | nil =>
    intro added m result _ hsorted _ _ hrun
    simp only [runCalls, Option.some.injEq] at hrun
    subst hrun
    exact ⟨rfl, hsorted⟩
  | cons call rest ih =>
    intro added m result hkeyed hsorted hknown hnodup hrun
    have hnodup2 : ((added ++ call.pointers) ++ rest.flatMap ManagerCall.pointers).Nodup := by
      simpa [List.flatMap_cons] using hnodup
    cases call with
    | addRead newRead readWasModified canFlush =>
      have hparts := List.nodup_append.mp (List.nodup_append.mp hnodup2).1
      have hnew : newRead ∉ added := fun hin =>
        hparts.2.2 hin (List.mem_singleton_self newRead)
      unfold runCalls at hrun
      cases hone : m.addRead newRead readWasModified canFlush with
      | none => simp [hone] at hrun
      | some next =>
        simp only [hone] at hrun
        obtain ⟨h1, h2, h3⟩ :=
          inSetOrder_addReadInternal added m next _ _ _ hkeyed hsorted hknown hnew hone
        obtain ⟨h4, h5⟩ := ih (added ++ [newRead]) next result (h1 ▸ hkeyed) h2 h3 hnodup2 hrun
        exact ⟨h4.trans h1, h5⟩
    | addReads newReads modifiedReads =>
      unfold runCalls at hrun
      cases hone : m.addReads newReads modifiedReads with
      | none => simp [hone] at hrun
      | some next =>
        simp only [hone] at hrun
        obtain ⟨h1, h2, h3⟩ := inSetOrder_addReads modifiedReads newReads added m next
          hkeyed hsorted hknown (List.nodup_append.mp hnodup2).1 hone
        obtain ⟨h4, h5⟩ := ih (added ++ newReads) next result (h1 ▸ hkeyed) h2 h3 hnodup2 hrun
        exact ⟨h4.trans h1, h5⟩

/-- The comparator `sampleLess` is keyed by coordinate. -/
theorem sampleLess_keyedByCoordinate : KeyedByCoordinate sampleLess := by
  refine ⟨?_, ?_, sampleLess_unorderedOnOneReference, ?_, ?_⟩
  · intro x
    simp [sampleLess]
  · intro x y z hxy hyz
    unfold sampleLess at hxy hyz ⊢
    split_ifs at hxy hyz ⊢ <;> simp only [decide_eq_true_eq] at hxy hyz ⊢ <;> omega
  · intro a b readA readB hless href
    unfold sampleLess at hless
    simp only [href, ne_eq, not_true_eq_false, if_false] at hless
    split_ifs at hless with hpos
    · omega
    · exact le_of_lt (by simpa using hless)
  · intro a b readA readA2 readB readB2 h1 h2
    simp only [sampleLess, h1.2.1, h1.2.2.1, h2.2.1, h2.2.2.1]

/-- The comparator of the specification is keyed by coordinate. -/
theorem coordinateLess_keyedByCoordinate : KeyedByCoordinate coordinateLess := by
  refine ⟨?_, ?_, ?_, ?_, ?_⟩
  · intro x
    simp [coordinateLess]
  · intro x y z hxy hyz
    unfold coordinateLess at hxy hyz ⊢
    simp only [OGERead.IsReverseStrand] at hxy hyz ⊢
    split_ifs at hxy hyz ⊢ <;>
      simp only [decide_eq_true_eq, Bool.and_eq_true, Bool.not_eq_true',
        Bool.false_eq_true] at hxy hyz ⊢ <;>
      first
        | omega
        | exact ⟨hxy.1, hyz.2⟩
  · intro a b readA readB h1 h2
    by_contra hne
    have hne2 : ¬ readB.RefID = readA.RefID := fun h => hne h.symm
    unfold coordinateLess at h1 h2
    simp only [ne_eq, hne, hne2, not_false_eq_true, if_true] at h1 h2
    split_ifs at h1 h2 <;> simp only [decide_eq_false_iff_not, Bool.true_eq_false] at h1 h2 <;>
      omega
  · intro a b readA readB hless href
    unfold coordinateLess at hless
    simp only [href, ne_eq, not_true_eq_false, if_false] at hless
    split_ifs at hless with hpos
    · omega
    · exact le_of_lt (by simpa using hless)
  · intro a b readA readA2 readB readB2 h1 h2
    simp only [coordinateLess, OGERead.IsReverseStrand, h1.2.1, h1.2.2.1, h1.2.2.2.2.2.2.2.2,
      h2.2.1, h2.2.2.1, h2.2.2.2.2.2.2.2.2]

/-- C22: when the comparator of `waitingReads` is keyed by coordinate (irreflexive and
transitive, ordering records of different references, ordering records of one reference by
position, with ties broken by own fields of the records or by their addresses), then,
starting from a fresh manager, after every sequence of `addRead` and `addReads` calls that
returns and hands over no read twice, so after every call, `waitingReads` is ordered by
(contig, position): its records lie on one reference and their positions do not decrease,
and it is in the order of the comparator, with the records as they are now.  Whenever the
call of `setMateInfo` in a step of mate fixing changes the reference id or the position of a
record of the set (other than the read that is being added, which is not in the set), that
record was taken out of the set by `erase` before the call, and is put back by `insert`
after it. -/
theorem C22_waiting_reads_stay_in_order (m result : ConstrainedMateFixingManager)
    (calls : List ManagerCall) (hkeyed : KeyedByCoordinate m.less)
    (hwaiting : m.waitingReads = []) (hmates : m.forMateMatching = [])
    (hnodup : (calls.flatMap ManagerCall.pointers).Nodup)
    (hrun : m.runCalls calls = some result) :
    result.waitingReads.Pairwise
      (fun a b => (result.reads a).RefID = (result.reads b).RefID ∧
        (result.reads a).Position ≤ (result.reads b).Position) ∧
    result.waitingReads.Pairwise
      (fun a b => result.less (a, result.reads a) (b, result.reads b) = true) ∧
    (∀ (state : ConstrainedMateFixingManager) (newRead read : Nat) (readWasModified : Bool),
      state.less = m.less → read ∈ state.waitingReads → read ≠ newRead →
      (((state.fixMates newRead readWasModified).reads read).RefID ≠ (state.reads read).RefID ∨
        ((state.fixMates newRead readWasModified).reads read).Position ≠
          (state.reads read).Position) →
      read ∉ setErase state.lessPtr read state.waitingReads ∧
      (state.fixMates newRead readWasModified).waitingReads =
        setInsert (state.fixMates newRead readWasModified).lessPtr read
          (setErase state.lessPtr read state.waitingReads)) := by
  have hsorted : inSetOrder m := by
    unfold inSetOrder
    rw [hwaiting]
    exact List.Pairwise.nil
  have hknown : knowsOnly [] m := by
    constructor
    · intro read hread
      rw [hwaiting] at hread
      simp at hread
    · intro entry hentry
      rw [hmates] at hentry
      simp at hentry
  have hone : onOneReference m := by
    intro first hfirst
    rw [hwaiting] at hfirst
    simp at hfirst
  obtain ⟨hless, horder⟩ := inSetOrder_runCalls calls [] m result hkeyed hsorted hknown
    (by simpa using hnodup) hrun
  have hreference := onOneReference_runCalls calls m result hkeyed.references hone hrun
  refine ⟨?_, horder, ?_⟩
  · refine List.Pairwise.imp_of_mem ?_ horder
    intro a b ha hb hab
    refine ⟨hreference a ha b hb, ?_⟩
    unfold lessPtr at hab
    rw [hless] at hab
    exact hkeyed.positions a b _ _ hab (hreference a ha b hb)
  · intro state newRead read readWasModified hstate hread hne hchange
    exact fixMates_key_change state newRead readWasModified
      (fun x => hstate ▸ hkeyed.irrefl x) read hread hne hchange

/-- C22 at an unpaired read at position 1200, the read `pairSecond`, whose unmapped flag is
set and which is added at position 50000, and its mapped mate `pairFirst`, of position
1000, added in this order.  When `pairFirst` is added, `pairSecond` waits behind the read
at position 1200; the mate fixing gives it the position 1000, and the set takes it out
before that and puts it back after it, in front of the read at position 1200.  After the
calls the set is ordered by position. -/
theorem C22_waiting_reads_stay_in_order_witness :
    ((sampleManager 100 100 requeueReads).runCalls
      [ManagerCall.addRead 2 false true, ManagerCall.addRead 0 false true]).map
      (fun m => (m.waitingReads, m.forMateMatching, m.counter))
      = some (pairSecondWaiting.waitingReads, pairSecondWaiting.forMateMatching,
          pairSecondWaiting.counter) ∧
    ((pairSecondWaiting.fixMates 1 false).reads 0).Position = 1000 ∧
    (pairSecondWaiting.reads 0).Position = 50000 ∧
    (pairSecondWaiting.fixMates 1 false).waitingReads =
      setInsert (pairSecondWaiting.fixMates 1 false).lessPtr 0
        (setErase pairSecondWaiting.lessPtr 0 pairSecondWaiting.waitingReads) ∧
    (pairSecondWaiting.fixMates 1 false).waitingReads = [0, 2] ∧
    ((sampleManager 100 100 requeueReads).runCalls
      [ManagerCall.addRead 2 false true, ManagerCall.addRead 0 false true,
        ManagerCall.addRead 1 false true]).map
      (fun m => m.waitingReads.map (fun read => (read, (m.reads read).Position)))
      = some [(0, 1000), (1, 1000), (2, 1200)] ∧
    ∃ result,
      (sampleManager 100 100 requeueReads).runCalls
        [ManagerCall.addRead 2 false true, ManagerCall.addRead 0 false true,
          ManagerCall.addRead 1 false true] = some result ∧
      result.waitingReads.Pairwise
        (fun a b => (result.reads a).RefID = (result.reads b).RefID ∧
          (result.reads a).Position ≤ (result.reads b).Position) := by
  obtain ⟨result, hrun⟩ := Option.isSome_iff_exists.mp
    (by decide : ((sampleManager 100 100 requeueReads).runCalls
      [ManagerCall.addRead 2 false true, ManagerCall.addRead 0 false true,
        ManagerCall.addRead 1 false true]).isSome = true)
  exact ⟨by decide, by decide, by decide,
    ((C22_waiting_reads_stay_in_order (sampleManager 100 100 requeueReads) result _
      sampleLess_keyedByCoordinate rfl rfl (by decide) hrun).2.2
      pairSecondWaiting 1 0 false rfl (by decide) (by decide) (Or.inr (by decide))).2,
    by decide, by decide, result, hrun,
    (C22_waiting_reads_stay_in_order (sampleManager 100 100 requeueReads) result _
      sampleLess_keyedByCoordinate rfl rfl (by decide) hrun).1⟩

/-- With the comparator of the specification, the same calls leave the set ordered by
position as well; `pairFirst`, which ties with `pairSecond` after the mate fixing, is not
inserted. -/
theorem requeue_with_coordinateLess :
    ((coordinateManager 100 100 requeueReads).runCalls
      [ManagerCall.addRead 2 false true, ManagerCall.addRead 0 false true,
        ManagerCall.addRead 1 false true]).map
      (fun m => m.waitingReads.map (fun read => (read, (m.reads read).Position)))
      = some [(0, 1000), (2, 1200)] := by
  decide

/-- The requeue at work: `pairSecond`, with its unmapped flag set, waits at position 50000
behind a read at position 1200; when its mapped mate `pairFirst`, of position 1000, is
added, `pairSecond` gets the position 1000 and a place in front of the read at position
1200. -/
theorem requeue_sample :
    ((sampleManager 100 100 [pairSecond, pairFirst,
        { singleOnNextContig with RefID := 0, Position := 1200 }]).runCalls
      [ManagerCall.addRead 2 false true, ManagerCall.addRead 0 false true]).map
      (fun m => m.waitingReads.map (fun read => (read, (m.reads read).Position)))
      = some [(2, 1200), (0, 50000)] ∧
    ((sampleManager 100 100 [pairSecond, pairFirst,
        { singleOnNextContig with RefID := 0, Position := 1200 }]).runCalls
      [ManagerCall.addRead 2 false true, ManagerCall.addRead 0 false true,
        ManagerCall.addRead 1 false true]).map
      (fun m => m.waitingReads.map (fun read => (read, (m.reads read).Position)))
      = some [(0, 1000), (1, 1000), (2, 1200)] :=
  ⟨by decide, by decide⟩

end OpenGE
